import Mathlib

/-!
# settled_vector: a vector whose elements never move

A shallow embedding of `settled_vector.h` / `settled_vector.cpp`.

* Addresses are natural numbers, `0` is `nullptr`.
* `sizeof(value_type)` is the parameter `sz`; an iterator `T *` is the address it points to,
  so `++it` adds `sz` and a difference of two iterators divides by `sz`.
* The process memory seen as objects of type `T` is a `Heap T`: the cell at an address holds
  `some x` when a live object `x` was constructed there and `none` otherwise.  Placement
  `new` with an initialiser writes `some`, a destructor call leaves `none`.
* `new (p) value_type` without an initialiser default-initialises.  Whether that stores
  anything depends on `value_type`, so the operations that reach it take a parameter
  `dflt : Option T`: `some d` for a type whose default constructor leaves the value `d`,
  `none` for a type whose default-initialisation performs no initialisation (`int`, any
  trivially default-constructible type).  In the second case no store happens and the cell
  keeps what the memory holds: the object found there, or `none` where the heap records no
  value for those bytes, which leaves the value of the new element open.
* `mmap` is not modelled: the address it returns is the parameter `mmap_result` of every
  operation that can reach `MMappedMemory::grow`.  `mprotect` and `munmap` have no effect
  on the objects and are left out; accesses outside the reservation are given no special
  meaning (the code performs no check).
* The two growth policies of `grow` are selected in the source by the preprocessor symbol
  `DONT_ACTUALLY_GROW`; here they are the two values of `Policy`.
* `size_t` is 64 bits wide (`default_num_bytes = 4L * 1024L * 1024L * 1024L`).
* Loops over iterator ranges carry the exit test of the source and a fuel bound that is the
  byte distance of the range.
-/

namespace detail

/-- The constant `default_num_bytes = 4L * 1024L * 1024L * 1024L`. -/
def default_num_bytes : Nat := 4 * 1024 * 1024 * 1024

/-- Modulus of `size_t` arithmetic. -/
def SIZE_MOD : Nat := 2 ^ 64

/-- Growth policy of `MMappedMemory::grow`: the branch taken under `#ifdef DONT_ACTUALLY_GROW`
(the one compiled in, because of the `#define` inside `grow`) or the `#else` branch, which
uses `page_size = getpagesize()`. -/
inductive Policy where
  | DONT_ACTUALLY_GROW : Policy
  | actually_grow (page_size : Nat) : Policy
deriving DecidableEq, Repr

/-- The arena `struct MMappedMemory { void * ptr; void * capacity_ptr; }`. -/
structure MMappedMemory where
  ptr : Nat
  capacity_ptr : Nat
deriving DecidableEq, Repr

namespace MMappedMemory

/-- Default constructor `MMappedMemory()`: both pointers are `nullptr`. -/
def init : MMappedMemory := ⟨0, 0⟩

/-- Move constructor `MMappedMemory(MMappedMemory && other)`: the new arena and what is
left in `other`. -/
def move_ctor (other : MMappedMemory) : MMappedMemory × MMappedMemory :=
  (⟨other.ptr, other.capacity_ptr⟩, ⟨0, 0⟩)

/-- Move assignment `operator=(MMappedMemory && other)`: swaps both pointers; returns
`*this` and `other` afterwards. -/
def move_assign (self other : MMappedMemory) : MMappedMemory × MMappedMemory :=
  (⟨other.ptr, other.capacity_ptr⟩, ⟨self.ptr, self.capacity_ptr⟩)

/-- The member `capacity()`: `capacity_ptr - ptr` in bytes. -/
def capacity (m : MMappedMemory) : Nat := m.capacity_ptr - m.ptr

/-- The member `begin()`. -/
def begin (m : MMappedMemory) : Nat := m.ptr

/-- The member `end()`. -/
def end_ (m : MMappedMemory) : Nat := m.capacity_ptr

/-- The function `MMappedMemory::grow(bytes_per_chunk, num_chunks)`. -/
def grow (pol : Policy) (mmap_result : Nat) (m : MMappedMemory)
    (bytes_per_chunk num_chunks : Nat) : MMappedMemory :=
  let bytes := (bytes_per_chunk * num_chunks) % SIZE_MOD
  if bytes = 0 then m
  else
    match pol with
    | Policy.DONT_ACTUALLY_GROW =>
      if m.ptr = 0 then
        ⟨mmap_result,
          mmap_result + (default_num_bytes / bytes_per_chunk) * bytes_per_chunk⟩
      else m
    | Policy.actually_grow page_size =>
      let m1 : MMappedMemory := if m.ptr = 0 then ⟨mmap_result, mmap_result⟩ else m
      let next_page_start :=
        m1.capacity_ptr + (page_size - (m1.capacity_ptr % page_size)) % page_size
      let bytes1 := (bytes + (page_size - (bytes % page_size)) % page_size) % SIZE_MOD
      let start_ptr := m1.ptr
      ⟨m1.ptr,
        start_ptr + ((next_page_start + bytes1 - start_ptr) / bytes_per_chunk) * bytes_per_chunk⟩

end MMappedMemory

end detail

open detail

/-- The objects of type `T` in memory, by address. -/
abbrev Heap (T : Type) := Nat → Option T

namespace Heap

variable {T : Type}

/-- The heap in which no object is live. -/
def empty : Heap T := fun _ => none

/-- Store a cell at address `p`. -/
def write (h : Heap T) (p : Nat) (c : Option T) : Heap T :=
  fun q => if q = p then c else h q

/-- The call `swap(*p, *q)` on two objects. -/
def swap (h : Heap T) (p q : Nat) : Heap T :=
  (h.write p (h q)).write q (h p)

end Heap

/-- The class `SettledVector<T>`: the arena and the cursor `end_ptr`. -/
structure SettledVector where
  memory : MMappedMemory
  end_ptr : Nat
deriving DecidableEq, Repr

namespace SettledVector

variable {T : Type}

/-- Difference `p - q` of two `T *`, converted to `size_type`. -/
def ptr_diff (sz p q : Nat) : Nat :=
  if q ≤ p then (p - q) / sz else (SIZE_MOD - (q - p) / sz) % SIZE_MOD

/-- Default constructor `SettledVector()`. -/
def init : SettledVector := ⟨MMappedMemory.init, 0⟩

/-- The member `begin()` / `cbegin()`. -/
def cbegin (v : SettledVector) : Nat := v.memory.begin

/-- The member `end()` / `cend()`. -/
def cend (v : SettledVector) : Nat := v.end_ptr

/-- The member `size()`. -/
def size (sz : Nat) (v : SettledVector) : Nat := ptr_diff sz v.end_ptr v.memory.begin

/-- The member `capacity()`. -/
def capacity (sz : Nat) (v : SettledVector) : Nat := v.memory.capacity / sz

/-- The member `empty()`. -/
def empty (v : SettledVector) : Bool := decide (v.end_ptr = v.memory.begin)

/-- The indexing operator `operator[](n)`, as the cell at `begin() + n`. -/
def get (sz : Nat) (v : SettledVector) (h : Heap T) (n : Nat) : Option T :=
  h (v.cbegin + n * sz)

/-- The cells `begin()[0] .. begin()[size() - 1]` in order. -/
def elems (sz : Nat) (v : SettledVector) (h : Heap T) : List (Option T) :=
  (List.range (size sz v)).map (fun i => get sz v h i)

/-- The private member `grow_if_necessary(n)`. -/
def grow_if_necessary (sz : Nat) (pol : Policy) (mmap_result : Nat) (v : SettledVector)
    (n : Nat) : SettledVector :=
  if ptr_diff sz v.memory.end_ v.end_ptr ≥ n then v
  else
    let memory := v.memory.grow pol mmap_result sz (max n (capacity sz v))
    ⟨memory, if v.end_ptr = 0 then memory.begin else v.end_ptr⟩

/-- The member `emplace_back(args...)`, the new object being `x`. -/
def emplace_back (sz : Nat) (pol : Policy) (mmap_result : Nat) (v : SettledVector)
    (h : Heap T) (x : T) : SettledVector × Heap T :=
  let v1 := grow_if_necessary sz pol mmap_result v 1
  (⟨v1.memory, v1.end_ptr + sz⟩, h.write v1.end_ptr (some x))

/-- The member `push_back(element)`. -/
def push_back (sz : Nat) (pol : Policy) (mmap_result : Nat) (v : SettledVector)
    (h : Heap T) (element : T) : SettledVector × Heap T :=
  emplace_back sz pol mmap_result v h element

/-- The member `pop_back()`: `(--end_ptr)->~value_type()`. -/
def pop_back (sz : Nat) (v : SettledVector) (h : Heap T) : SettledVector × Heap T :=
  (⟨v.memory, v.end_ptr - sz⟩, h.write (v.end_ptr - sz) none)

/-- The loop `for (++to_insert; to_insert != end_it; ++to_insert) swap(*end_ptr, *to_insert)`
of `emplace`, entered after the `++to_insert`. -/
def emplace_loop (sz end_ptr end_it : Nat) : Nat → Nat → Heap T → Heap T
  | 0, _, h => h
  | fuel + 1, to_insert, h =>
    if to_insert = end_it then h
    else emplace_loop sz end_ptr end_it fuel (to_insert + sz) (h.swap end_ptr to_insert)

/-- The member `emplace(position, args...)`, the new object being `x`. -/
def emplace (sz : Nat) (pol : Policy) (mmap_result : Nat) (v : SettledVector)
    (h : Heap T) (position : Nat) (x : T) : SettledVector × Heap T :=
  if position = cend v then emplace_back sz pol mmap_result v h x
  else
    let v1 := grow_if_necessary sz pol mmap_result v 1
    let to_insert := cbegin v1 + ((position - cbegin v1) / sz) * sz
    let h1 := h.write v1.end_ptr (h to_insert)
    let h2 := h1.write to_insert none
    let h3 := h2.write to_insert (some x)
    let end_it := cend v1
    let h4 := emplace_loop sz v1.end_ptr end_it (end_it - (to_insert + sz)) (to_insert + sz) h3
    (⟨v1.memory, v1.end_ptr + sz⟩, h4)

/-- The member `insert(position, value)`. -/
def insert (sz : Nat) (pol : Policy) (mmap_result : Nat) (v : SettledVector)
    (h : Heap T) (position : Nat) (value : T) : SettledVector × Heap T :=
  emplace sz pol mmap_result v h position value

/-- The loop `for (after = before + 1; after != end_it; ++after, ++before)
swap(*before, *after)` of `erase`. -/
def erase_loop (sz end_it : Nat) : Nat → Nat → Nat → Heap T → Heap T
  | 0, _, _, h => h
  | fuel + 1, before, after, h =>
    if after = end_it then h
    else erase_loop sz end_it fuel (before + sz) (after + sz) (h.swap before after)

/-- The member `erase(position)`: the container, the heap and the iterator returned. -/
def erase (sz : Nat) (v : SettledVector) (h : Heap T) (position : Nat) :
    SettledVector × Heap T × Nat :=
  let offset := ptr_diff sz position (cbegin v)
  let end_it := cend v
  let before := cbegin v + offset * sz
  let h1 := erase_loop sz end_it (end_it - (before + sz)) before (before + sz) h
  let r := pop_back sz v h1
  (r.1, r.2, cbegin r.1 + offset * sz)

/-- The loop `while (!empty()) pop_back()`. -/
def clear_loop (sz : Nat) : Nat → SettledVector → Heap T → SettledVector × Heap T
  | 0, v, h => (v, h)
  | fuel + 1, v, h =>
    if !(empty v) then clear_loop sz fuel (pop_back sz v h).1 (pop_back sz v h).2
    else (v, h)

/-- The member `clear()`. -/
def clear (sz : Nat) (v : SettledVector) (h : Heap T) : SettledVector × Heap T :=
  clear_loop sz (v.end_ptr - v.memory.begin) v h

/-- The member `reserve(n)`. -/
def reserve (sz : Nat) (pol : Policy) (mmap_result : Nat) (v : SettledVector) (n : Nat) :
    SettledVector :=
  if n > capacity sz v then
    grow_if_necessary sz pol mmap_result v ((n + SIZE_MOD - size sz v) % SIZE_MOD)
  else v

/-- The loop `while (n < size()) pop_back()` of `resize`. -/
def resize_shrink (sz n : Nat) : Nat → SettledVector → Heap T → SettledVector × Heap T
  | 0, v, h => (v, h)
  | fuel + 1, v, h =>
    if n < size sz v then resize_shrink sz n fuel (pop_back sz v h).1 (pop_back sz v h).2
    else (v, h)

/-- The expression `new (p) value_type`, default-initialisation of an object at `p`: the
default constructor stores its value `d` when `value_type` has one (`dflt = some d`), and
nothing is stored when default-initialisation performs no initialisation (`dflt = none`). -/
def default_init (dflt : Option T) (h : Heap T) (p : Nat) : Heap T :=
  match dflt with
  | some d => h.write p (some d)
  | none => h

/-- The loop `while (n > size()) new (end_ptr++) value_type` of `resize`. -/
def resize_extend (sz n : Nat) (dflt : Option T) :
    Nat → SettledVector → Heap T → SettledVector × Heap T
  | 0, v, h => (v, h)
  | fuel + 1, v, h =>
    if n > size sz v then
      resize_extend sz n dflt fuel ⟨v.memory, v.end_ptr + sz⟩ (default_init dflt h v.end_ptr)
    else (v, h)

/-- The member `resize(n)`. -/
def resize (sz : Nat) (pol : Policy) (mmap_result : Nat) (dflt : Option T) (v : SettledVector)
    (h : Heap T) (n : Nat) : SettledVector × Heap T :=
  let v1 := reserve sz pol mmap_result v n
  let r := resize_shrink sz n (size sz v1) v1 h
  resize_extend sz n dflt n r.1 r.2

/-- The constructor `SettledVector(size_type n)`. -/
def sized_ctor (sz : Nat) (pol : Policy) (mmap_result : Nat) (dflt : Option T) (h : Heap T)
    (n : Nat) : SettledVector × Heap T :=
  resize sz pol mmap_result dflt init h n

/-- The constructor `SettledVector(InputIterator first, InputIterator last)`, the input
range being the list `xs`: one `push_back` per element. -/
def range_ctor (sz : Nat) (pol : Policy) (mmap_result : Nat) (h : Heap T) (xs : List T) :
    SettledVector × Heap T :=
  xs.foldl (fun s x => push_back sz pol mmap_result s.1 s.2 x) (init, h)

/-- The loop `for (const value_type & value : other) new (end_ptr++) value_type(value)` of
the copy constructor; `it` runs from `other.begin()` to `last = other.end()`. -/
def copy_loop (sz last : Nat) : Nat → Nat → SettledVector → Heap T → SettledVector × Heap T
  | 0, _, v, h => (v, h)
  | fuel + 1, it, v, h =>
    if it = last then (v, h)
    else copy_loop sz last fuel (it + sz) ⟨v.memory, v.end_ptr + sz⟩ (h.write v.end_ptr (h it))

/-- The constructor `SettledVector(const SettledVector & other)`. -/
def copy_ctor (sz : Nat) (pol : Policy) (mmap_result : Nat) (other : SettledVector)
    (h : Heap T) : SettledVector × Heap T :=
  let v := reserve sz pol mmap_result init (size sz other)
  copy_loop sz (cend other) (cend other - cbegin other) (cbegin other) v h

/-- The constructor `SettledVector(SettledVector && other)`: the new container and what is
left in `other`. -/
def move_ctor (other : SettledVector) : SettledVector × SettledVector :=
  let m := MMappedMemory.move_ctor other.memory
  (⟨m.1, other.end_ptr⟩, ⟨m.2, m.2.begin⟩)

/-- The constructor `SettledVector(std::initializer_list<value_type> list)`. -/
def list_ctor (sz : Nat) (pol : Policy) (mmap_result : Nat) (h : Heap T) (list : List T) :
    SettledVector × Heap T :=
  let v := grow_if_necessary sz pol mmap_result init list.length
  list.foldl (fun s value => (⟨s.1.memory, s.1.end_ptr + sz⟩, s.2.write s.1.end_ptr (some value)))
    (v, h)

/-- The destructor `~SettledVector()`: `clear(); while (!empty()) pop_back();`, after which
the arena is released. Only the heap remains. -/
def dtor (sz : Nat) (v : SettledVector) (h : Heap T) : Heap T :=
  let r := clear sz v h
  (clear_loop sz (r.1.end_ptr - r.1.memory.begin) r.1 r.2).2

/-- The member `swap(other)`: `std::swap` on the arenas (move construction and two move
assignments) and on the cursors. -/
def swap (self other : SettledVector) : SettledVector × SettledVector :=
  let t := MMappedMemory.move_ctor self.memory
  let a := MMappedMemory.move_assign t.2 other.memory
  let b := MMappedMemory.move_assign a.2 t.1
  (⟨a.1, other.end_ptr⟩, ⟨b.1, self.end_ptr⟩)

/-- The assignment `operator=(SettledVector other)`: `other` is the by-value parameter,
already constructed by the caller; it is swapped in and then destroyed. -/
def assign (sz : Nat) (self other : SettledVector) (h : Heap T) : SettledVector × Heap T :=
  let r := swap self other
  (r.1, dtor sz r.2 h)

/-- The algorithm `std::equal(first1, last1, first2)` on `T *` ranges. -/
def std_equal [BEq T] (sz last1 : Nat) (h : Heap T) : Nat → Nat → Nat → Bool
  | 0, _, _ => true
  | fuel + 1, first1, first2 =>
    if first1 = last1 then true
    else if !(h first1 == h first2) then false
    else std_equal sz last1 h fuel (first1 + sz) (first2 + sz)

/-- The comparison `operator==(other)`. -/
def eq [BEq T] (sz : Nat) (self other : SettledVector) (h : Heap T) : Bool :=
  if size sz self ≠ size sz other then false
  else std_equal sz (cend self) h (cend self - cbegin self) (cbegin self) (cbegin other)

/-- The member `front()`. -/
def front (v : SettledVector) (h : Heap T) : Option T := h (cbegin v)

/-- The member `back()`. -/
def back (sz : Nat) (v : SettledVector) (h : Heap T) : Option T := h (cend v - sz)

/-- Rounding of a byte count up to whole pages, as `grow` writes it:
`x + (page_size - (x % page_size)) % page_size`. -/
def round_up (page_size x : Nat) : Nat := x + (page_size - x % page_size) % page_size

/-- Representation invariant of the source's data model: a container without reservation
has all three pointers null; otherwise `begin() <= end() <= memory.end()`, both distances
are whole numbers of elements, the usable end lies inside the reservation of
`default_num_bytes` bytes, under `DONT_ACTUALLY_GROW` the usable end is the one `grow`
fixes on the first call, and under the other policy the region start is page aligned. -/
structure Valid (sz : Nat) (pol : Policy) (v : SettledVector) : Prop where
  sz_pos : 0 < sz
  null : v.memory.ptr = 0 → v.memory.capacity_ptr = 0 ∧ v.end_ptr = 0
  begin_le : v.memory.ptr ≤ v.end_ptr
  end_le : v.end_ptr ≤ v.memory.capacity_ptr
  end_aligned : sz ∣ v.end_ptr - v.memory.ptr
  cap_aligned : sz ∣ v.memory.capacity_ptr - v.memory.ptr
  in_reservation : v.memory.capacity_ptr ≤ v.memory.ptr + default_num_bytes
  lazy_cap : pol = Policy.DONT_ACTUALLY_GROW → v.memory.ptr ≠ 0 →
    v.memory.capacity_ptr = v.memory.ptr + (default_num_bytes / sz) * sz
  page_aligned : ∀ page_size, pol = Policy.actually_grow page_size → page_size ∣ v.memory.ptr

/-- The container `v` holds the sequence `a` in heap `h`. -/
def Holds (sz : Nat) (pol : Policy) (v : SettledVector) (h : Heap T) (a : List T) : Prop :=
  Valid sz pol v ∧ elems sz v h = a.map some

/-- The address `mmap` returns: not null, and page aligned. -/
def MmapOk (pol : Policy) (mmap_result : Nat) : Prop :=
  mmap_result ≠ 0 ∧ ∀ page_size, pol = Policy.actually_grow page_size → page_size ∣ mmap_result

/-- The reservation has room for `n` more elements. Under `DONT_ACTUALLY_GROW`:
`size() + n` elements fit `default_num_bytes`. Under the other policy: either the usable
range already has `n` free slots, or the pages `grow` would commit for
`max(n, capacity())` further elements end inside the reservation. -/
def Room (sz : Nat) (pol : Policy) (v : SettledVector) (n : Nat) : Prop :=
  match pol with
  | Policy.DONT_ACTUALLY_GROW => (size sz v + n) * sz ≤ default_num_bytes
  | Policy.actually_grow page_size =>
    ptr_diff sz v.memory.end_ v.end_ptr ≥ n ∨
    round_up page_size v.memory.capacity
      + round_up page_size (sz * max n (capacity sz v)) ≤ default_num_bytes

/-- What `grow_if_necessary(n)` achieves: result `w` from state `v`. -/
structure GrowSpec (sz : Nat) (pol : Policy) (v : SettledVector) (n : Nat)
    (w : SettledVector) : Prop where
  valid : Valid sz pol w
  room : w.end_ptr + n * sz ≤ w.memory.capacity_ptr
  size_eq : size sz w = size sz v
  ptr_eq : v.memory.ptr ≠ 0 → w.memory.ptr = v.memory.ptr
  cap_le : capacity sz v ≤ capacity sz w

/-- Reference insertion of the specification, what a standard growable array holds after
`insert(begin() + p, x)`: `a[0..p) ++ [x] ++ a[p..n)`. -/
def reference_insert (a : List T) (p : Nat) (x : T) : List T :=
  a.take p ++ [x] ++ a.drop p

/-- Reference removal of the specification, what a standard growable array holds after
`erase(begin() + p)`: `a` without its element at index `p`. -/
def reference_erase (a : List T) (p : Nat) : List T :=
  a.take p ++ a.drop (p + 1)

/-- The address `q` lies in the reservation that `v` holds. -/
def InReservation (v : SettledVector) (q : Nat) : Prop :=
  v.memory.ptr ≠ 0 ∧ v.memory.ptr ≤ q ∧ q < v.memory.ptr + default_num_bytes

/-- The container of the tests, `SettledVector<int> a = { 1, 2, 3 }`, with `sizeof(int) = 4`
and the reservation at address `65536`. -/
def test_vector : SettledVector × Heap Int :=
  list_ctor 4 Policy.DONT_ACTUALLY_GROW 65536 Heap.empty [1, 2, 3]

/-- The states a container can reach from its constructors by its operations, each applied
in an arbitrary heap and with an arbitrary successful `mmap` result. `fits v k` is the side
condition under which an operation that needs `k` further element slots is applied to `v`;
`pop_back` is applied to non-empty containers and `erase` at valid positions. -/
inductive Reachable (T : Type) (sz : Nat) (pol : Policy)
    (fits : SettledVector → Nat → Prop) : SettledVector → Prop
  | default_ctor : Reachable T sz pol fits init
  | sized_ctor (mm : Nat) (dflt : Option T) (h : Heap T) (n : Nat) :
      MmapOk pol mm → n < SIZE_MOD → fits init n →
      Reachable T sz pol fits (sized_ctor sz pol mm dflt h n).1
  | range_ctor (mm : Nat) (h : Heap T) (xs : List T) :
      MmapOk pol mm →
      (∀ k, k < xs.length → fits (range_ctor sz pol mm h (xs.take k)).1 1) →
      Reachable T sz pol fits (range_ctor sz pol mm h xs).1
  | copy_ctor (mm : Nat) (h : Heap T) (other : SettledVector) :
      Reachable T sz pol fits other → MmapOk pol mm → fits init (size sz other) →
      Reachable T sz pol fits (copy_ctor sz pol mm other h).1
  | move_ctor (other : SettledVector) :
      Reachable T sz pol fits other → Reachable T sz pol fits (move_ctor other).1
  | moved_from (other : SettledVector) :
      Reachable T sz pol fits other → Reachable T sz pol fits (move_ctor other).2
  | list_ctor (mm : Nat) (h : Heap T) (list : List T) :
      MmapOk pol mm → fits init list.length →
      Reachable T sz pol fits (list_ctor sz pol mm h list).1
  | push_back (mm : Nat) (h : Heap T) (v : SettledVector) (x : T) :
      Reachable T sz pol fits v → MmapOk pol mm → fits v 1 →
      Reachable T sz pol fits (push_back sz pol mm v h x).1
  | emplace_back (mm : Nat) (h : Heap T) (v : SettledVector) (x : T) :
      Reachable T sz pol fits v → MmapOk pol mm → fits v 1 →
      Reachable T sz pol fits (emplace_back sz pol mm v h x).1
  | insert (mm : Nat) (h : Heap T) (v : SettledVector) (p : Nat) (x : T) :
      Reachable T sz pol fits v → MmapOk pol mm → fits v 1 → p ≤ size sz v →
      Reachable T sz pol fits (insert sz pol mm v h (cbegin v + p * sz) x).1
  | emplace (mm : Nat) (h : Heap T) (v : SettledVector) (p : Nat) (x : T) :
      Reachable T sz pol fits v → MmapOk pol mm → fits v 1 → p ≤ size sz v →
      Reachable T sz pol fits (emplace sz pol mm v h (cbegin v + p * sz) x).1
  | pop_back (h : Heap T) (v : SettledVector) :
      Reachable T sz pol fits v → empty v = false →
      Reachable T sz pol fits (pop_back sz v h).1
  | erase (h : Heap T) (v : SettledVector) (p : Nat) :
      Reachable T sz pol fits v → p < size sz v →
      Reachable T sz pol fits (erase sz v h (cbegin v + p * sz)).1
  | clear (h : Heap T) (v : SettledVector) :
      Reachable T sz pol fits v → Reachable T sz pol fits (clear sz v h).1
  | resize (mm : Nat) (dflt : Option T) (h : Heap T) (v : SettledVector) (n : Nat) :
      Reachable T sz pol fits v → MmapOk pol mm → n < SIZE_MOD → fits v (n - size sz v) →
      Reachable T sz pol fits (resize sz pol mm dflt v h n).1
  | reserve (mm : Nat) (v : SettledVector) (n : Nat) :
      Reachable T sz pol fits v → MmapOk pol mm → n < SIZE_MOD → fits v (n - size sz v) →
      Reachable T sz pol fits (reserve sz pol mm v n)
  | swap_self (a b : SettledVector) :
      Reachable T sz pol fits a → Reachable T sz pol fits b →
      Reachable T sz pol fits (swap a b).1
  | swap_other (a b : SettledVector) :
      Reachable T sz pol fits a → Reachable T sz pol fits b →
      Reachable T sz pol fits (swap a b).2
  | assign (h : Heap T) (self other : SettledVector) :
      Reachable T sz pol fits self → Reachable T sz pol fits other →
      Reachable T sz pol fits (assign sz self other h).1

/-- The reservations of `default_num_bytes` bytes that start at `p` and at `q` do not
overlap. -/
def Separate (p q : Nat) : Prop :=
  p + default_num_bytes ≤ q ∨ q + default_num_bytes ≤ p

/-- The arenas reached from a default-constructed one by calls of `grow` that all use the
chunk size `c`, every `mmap` succeeding. -/
inductive GrownWith (pol : Policy) (c : Nat) : MMappedMemory → Prop
  | init : GrownWith pol c MMappedMemory.init
  | grow (m : MMappedMemory) (mm k : Nat) :
      GrownWith pol c m → mm ≠ 0 → GrownWith pol c (m.grow pol mm c k)

/-- The usable range of the arena `m` is a whole number of chunks of `c` bytes, and an
arena without reservation has no usable range. -/
def ChunkAligned (c : Nat) (m : MMappedMemory) : Prop :=
  m.ptr ≤ m.capacity_ptr ∧ c ∣ m.capacity_ptr - m.ptr ∧ (m.ptr = 0 → m.capacity_ptr = 0)

end SettledVector

/-! ## Arithmetic of the representation -/

namespace SettledVector

variable {T : Type}

theorem ptr_diff_add_mul {sz : Nat} (hsz : 0 < sz) (p k : Nat) :
    ptr_diff sz (p + k * sz) p = k := by
  unfold ptr_diff
  rw [if_pos (Nat.le_add_right _ _), Nat.add_sub_cancel_left, Nat.mul_div_cancel _ hsz]

theorem Valid.end_eq {sz : Nat} {pol : Policy} {v : SettledVector} (hv : Valid sz pol v) :
    v.end_ptr = v.memory.ptr + size sz v * sz := by
  obtain ⟨k, hk⟩ := hv.end_aligned
  have h1 : v.end_ptr = v.memory.ptr + k * sz := by
    have := hv.begin_le
    rw [Nat.mul_comm] at hk
    omega
  have h2 : size sz v = k := by
    unfold size MMappedMemory.begin
    rw [h1]
    exact ptr_diff_add_mul hv.sz_pos _ _
  rw [h2]
  exact h1

theorem Valid.cap_eq {sz : Nat} {pol : Policy} {v : SettledVector} (hv : Valid sz pol v) :
    v.memory.capacity_ptr = v.memory.ptr + capacity sz v * sz := by
  obtain ⟨k, hk⟩ := hv.cap_aligned
  have hle : v.memory.ptr ≤ v.memory.capacity_ptr := le_trans hv.begin_le hv.end_le
  unfold capacity MMappedMemory.capacity
  rw [hk, Nat.mul_div_cancel_left _ hv.sz_pos, Nat.mul_comm k sz, ← hk]
  omega

theorem Valid.size_le_capacity {sz : Nat} {pol : Policy} {v : SettledVector}
    (hv : Valid sz pol v) : size sz v ≤ capacity sz v := by
  have h1 := hv.end_eq
  have h2 := hv.cap_eq
  have h3 := hv.end_le
  rw [h1, h2] at h3
  have h4 : size sz v * sz ≤ capacity sz v * sz := by omega
  exact Nat.le_of_mul_le_mul_right h4 hv.sz_pos

theorem elems_length (sz : Nat) (v : SettledVector) (h : Heap T) :
    (elems sz v h).length = size sz v := by
  simp [elems]

theorem elems_eq_iff (sz : Nat) (v : SettledVector) (h : Heap T) (l : List (Option T)) :
    elems sz v h = l ↔
      size sz v = l.length ∧ ∀ i (hi : i < l.length), get sz v h i = l.get ⟨i, hi⟩ := by
  constructor
  · intro e
    subst e
    refine ⟨(elems_length sz v h).symm, ?_⟩
    intro i hi
    simp [elems]
  · rintro ⟨h1, h2⟩
    apply List.ext_get
    · rw [elems_length, h1]
    · intro i hi1 hi2
      rw [← h2 i hi2]
      simp [elems]


theorem round_up_ge (P x : Nat) : x ≤ round_up P x := Nat.le_add_right _ _

theorem round_up_zero (P : Nat) : round_up P 0 = 0 := by
  simp [round_up]

theorem round_up_add_of_dvd {P p : Nat} (hp : P ∣ p) (x : Nat) :
    round_up P (p + x) = p + round_up P x := by
  unfold round_up
  obtain ⟨k, rfl⟩ := hp
  rw [Nat.mul_add_mod]
  omega

theorem size_mod_eq : SIZE_MOD = 18446744073709551616 := by
  norm_num [SIZE_MOD]

theorem default_num_bytes_eq : default_num_bytes = 4294967296 := by
  norm_num [default_num_bytes]

theorem grow_if_necessary_of_room {sz : Nat} {pol : Policy} {v : SettledVector} {n : Nat}
    (mm : Nat) (hv : Valid sz pol v) (h : v.end_ptr + n * sz ≤ v.memory.capacity_ptr) :
    grow_if_necessary sz pol mm v n = v := by
  unfold grow_if_necessary
  rw [if_pos]
  unfold ptr_diff MMappedMemory.end_
  rw [if_pos hv.end_le]
  rw [ge_iff_le, Nat.le_div_iff_mul_le hv.sz_pos]
  omega

theorem GrowSpec.refl {sz : Nat} {pol : Policy} {v : SettledVector} {n : Nat}
    (hv : Valid sz pol v) (h : v.end_ptr + n * sz ≤ v.memory.capacity_ptr) :
    GrowSpec sz pol v n v :=
  ⟨hv, h, rfl, fun _ => rfl, le_refl _⟩

theorem grow_if_necessary_spec {sz : Nat} {pol : Policy} {v : SettledVector} {n : Nat}
    (mm : Nat) (hv : Valid sz pol v) (hmm : MmapOk pol mm) (hroom : Room sz pol v n) :
    GrowSpec sz pol v n (grow_if_necessary sz pol mm v n) := by
  have hsz := hv.sz_pos
  have hend := hv.end_eq
  have hcap := hv.cap_eq
  have hsc := hv.size_le_capacity
  by_cases hr : v.end_ptr + n * sz ≤ v.memory.capacity_ptr
  · rw [grow_if_necessary_of_room mm hv hr]
    exact GrowSpec.refl hv hr
  · have hnpos : 0 < n := by
      rcases Nat.eq_zero_or_pos n with h0 | h0
      · subst h0
        have := hv.end_le
        omega
      · exact h0
    have hnot : ¬ (ptr_diff sz v.memory.end_ v.end_ptr ≥ n) := by
      unfold ptr_diff MMappedMemory.end_
      rw [if_pos hv.end_le, ge_iff_le, Nat.le_div_iff_mul_le hsz]
      have := hv.end_le
      omega
    cases pol with
    | DONT_ACTUALLY_GROW =>
      have hroom1 : (size sz v + n) * sz ≤ default_num_bytes := hroom
      have hle : size sz v + n ≤ default_num_bytes / sz :=
        (Nat.le_div_iff_mul_le hsz).2 hroom1
      have hdm : (default_num_bytes / sz) * sz ≤ default_num_bytes := Nat.div_mul_le_self _ _
      by_cases hp : v.memory.ptr = 0
      · obtain ⟨hc0, he0⟩ := hv.null hp
        have hs0 : size sz v = 0 := by
          have : size sz v * sz = 0 := by omega
          rcases Nat.mul_eq_zero.1 this with h | h
          · exact h
          · omega
        have hcap0 : capacity sz v = 0 := by
          simp [capacity, MMappedMemory.capacity, hc0, hp]
        have hbytes : (sz * max n (capacity sz v)) % SIZE_MOD ≠ 0 := by
          rw [hcap0, Nat.max_eq_left (Nat.zero_le _)]
          have h1 : sz * n ≤ default_num_bytes := by
            rw [hs0, Nat.zero_add, Nat.mul_comm] at hroom1
            exact hroom1
          have h2 : 0 < sz * n := Nat.mul_pos hsz hnpos
          rw [default_num_bytes_eq] at h1
          rw [size_mod_eq]
          omega
        have hres : grow_if_necessary sz Policy.DONT_ACTUALLY_GROW mm v n =
            ⟨⟨mm, mm + (default_num_bytes / sz) * sz⟩, mm⟩ := by
          unfold grow_if_necessary
          rw [if_neg hnot]
          simp only [MMappedMemory.grow, hbytes, if_false, hp, he0, if_true, MMappedMemory.begin]
        rw [hres]
        refine ⟨⟨hsz, ?_, ?_, ?_, ?_, ?_, ?_, ?_, ?_⟩, ?_, ?_, ?_, ?_⟩
        · intro h
          exact absurd h hmm.1
        · exact le_refl _
        · exact Nat.le_add_right _ _
        · simp
        · simp
        · simp only
          omega
        · intro _ _
          rfl
        · intro P hP
          cases hP
        · simp only
          rw [hs0, Nat.zero_add] at hle
          have := Nat.mul_le_mul_right sz hle
          omega
        · rw [hs0]
          simp [size, ptr_diff, MMappedMemory.begin]
        · intro h
          exact absurd hp h
        · rw [hcap0]
          exact Nat.zero_le _
      · exfalso
        have := hv.lazy_cap rfl hp
        have := Nat.mul_le_mul_right sz hle
        rw [Nat.add_mul] at this
        omega
    | actually_grow P =>
      have hroom1 : round_up P v.memory.capacity
          + round_up P (sz * max n (capacity sz v)) ≤ default_num_bytes := by
        rcases hroom with h | h
        · exact absurd h hnot
        · exact h
      have hb1 := round_up_ge P v.memory.capacity
      have hb2 := round_up_ge P (sz * max n (capacity sz v))
      have hbpos : 0 < sz * max n (capacity sz v) :=
        Nat.mul_pos hsz (lt_of_lt_of_le hnpos (Nat.le_max_left _ _))
      have hbytes : (sz * max n (capacity sz v)) % SIZE_MOD = sz * max n (capacity sz v) := by
        apply Nat.mod_eq_of_lt
        rw [default_num_bytes_eq] at hroom1
        rw [size_mod_eq]
        omega
      have hbytes1 : round_up P (sz * max n (capacity sz v)) % SIZE_MOD
          = round_up P (sz * max n (capacity sz v)) := by
        apply Nat.mod_eq_of_lt
        rw [default_num_bytes_eq] at hroom1
        rw [size_mod_eq]
        omega
      have hPm := hmm.2 P rfl
      have hPv := hv.page_aligned P rfl
      -- the pointers after the reservation step
      obtain ⟨p, hp0, hpP, hpv, hm1⟩ : ∃ p, p ≠ 0 ∧ P ∣ p ∧ (v.memory.ptr ≠ 0 → p = v.memory.ptr) ∧
          (if v.memory.ptr = 0 then (⟨mm, mm⟩ : MMappedMemory) else v.memory)
            = ⟨p, p + capacity sz v * sz⟩ := by
        by_cases hp : v.memory.ptr = 0
        · obtain ⟨hc0, he0⟩ := hv.null hp
          have hcap0 : capacity sz v = 0 := by
            simp [capacity, MMappedMemory.capacity, hc0, hp]
          exact ⟨mm, hmm.1, hPm, fun h => absurd hp h, by simp [hp, hcap0]⟩
        · refine ⟨v.memory.ptr, hp, hPv, fun _ => rfl, ?_⟩
          rw [if_neg hp, ← hcap]
      have hcapb : v.memory.capacity = capacity sz v * sz := by
        unfold MMappedMemory.capacity
        omega
      have hend' : (if v.end_ptr = 0 then p else v.end_ptr) = p + size sz v * sz := by
        by_cases hp : v.memory.ptr = 0
        · obtain ⟨hc0, he0⟩ := hv.null hp
          have : size sz v * sz = 0 := by omega
          rw [if_pos he0, this]
          rfl
        · have hle := hv.begin_le
          rw [if_neg (by omega), hpv hp]
          exact hend
      have hres : grow_if_necessary sz (Policy.actually_grow P) mm v n =
          ⟨⟨p, p + ((round_up P (capacity sz v * sz) + round_up P (sz * max n (capacity sz v)))
            / sz) * sz⟩, p + size sz v * sz⟩ := by
        unfold grow_if_necessary
        rw [if_neg hnot]
        simp only [MMappedMemory.grow, MMappedMemory.begin]
        rw [hbytes, if_neg (Nat.pos_iff_ne_zero.1 hbpos), hm1]
        simp only
        have e1 : p + capacity sz v * sz + (P - (p + capacity sz v * sz) % P) % P
            = p + round_up P (capacity sz v * sz) := round_up_add_of_dvd hpP _
        have e2 : sz * max n (capacity sz v) + (P - sz * max n (capacity sz v) % P) % P
            = round_up P (sz * max n (capacity sz v)) := rfl
        rw [e1, e2, hbytes1, hend', Nat.add_assoc, Nat.add_sub_cancel_left]
      rw [hres]
      rw [hcapb] at hroom1 hb1
      set U := round_up P (capacity sz v * sz) + round_up P (sz * max n (capacity sz v)) with hU
      have hge : (capacity sz v + max n (capacity sz v)) * sz ≤ (U / sz) * sz := by
        apply Nat.mul_le_mul_right
        rw [Nat.le_div_iff_mul_le hsz, Nat.add_mul, Nat.mul_comm (max n (capacity sz v)) sz]
        omega
      have hle2 : (U / sz) * sz ≤ U := Nat.div_mul_le_self _ _
      have hmax : n ≤ max n (capacity sz v) := Nat.le_max_left _ _
      have hnsz : n * sz ≤ max n (capacity sz v) * sz := Nat.mul_le_mul_right sz hmax
      have hscz : size sz v * sz ≤ capacity sz v * sz := Nat.mul_le_mul_right sz hsc
      rw [Nat.add_mul] at hge
      refine ⟨⟨hsz, ?_, ?_, ?_, ?_, ?_, ?_, ?_, ?_⟩, ?_, ?_, ?_, ?_⟩
      · intro h
        exact absurd h hp0
      · exact Nat.le_add_right _ _
      · simp only
        omega
      · simp
      · simp
      · simp only
        omega
      · intro h
        cases h
      · intro P' hP'
        cases hP'
        exact hpP
      · simp only
        omega
      · simp only [size, MMappedMemory.begin]
        rw [ptr_diff_add_mul hsz]
      · intro h
        exact hpv h
      · simp only [capacity, MMappedMemory.capacity]
        rw [Nat.add_sub_cancel_left, Nat.mul_div_cancel _ hsz, Nat.le_div_iff_mul_le hsz]
        have : capacity sz v * sz = v.memory.capacity_ptr - v.memory.ptr := by omega
        rw [← this, Nat.mul_div_cancel _ hsz]
        omega

end SettledVector

/-! ## Heap cells and the sequence a container holds -/

namespace Heap
variable {T : Type}

theorem write_same (h : Heap T) (p : Nat) (c : Option T) : h.write p c p = c := by
  simp [write]

theorem write_ne (h : Heap T) {p q : Nat} (hne : q ≠ p) (c : Option T) :
    h.write p c q = h q := by
  simp [write, hne]

theorem swap_left (h : Heap T) (p q : Nat) : h.swap p q p = h q := by
  by_cases e : p = q
  · subst e
    simp [swap, write]
  · simp [swap, write, e]

theorem swap_right (h : Heap T) (p q : Nat) : h.swap p q q = h p := by
  simp [swap, write]

theorem swap_ne (h : Heap T) {p q r : Nat} (h1 : r ≠ p) (h2 : r ≠ q) : h.swap p q r = h r := by
  simp [swap, write, h1, h2]

end Heap

namespace SettledVector
variable {T : Type}

theorem addr_lt (sz base : Nat) {i j : Nat} (h : i < j) :
    base + i * sz + sz ≤ base + j * sz := by
  have : (i + 1) * sz ≤ j * sz := Nat.mul_le_mul_right sz h
  rw [Nat.add_mul, Nat.one_mul] at this
  omega

theorem addr_ne {sz : Nat} (hsz : 0 < sz) (base : Nat) {i j : Nat} (h : i ≠ j) :
    base + i * sz ≠ base + j * sz := by
  rcases Nat.lt_or_gt_of_ne h with h1 | h1
  · have := addr_lt sz base h1
    omega
  · have := addr_lt sz base h1
    omega

theorem size_eq_of_end {sz : Nat} (hsz : 0 < sz) {v : SettledVector} {n : Nat}
    (h : v.end_ptr = v.memory.ptr + n * sz) : size sz v = n := by
  unfold size MMappedMemory.begin
  rw [h]
  exact ptr_diff_add_mul hsz _ _

theorem holds_iff {sz : Nat} {pol : Policy} {v : SettledVector} {h : Heap T} {a : List T} :
    Holds sz pol v h a ↔ Valid sz pol v ∧ v.end_ptr = v.memory.ptr + a.length * sz ∧
      ∀ i, i < a.length → h (v.memory.ptr + i * sz) = a[i]? := by
  unfold Holds
  constructor
  · rintro ⟨hv, he⟩
    rw [elems_eq_iff] at he
    obtain ⟨h1, h2⟩ := he
    rw [List.length_map] at h1
    refine ⟨hv, ?_, ?_⟩
    · rw [← h1]
      exact hv.end_eq
    · intro i hi
      have := h2 i (by simpa using hi)
      simp only [get, cbegin, MMappedMemory.begin] at this
      rw [this]
      simp [List.getElem?_eq_getElem hi]
  · rintro ⟨hv, h1, h2⟩
    refine ⟨hv, ?_⟩
    rw [elems_eq_iff]
    refine ⟨?_, ?_⟩
    · rw [List.length_map]
      exact size_eq_of_end hv.sz_pos h1
    · intro i hi
      have hi' : i < a.length := by simpa using hi
      simp only [get, cbegin, MMappedMemory.begin]
      rw [h2 i hi']
      simp [List.getElem?_eq_getElem hi']

theorem Holds.valid {sz : Nat} {pol : Policy} {v : SettledVector} {h : Heap T} {a : List T}
    (hh : Holds sz pol v h a) : Valid sz pol v := hh.1

theorem Holds.size_eq {sz : Nat} {pol : Policy} {v : SettledVector} {h : Heap T} {a : List T}
    (hh : Holds sz pol v h a) : size sz v = a.length := by
  have := congrArg List.length hh.2
  rwa [elems_length, List.length_map] at this

/-- A container without reservation holds nothing. -/
theorem Holds.ptr_ne_zero {sz : Nat} {pol : Policy} {v : SettledVector} {h : Heap T}
    {a : List T} (hh : Holds sz pol v h a) (hpos : 0 < a.length) : v.memory.ptr ≠ 0 := by
  intro hp
  obtain ⟨hv, he, _⟩ := holds_iff.1 hh
  obtain ⟨_, he0⟩ := hv.null hp
  have : 0 < a.length * sz := Nat.mul_pos hpos hv.sz_pos
  omega

theorem GrowSpec.holds {sz : Nat} {pol : Policy} {v w : SettledVector} {n : Nat} {h : Heap T}
    {a : List T} (g : GrowSpec sz pol v n w) (hh : Holds sz pol v h a) :
    Holds sz pol w h a := by
  obtain ⟨hv, he, hc⟩ := holds_iff.1 hh
  have hs := hh.size_eq
  have hwe := g.valid.end_eq
  rw [g.size_eq, hs] at hwe
  refine holds_iff.2 ⟨g.valid, hwe, ?_⟩
  intro i hi
  have hp : v.memory.ptr ≠ 0 := hh.ptr_ne_zero (by omega)
  rw [g.ptr_eq hp]
  exact hc i hi

/-- Placement construction of `x` at `end_ptr` followed by `++end_ptr`. -/
theorem holds_construct_at_end {sz : Nat} {pol : Policy} {w : SettledVector} {h : Heap T}
    {a : List T} (hh : Holds sz pol w h a) (hroom : w.end_ptr + sz ≤ w.memory.capacity_ptr)
    (x : T) :
    Holds sz pol ⟨w.memory, w.end_ptr + sz⟩ (h.write w.end_ptr (some x)) (a ++ [x]) := by
  obtain ⟨hv, he, hc⟩ := holds_iff.1 hh
  have hsz := hv.sz_pos
  refine holds_iff.2 ⟨⟨hsz, ?_, ?_, hroom, ?_, hv.cap_aligned, hv.in_reservation,
    hv.lazy_cap, hv.page_aligned⟩, ?_, ?_⟩
  · intro hp
    have := hv.null hp
    simp only at hp ⊢
    omega
  · have := hv.begin_le
    simp only
    omega
  · simp only
    rw [he]
    refine ⟨a.length + 1, ?_⟩
    rw [Nat.mul_add, Nat.mul_one, Nat.mul_comm]
    omega
  · simp only [List.length_append, List.length_singleton]
    rw [he, Nat.add_mul, Nat.one_mul]
    omega
  · intro i hi
    simp only [List.length_append, List.length_singleton] at hi
    simp only
    rcases Nat.lt_or_ge i a.length with hlt | hge
    · rw [Heap.write_ne, hc i hlt, List.getElem?_append_left hlt]
      rw [he]
      exact addr_ne hsz _ (Nat.ne_of_lt hlt)
    · have hi2 : i = a.length := by omega
      subst hi2
      rw [← he, Heap.write_same]
      simp

/-- The call `(--end_ptr)->~value_type()`. -/
theorem holds_pop_back {sz : Nat} {pol : Policy} {v : SettledVector} {h : Heap T}
    {a : List T} (hh : Holds sz pol v h a) (hne : a ≠ []) :
    Holds sz pol (pop_back sz v h).1 (pop_back sz v h).2 a.dropLast := by
  obtain ⟨hv, he, hc⟩ := holds_iff.1 hh
  have hsz := hv.sz_pos
  have hpos : 0 < a.length := List.length_pos.2 hne
  have hlen : a.length = (a.length - 1) + 1 := by omega
  have he' : v.end_ptr - sz = v.memory.ptr + (a.length - 1) * sz := by
    rw [he]
    conv_lhs => rw [hlen, Nat.add_mul, Nat.one_mul]
    omega
  have hle := hv.end_le
  have hbl := hv.begin_le
  unfold pop_back
  refine holds_iff.2 ⟨⟨hsz, ?_, ?_, ?_, ?_, hv.cap_aligned, hv.in_reservation,
    hv.lazy_cap, hv.page_aligned⟩, ?_, ?_⟩
  · intro hp
    have := hv.null hp
    simp only at hp ⊢
    omega
  · simp only
    omega
  · simp only
    omega
  · simp only
    rw [he']
    refine ⟨a.length - 1, ?_⟩
    rw [Nat.mul_comm]
    omega
  · simp only [List.length_dropLast]
    exact he'
  · intro i hi
    simp only [List.length_dropLast] at hi
    simp only
    rw [he', Heap.write_ne, hc i (by omega)]
    · rw [List.dropLast_eq_take, List.getElem?_take]
      simp [hi]
    · exact addr_ne hsz _ (Nat.ne_of_lt hi)

end SettledVector

/-! ## The swap chains of `emplace` and `erase` -/

namespace SettledVector
variable {T : Type}

theorem addr_succ (sz base j : Nat) : base + j * sz + sz = base + (j + 1) * sz := by
  rw [Nat.add_mul, Nat.one_mul, Nat.add_assoc]

theorem emplace_loop_done (sz e : Nat) (fuel : Nat) (H : Heap T) :
    emplace_loop sz e e fuel e H = H := by
  cases fuel with
  | zero => rfl
  | succ f => simp [emplace_loop]

/-- Effect of the swap chain of `emplace` started at slot `j` of `n`, the spare slot being
slot `n`: outside the slots `j .. n` nothing changes; the spare slot receives the former
slot `n - 1`, slot `j` the former spare slot, and every slot between moves up by one. -/
theorem emplace_loop_spec {sz : Nat} (hsz : 0 < sz) (base n : Nat) :
    ∀ (d j fuel : Nat) (H : Heap T), j + d = n → d ≤ fuel →
      (∀ q, (∀ i, j ≤ i → i ≤ n → q ≠ base + i * sz) →
        emplace_loop sz (base + n * sz) (base + n * sz) fuel (base + j * sz) H q = H q) ∧
      (d = 0 → emplace_loop sz (base + n * sz) (base + n * sz) fuel (base + j * sz) H = H) ∧
      (0 < d →
        emplace_loop sz (base + n * sz) (base + n * sz) fuel (base + j * sz) H (base + n * sz)
          = H (base + (n - 1) * sz) ∧
        emplace_loop sz (base + n * sz) (base + n * sz) fuel (base + j * sz) H (base + j * sz)
          = H (base + n * sz) ∧
        ∀ i, j < i → i < n →
          emplace_loop sz (base + n * sz) (base + n * sz) fuel (base + j * sz) H (base + i * sz)
            = H (base + (i - 1) * sz)) := by
  intro d
  induction d with
  | zero =>
    intro j fuel H hjn _
    have hj : j = n := by omega
    subst hj
    rw [emplace_loop_done]
    exact ⟨fun _ _ => rfl, fun _ => rfl, fun h => absurd h (Nat.lt_irrefl 0)⟩
  | succ d ih =>
    intro j fuel H hjn hfuel
    obtain ⟨f, rfl⟩ : ∃ f, fuel = f + 1 := ⟨fuel - 1, by omega⟩
    have hjn' : j < n := by omega
    have hne : base + j * sz ≠ base + n * sz := addr_ne hsz base (Nat.ne_of_lt hjn')
    have hstep : emplace_loop sz (base + n * sz) (base + n * sz) (f + 1) (base + j * sz) H
        = emplace_loop sz (base + n * sz) (base + n * sz) f (base + (j + 1) * sz)
            (H.swap (base + n * sz) (base + j * sz)) := by
      rw [emplace_loop, if_neg hne, addr_succ]
    rw [hstep]
    obtain ⟨hframe, hzero, hpos⟩ :=
      ih (j + 1) f (H.swap (base + n * sz) (base + j * sz)) (by omega) (by omega)
    refine ⟨?_, fun h => absurd h (Nat.succ_ne_zero d), fun _ => ?_⟩
    · intro q hq
      rw [hframe q (fun i h1 h2 => hq i (by omega) h2)]
      exact Heap.swap_ne _ (hq n (by omega) (le_refl _)) (hq j (le_refl _) (by omega))
    · rcases Nat.eq_zero_or_pos d with hd | hd
      · have hj1 : j + 1 = n := by omega
        rw [hzero hd]
        refine ⟨?_, ?_, ?_⟩
        · rw [Heap.swap_left]
          have : n - 1 = j := by omega
          rw [this]
        · rw [Heap.swap_right]
        · intro i h1 h2
          omega
      · obtain ⟨h1, h2, h3⟩ := hpos hd
        refine ⟨?_, ?_, ?_⟩
        · rw [h1]
          exact Heap.swap_ne _ (addr_ne hsz base (by omega)) (addr_ne hsz base (by omega))
        · rw [hframe (base + j * sz) (fun i hi1 hi2 => addr_ne hsz base (by omega))]
          exact Heap.swap_right _ _ _
        · intro i hi1 hi2
          rcases Nat.eq_or_lt_of_le hi1 with e | hlt
          · subst e
            rw [h2, Heap.swap_left]
            simp
          · rw [h3 i hlt hi2]
            exact Heap.swap_ne _ (addr_ne hsz base (by omega)) (addr_ne hsz base (by omega))

theorem erase_loop_done (sz e : Nat) (fuel before : Nat) (H : Heap T) :
    erase_loop sz e fuel before e H = H := by
  cases fuel with
  | zero => rfl
  | succ f => simp [erase_loop]

/-- Effect of the swap chain of `erase` started with `before` at slot `j` of `n`: outside the
slots `j .. n - 1` nothing changes; every slot from `j` to `n - 2` receives its successor and
slot `n - 1` receives the former slot `j`. -/
theorem erase_loop_spec {sz : Nat} (hsz : 0 < sz) (base n : Nat) :
    ∀ (d j fuel : Nat) (H : Heap T), j + 1 + d = n → d ≤ fuel →
      (∀ q, (∀ i, j ≤ i → i < n → q ≠ base + i * sz) →
        erase_loop sz (base + n * sz) fuel (base + j * sz) (base + (j + 1) * sz) H q = H q) ∧
      erase_loop sz (base + n * sz) fuel (base + j * sz) (base + (j + 1) * sz) H
          (base + (n - 1) * sz) = H (base + j * sz) ∧
      ∀ i, j ≤ i → i + 1 < n →
        erase_loop sz (base + n * sz) fuel (base + j * sz) (base + (j + 1) * sz) H
          (base + i * sz) = H (base + (i + 1) * sz) := by
  intro d
  induction d with
  | zero =>
    intro j fuel H hjn _
    have hj : j + 1 = n := by omega
    subst hj
    rw [erase_loop_done]
    refine ⟨fun _ _ => rfl, ?_, ?_⟩
    · simp
    · intro i h1 h2
      omega
  | succ d ih =>
    intro j fuel H hjn hfuel
    obtain ⟨f, rfl⟩ : ∃ f, fuel = f + 1 := ⟨fuel - 1, by omega⟩
    have hne : base + (j + 1) * sz ≠ base + n * sz := addr_ne hsz base (by omega)
    have hstep : erase_loop sz (base + n * sz) (f + 1) (base + j * sz) (base + (j + 1) * sz) H
        = erase_loop sz (base + n * sz) f (base + (j + 1) * sz) (base + (j + 1 + 1) * sz)
            (H.swap (base + j * sz) (base + (j + 1) * sz)) := by
      rw [erase_loop, if_neg hne, addr_succ, addr_succ]
    rw [hstep]
    obtain ⟨hframe, hlast, hmid⟩ :=
      ih (j + 1) f (H.swap (base + j * sz) (base + (j + 1) * sz)) (by omega) (by omega)
    refine ⟨?_, ?_, ?_⟩
    · intro q hq
      rw [hframe q (fun i h1 h2 => hq i (by omega) h2)]
      exact Heap.swap_ne _ (hq j (le_refl _) (by omega)) (hq (j + 1) (by omega) (by omega))
    · rw [hlast, Heap.swap_right]
    · intro i hi1 hi2
      rcases Nat.eq_or_lt_of_le hi1 with e | hlt
      · subst e
        rw [hframe (base + j * sz) (fun i h1 h2 => addr_ne hsz base (by omega))]
        exact Heap.swap_left _ _ _
      · rw [hmid i hlt hi2]
        exact Heap.swap_ne _ (addr_ne hsz base (by omega)) (addr_ne hsz base (by omega))

end SettledVector

/-! ## `emplace` and `erase` on a container holding a sequence -/

namespace SettledVector
variable {T : Type}

theorem getElem?_take_cons_drop (a : List T) (p : Nat) (x : T) (hp : p ≤ a.length) (i : Nat) :
    (a.take p ++ x :: a.drop p)[i]? =
      if i < p then a[i]? else if i = p then some x else a[i - 1]? := by
  have hl : (a.take p).length = p := by simp [hp]
  by_cases h1 : i < p
  · rw [if_pos h1, List.getElem?_append_left (by omega), List.getElem?_take]
    simp [h1]
  · rw [if_neg h1, List.getElem?_append_right (by omega), hl]
    by_cases h2 : i = p
    · subst h2
      simp
    · rw [if_neg h2]
      obtain ⟨k, hk⟩ : ∃ k, i - p = k + 1 := ⟨i - p - 1, by omega⟩
      rw [hk, List.getElem?_cons_succ, List.getElem?_drop]
      congr 1
      omega

theorem getElem?_take_drop_succ (a : List T) (p : Nat) (hp : p < a.length) (i : Nat) :
    (a.take p ++ a.drop (p + 1))[i]? = if i < p then a[i]? else a[i + 1]? := by
  have hl : (a.take p).length = p := by simp [Nat.le_of_lt hp]
  by_cases h1 : i < p
  · rw [if_pos h1, List.getElem?_append_left (by omega), List.getElem?_take]
    simp [h1]
  · rw [if_neg h1, List.getElem?_append_right (by omega), hl, List.getElem?_drop]
    congr 1
    omega

theorem Valid.extend {sz : Nat} {pol : Policy} {w : SettledVector} (hv : Valid sz pol w)
    (hroom : w.end_ptr + sz ≤ w.memory.capacity_ptr) :
    Valid sz pol ⟨w.memory, w.end_ptr + sz⟩ := by
  have he := hv.end_eq
  refine ⟨hv.sz_pos, ?_, ?_, hroom, ?_, hv.cap_aligned, hv.in_reservation,
    hv.lazy_cap, hv.page_aligned⟩
  · intro hp
    have := hv.null hp
    simp only at hp ⊢
    omega
  · have := hv.begin_le
    simp only
    omega
  · simp only
    rw [he]
    refine ⟨size sz w + 1, ?_⟩
    rw [Nat.mul_add, Nat.mul_one, Nat.mul_comm]
    omega

/-- The heap after the body of `emplace` at slot `p` of `n` live slots starting at `base`,
which hold `a`: slots `0 .. n` hold `a` with `x` inserted at `p`, and nothing outside
moves. -/
theorem emplace_heap {sz : Nat} (hsz : 0 < sz) (base n p : Nat) (hp : p < n) (h : Heap T)
    (a : List T) (hlen : a.length = n) (hc : ∀ i, i < n → h (base + i * sz) = a[i]?) (x : T) :
    (∀ i, i < n + 1 →
      emplace_loop sz (base + n * sz) (base + n * sz)
        (base + n * sz - (base + p * sz + sz)) (base + p * sz + sz)
        (((h.write (base + n * sz) (h (base + p * sz))).write
          (base + p * sz) none).write (base + p * sz) (some x)) (base + i * sz)
        = (a.take p ++ x :: a.drop p)[i]?) ∧
    ∀ q, (q < base ∨ base + n * sz + sz ≤ q) →
      emplace_loop sz (base + n * sz) (base + n * sz)
        (base + n * sz - (base + p * sz + sz)) (base + p * sz + sz)
        (((h.write (base + n * sz) (h (base + p * sz))).write
          (base + p * sz) none).write (base + p * sz) (some x)) q = h q := by
  have hpn : base + p * sz ≠ base + n * sz := addr_ne hsz base (Nat.ne_of_lt hp)
  obtain ⟨H3, hH3⟩ : ∃ H3 : Heap T, H3 = ((h.write (base + n * sz) (h (base + p * sz))).write
          (base + p * sz) none).write (base + p * sz) (some x) := ⟨_, rfl⟩
  have hH3p : H3 (base + p * sz) = some x := by
    rw [hH3]
    exact Heap.write_same _ _ _
  have hH3e : H3 (base + n * sz) = a[p]? := by
    rw [hH3, Heap.write_ne _ (Ne.symm hpn), Heap.write_ne _ (Ne.symm hpn),
      Heap.write_same, hc p hp]
  have hH3o : ∀ q, q ≠ base + p * sz → q ≠ base + n * sz → H3 q = h q := by
    intro q h1 h2
    rw [hH3, Heap.write_ne _ h1, Heap.write_ne _ h1, Heap.write_ne _ h2]
  have hstart : base + p * sz + sz = base + (p + 1) * sz := addr_succ sz base p
  have hfuel : n - (p + 1) ≤ base + n * sz - (base + (p + 1) * sz) := by
    have h1 : (n - (p + 1)) * 1 ≤ (n - (p + 1)) * sz := Nat.mul_le_mul_left _ hsz
    have h2 : (n - (p + 1)) * sz = n * sz - (p + 1) * sz := Nat.sub_mul _ _ _
    omega
  rw [← hH3, hstart]
  obtain ⟨hframe, hzero, hpos⟩ := emplace_loop_spec hsz base n (n - (p + 1)) (p + 1)
    (base + n * sz - (base + (p + 1) * sz)) H3 (by omega) hfuel
  constructor
  · intro i hi
    rw [getElem?_take_cons_drop a p x (by omega)]
    by_cases h1 : i < p
    · rw [if_pos h1, hframe _ (fun k hk1 hk2 => addr_ne hsz base (by omega)),
        hH3o _ (addr_ne hsz base (by omega)) (addr_ne hsz base (by omega))]
      exact hc i (by omega)
    · rw [if_neg h1]
      by_cases h2 : i = p
      · subst h2
        rw [if_pos rfl, hframe _ (fun k hk1 hk2 => addr_ne hsz base (by omega))]
        exact hH3p
      · rw [if_neg h2]
        rcases Nat.eq_zero_or_pos (n - (p + 1)) with hd | hd
        · have hi2 : i = n := by omega
          rw [hzero hd, hi2, hH3e]
          congr 1
          omega
        · obtain ⟨e1, e2, e3⟩ := hpos hd
          by_cases h3 : i = n
          · rw [h3, e1, hH3o _ (addr_ne hsz base (by omega)) (addr_ne hsz base (by omega))]
            exact hc _ (by omega)
          · by_cases h4 : i = p + 1
            · rw [h4, e2, hH3e]
              simp
            · rw [e3 i (by omega) (by omega),
                hH3o _ (addr_ne hsz base (by omega)) (addr_ne hsz base (by omega))]
              exact hc _ (by omega)
  · intro q hq
    have hqn : ∀ k, k ≤ n → q ≠ base + k * sz := by
      intro k hk
      have h1 : k * sz ≤ n * sz := Nat.mul_le_mul_right sz hk
      omega
    rw [hframe q (fun k _ hk2 => hqn k hk2)]
    exact hH3o q (hqn p (by omega)) (hqn n (le_refl _))

end SettledVector

namespace SettledVector
variable {T : Type}

/-- The heap after the swap chain of `erase` at slot `p` of `n` live slots starting at
`base`, which hold `a`, and the destruction of the last slot: slots `0 .. n - 2` hold `a`
without its element `p`, and nothing outside the live slots moves. -/
theorem erase_heap {sz : Nat} (hsz : 0 < sz) (base n p : Nat) (hp : p < n) (h : Heap T)
    (a : List T) (hlen : a.length = n) (hc : ∀ i, i < n → h (base + i * sz) = a[i]?) :
    (∀ i, i + 1 < n →
      (erase_loop sz (base + n * sz) (base + n * sz - (base + p * sz + sz))
        (base + p * sz) (base + p * sz + sz) h).write (base + n * sz - sz) none (base + i * sz)
        = (a.take p ++ a.drop (p + 1))[i]?) ∧
    ∀ q, (q < base ∨ base + n * sz ≤ q) →
      (erase_loop sz (base + n * sz) (base + n * sz - (base + p * sz + sz))
        (base + p * sz) (base + p * sz + sz) h).write (base + n * sz - sz) none q = h q := by
  have hstart : base + p * sz + sz = base + (p + 1) * sz := addr_succ sz base p
  have hlast : base + n * sz - sz = base + (n - 1) * sz := by
    have := addr_succ sz base (n - 1)
    have h2 : n - 1 + 1 = n := by omega
    rw [h2] at this
    omega
  have hfuel : n - (p + 1) ≤ base + n * sz - (base + (p + 1) * sz) := by
    have h1 : (n - (p + 1)) * 1 ≤ (n - (p + 1)) * sz := Nat.mul_le_mul_left _ hsz
    have h2 : (n - (p + 1)) * sz = n * sz - (p + 1) * sz := Nat.sub_mul _ _ _
    omega
  rw [hstart, hlast]
  obtain ⟨hframe, _, hmid⟩ := erase_loop_spec hsz base n (n - (p + 1)) p
    (base + n * sz - (base + (p + 1) * sz)) h (by omega) hfuel
  constructor
  · intro i hi
    rw [Heap.write_ne _ (addr_ne hsz base (by omega)), getElem?_take_drop_succ a p (by omega)]
    by_cases h1 : i < p
    · rw [if_pos h1, hframe _ (fun k hk1 hk2 => addr_ne hsz base (by omega))]
      exact hc i (by omega)
    · rw [if_neg h1, hmid i (by omega) hi]
      exact hc _ hi
  · intro q hq
    have hqn : ∀ k, k < n → q ≠ base + k * sz := by
      intro k hk
      have h1 := addr_lt sz base hk
      omega
    rw [Heap.write_ne _ (hqn _ (by omega)), hframe q (fun k _ hk2 => hqn k hk2)]

theorem Valid.shrink {sz : Nat} {pol : Policy} {v : SettledVector} (hv : Valid sz pol v)
    (hpos : 0 < size sz v) :
    Valid sz pol ⟨v.memory, v.end_ptr - sz⟩ ∧ size sz ⟨v.memory, v.end_ptr - sz⟩ = size sz v - 1 := by
  have he := hv.end_eq
  have hsz := hv.sz_pos
  have hle := hv.end_le
  have he' : v.end_ptr - sz = v.memory.ptr + (size sz v - 1) * sz := by
    have := addr_succ sz v.memory.ptr (size sz v - 1)
    have h2 : size sz v - 1 + 1 = size sz v := by omega
    rw [h2] at this
    omega
  refine ⟨⟨hsz, ?_, ?_, ?_, ?_, hv.cap_aligned, hv.in_reservation,
    hv.lazy_cap, hv.page_aligned⟩, ?_⟩
  · intro hp
    have := hv.null hp
    simp only at hp ⊢
    omega
  · simp only
    omega
  · simp only
    omega
  · simp only
    rw [he']
    refine ⟨size sz v - 1, ?_⟩
    rw [Nat.mul_comm]
    omega
  · exact size_eq_of_end hsz he'

theorem ptr_diff_slot {sz : Nat} (hsz : 0 < sz) (base p : Nat) :
    ptr_diff sz (base + p * sz) base = p := ptr_diff_add_mul hsz base p

/-- The member `emplace_back` on a container that holds `a`. -/
theorem holds_emplace_back {sz : Nat} {pol : Policy} {v : SettledVector} {h : Heap T}
    {a : List T} {mm : Nat} (hh : Holds sz pol v h a) (hmm : MmapOk pol mm)
    (hroom : Room sz pol v 1) (x : T) :
    Holds sz pol (emplace_back sz pol mm v h x).1 (emplace_back sz pol mm v h x).2 (a ++ [x]) := by
  have g := grow_if_necessary_spec mm hh.valid hmm hroom
  have hr := g.room
  rw [Nat.one_mul] at hr
  exact holds_construct_at_end (g.holds hh) hr x

/-- The member `emplace` at index `p` of a container that holds `a`. -/
theorem holds_emplace {sz : Nat} {pol : Policy} {v : SettledVector} {h : Heap T}
    {a : List T} {mm : Nat} (hh : Holds sz pol v h a) (hmm : MmapOk pol mm)
    (hroom : Room sz pol v 1) {p : Nat} (hp : p ≤ a.length) (x : T) :
    Holds sz pol (emplace sz pol mm v h (cbegin v + p * sz) x).1
      (emplace sz pol mm v h (cbegin v + p * sz) x).2 (a.take p ++ x :: a.drop p) := by
  obtain ⟨hv, he, hc⟩ := holds_iff.1 hh
  have hsz := hv.sz_pos
  rcases Nat.eq_or_lt_of_le hp with hpn | hpn
  · have hpos : cbegin v + p * sz = cend v := by
      simp only [cbegin, cend, MMappedMemory.begin]
      rw [he, hpn]
    unfold emplace
    rw [if_pos hpos, hpn, List.take_length, List.drop_length]
    exact holds_emplace_back hh hmm hroom x
  · have hpos : cbegin v + p * sz ≠ cend v := by
      simp only [cbegin, cend, MMappedMemory.begin]
      rw [he]
      exact addr_ne hsz _ (Nat.ne_of_lt hpn)
    have g := grow_if_necessary_spec mm hv hmm hroom
    have hr := g.room
    rw [Nat.one_mul] at hr
    have hw := g.holds hh
    have hptr := g.ptr_eq (hh.ptr_ne_zero (by omega))
    obtain ⟨hwv, hwe, hwc⟩ := holds_iff.1 hw
    unfold emplace
    rw [if_neg hpos]
    simp only [cbegin, cend, MMappedMemory.begin]
    rw [hptr, Nat.add_sub_cancel_left, Nat.mul_div_cancel _ hsz]
    rw [hptr] at hwe hwc
    rw [hwe]
    obtain ⟨h1, _⟩ := emplace_heap hsz v.memory.ptr a.length p hpn h a rfl hwc x
    refine holds_iff.2 ⟨?_, ?_, ?_⟩
    · have := hwv.extend hr
      rwa [hwe] at this
    · simp only [List.length_append, List.length_cons, List.length_take, List.length_drop]
      rw [hptr, addr_succ]
      congr 2
      omega
    · intro i hi
      simp only [List.length_append, List.length_cons, List.length_take, List.length_drop] at hi
      simp only
      rw [hptr]
      exact h1 i (by omega)

/-- The member `erase` at index `p` of a container that holds `a`. -/
theorem holds_erase {sz : Nat} {pol : Policy} {v : SettledVector} {h : Heap T}
    {a : List T} (hh : Holds sz pol v h a) {p : Nat} (hp : p < a.length) :
    Holds sz pol (erase sz v h (cbegin v + p * sz)).1
      (erase sz v h (cbegin v + p * sz)).2.1 (a.take p ++ a.drop (p + 1)) ∧
    (erase sz v h (cbegin v + p * sz)).2.2 = cbegin v + p * sz ∧
    (erase sz v h (cbegin v + p * sz)).1 = ⟨v.memory, v.end_ptr - sz⟩ := by
  obtain ⟨hv, he, hc⟩ := holds_iff.1 hh
  have hsz := hv.sz_pos
  have hsize := hh.size_eq
  obtain ⟨hv', hs'⟩ := hv.shrink (by omega)
  have hoff : ptr_diff sz (cbegin v + p * sz) (cbegin v) = p := ptr_diff_slot hsz _ _
  unfold erase
  simp only [hoff, pop_back]
  refine ⟨?_, rfl, trivial⟩
  simp only [cbegin, cend, MMappedMemory.begin]
  rw [he]
  obtain ⟨h1, _⟩ := erase_heap hsz v.memory.ptr a.length p hp h a rfl hc
  have he' := hv'.end_eq
  rw [hs', hsize] at he'
  have hlen : (a.take p ++ a.drop (p + 1)).length = a.length - 1 := by
    simp only [List.length_append, List.length_take, List.length_drop]
    omega
  refine holds_iff.2 ⟨?_, ?_, ?_⟩
  · rwa [he] at hv'
  · rw [hlen, ← he']
    simp only
    rw [he]
  · intro i hi
    rw [hlen] at hi
    exact h1 i (by omega)

end SettledVector

/-! ## The test container -/

namespace SettledVector
variable {T : Type}

theorem test_vector_holds :
    Holds 4 Policy.DONT_ACTUALLY_GROW test_vector.1 test_vector.2 [1, 2, 3] := by
  refine ⟨⟨by decide, by decide, by decide, by decide, by decide, by decide, by decide,
    ?_, ?_⟩, by decide⟩
  · intro _ _
    decide
  · intro P hP
    cases hP

theorem test_mmap_ok : MmapOk Policy.DONT_ACTUALLY_GROW 65536 :=
  ⟨by decide, fun P hP => by cases hP⟩

theorem test_vector_room : Room 4 Policy.DONT_ACTUALLY_GROW test_vector.1 1 := by
  show (size 4 test_vector.1 + 1) * 4 ≤ default_num_bytes
  decide
end SettledVector

namespace SettledVector
variable {T : Type}

theorem Holds.get_eq {sz : Nat} {pol : Policy} {v : SettledVector} {h : Heap T} {a : List T}
    (hh : Holds sz pol v h a) {i : Nat} (hi : i < a.length) : get sz v h i = a[i]? :=
  (holds_iff.1 hh).2.2 i hi

theorem reference_insert_eq (a : List T) (p : Nat) (x : T) :
    reference_insert a p x = a.take p ++ x :: a.drop p := by
  simp [reference_insert]

end SettledVector

/-! ## Insertion and removal against the reference sequence -/

namespace SettledVector
variable {T : Type}

/-- C1: `insert` / `emplace` agree with the reference list insertion. For a container that
holds `a` with room for one more element, and an index `p <= a.length`,
`insert(begin() + p, x)` leaves the container holding `a[0..p) ++ [x] ++ a[p..n)`: the
size is `n + 1`, `x` is at index `p`, the elements before `p` are unchanged, every element
formerly at index `i >= p` is at index `i + 1`, and for `p = n` the result is that of
`push_back(x)`. -/
theorem insert_refines_reference_insert (sz : Nat) (pol : Policy) (mm : Nat)
    (v : SettledVector) (h : Heap T) (a : List T) (p : Nat) (x : T)
    (hh : Holds sz pol v h a) (hmm : MmapOk pol mm) (hroom : Room sz pol v 1)
    (hp : p ≤ a.length) :
    Holds sz pol (insert sz pol mm v h (cbegin v + p * sz) x).1
      (insert sz pol mm v h (cbegin v + p * sz) x).2 (reference_insert a p x) ∧
    emplace sz pol mm v h (cbegin v + p * sz) x = insert sz pol mm v h (cbegin v + p * sz) x ∧
    size sz (insert sz pol mm v h (cbegin v + p * sz) x).1 = a.length + 1 ∧
    get sz (insert sz pol mm v h (cbegin v + p * sz) x).1
      (insert sz pol mm v h (cbegin v + p * sz) x).2 p = some x ∧
    (∀ i, i < p → get sz (insert sz pol mm v h (cbegin v + p * sz) x).1
      (insert sz pol mm v h (cbegin v + p * sz) x).2 i = get sz v h i) ∧
    (∀ i, p ≤ i → i < a.length → get sz (insert sz pol mm v h (cbegin v + p * sz) x).1
      (insert sz pol mm v h (cbegin v + p * sz) x).2 (i + 1) = get sz v h i) ∧
    (p = a.length →
      insert sz pol mm v h (cbegin v + p * sz) x = push_back sz pol mm v h x) := by
  have hH : Holds sz pol (insert sz pol mm v h (cbegin v + p * sz) x).1
      (insert sz pol mm v h (cbegin v + p * sz) x).2 (reference_insert a p x) := by
    rw [reference_insert_eq]
    exact holds_emplace hh hmm hroom hp x
  have hlen : (reference_insert a p x).length = a.length + 1 := by
    simp only [reference_insert, List.length_append, List.length_take, List.length_drop,
      List.length_singleton]
    omega
  have hget : ∀ i, (reference_insert a p x)[i]? =
      if i < p then a[i]? else if i = p then some x else a[i - 1]? := by
    intro i
    rw [reference_insert_eq]
    exact getElem?_take_cons_drop a p x hp i
  refine ⟨hH, rfl, ?_, ?_, ?_, ?_, ?_⟩
  · rw [hH.size_eq, hlen]
  · rw [hH.get_eq (by omega), hget, if_neg (Nat.lt_irrefl p), if_pos rfl]
  · intro i hi
    rw [hH.get_eq (by omega), hh.get_eq (by omega), hget, if_pos hi]
  · intro i hi1 hi2
    rw [hH.get_eq (by omega), hh.get_eq hi2, hget, if_neg (by omega), if_neg (by omega)]
    rfl
  · intro hpn
    obtain ⟨_, he, _⟩ := holds_iff.1 hh
    have hpos : cbegin v + p * sz = cend v := by
      simp only [cbegin, cend, MMappedMemory.begin]
      rw [he, hpn]
    unfold insert emplace push_back
    rw [if_pos hpos]

/-- Witness of C1: inserting `7` at index `1` of the test container `{1, 2, 3}`. -/
theorem insert_refines_reference_insert_witness :
    Holds 4 Policy.DONT_ACTUALLY_GROW test_vector.1 test_vector.2 [1, 2, 3] ∧
    Holds 4 Policy.DONT_ACTUALLY_GROW
      (insert 4 Policy.DONT_ACTUALLY_GROW 65536 test_vector.1 test_vector.2
        (cbegin test_vector.1 + 1 * 4) 7).1
      (insert 4 Policy.DONT_ACTUALLY_GROW 65536 test_vector.1 test_vector.2
        (cbegin test_vector.1 + 1 * 4) 7).2 [1, 7, 2, 3] :=
  ⟨test_vector_holds,
    (insert_refines_reference_insert 4 Policy.DONT_ACTUALLY_GROW 65536 test_vector.1
      test_vector.2 [1, 2, 3] 1 7 test_vector_holds test_mmap_ok test_vector_room
      (by decide)).1⟩

/-- C2: `erase` agrees with the reference list removal. For a container that holds `a`
and an index `p < a.length`, `erase(begin() + p)` leaves the container holding `a` without
its element `p`, the others in their order: the size is `n - 1`, the capacity and the
region start are unchanged, and the iterator returned is the one at index `p`, which
points to the element formerly at index `p + 1`, or is `end()` when `p = n - 1`. -/
theorem erase_refines_reference_erase (sz : Nat) (pol : Policy) (v : SettledVector)
    (h : Heap T) (a : List T) (p : Nat) (hh : Holds sz pol v h a) (hp : p < a.length) :
    Holds sz pol (erase sz v h (cbegin v + p * sz)).1 (erase sz v h (cbegin v + p * sz)).2.1
      (reference_erase a p) ∧
    reference_erase a p = a.eraseIdx p ∧
    size sz (erase sz v h (cbegin v + p * sz)).1 = a.length - 1 ∧
    capacity sz (erase sz v h (cbegin v + p * sz)).1 = capacity sz v ∧
    cbegin (erase sz v h (cbegin v + p * sz)).1 = cbegin v ∧
    (erase sz v h (cbegin v + p * sz)).2.2
      = cbegin (erase sz v h (cbegin v + p * sz)).1 + p * sz ∧
    (p + 1 < a.length →
      (erase sz v h (cbegin v + p * sz)).2.1 (erase sz v h (cbegin v + p * sz)).2.2
        = a[p + 1]?) ∧
    (p + 1 = a.length →
      (erase sz v h (cbegin v + p * sz)).2.2 = cend (erase sz v h (cbegin v + p * sz)).1) := by
  obtain ⟨hH, hit, hv'⟩ := holds_erase hh hp
  have hH' : Holds sz pol (erase sz v h (cbegin v + p * sz)).1
      (erase sz v h (cbegin v + p * sz)).2.1 (reference_erase a p) := hH
  have hlen : (reference_erase a p).length = a.length - 1 := by
    simp only [reference_erase, List.length_append, List.length_take, List.length_drop]
    omega
  have hbeg : cbegin (erase sz v h (cbegin v + p * sz)).1 = cbegin v := by
    rw [hv']
    rfl
  refine ⟨hH', ?_, ?_, ?_, hbeg, ?_, ?_, ?_⟩
  · rw [reference_erase, List.eraseIdx_eq_take_drop_succ]
  · rw [hH'.size_eq, hlen]
  · rw [hv']
    rfl
  · rw [hit, hbeg]
  · intro hp1
    have := hH'.get_eq (show p < (reference_erase a p).length by omega)
    rw [hit]
    simp only [get, hbeg] at this
    rw [this, reference_erase, getElem?_take_drop_succ a p hp, if_neg (Nat.lt_irrefl p)]
  · intro hp1
    obtain ⟨_, he, _⟩ := holds_iff.1 hH'
    rw [hit, cend, he, hlen, ← hbeg]
    simp only [cbegin, MMappedMemory.begin]
    congr 2
    omega

/-- Witness of C2: erasing index `1` of the test container `{1, 2, 3}`. -/
theorem erase_refines_reference_erase_witness :
    Holds 4 Policy.DONT_ACTUALLY_GROW test_vector.1 test_vector.2 [1, 2, 3] ∧
    Holds 4 Policy.DONT_ACTUALLY_GROW (erase 4 test_vector.1 test_vector.2
        (cbegin test_vector.1 + 1 * 4)).1
      (erase 4 test_vector.1 test_vector.2 (cbegin test_vector.1 + 1 * 4)).2.1 [1, 3] :=
  ⟨test_vector_holds,
    (erase_refines_reference_erase 4 Policy.DONT_ACTUALLY_GROW test_vector.1 test_vector.2
      [1, 2, 3] 1 test_vector_holds (by decide)).1⟩

end SettledVector

/-! ## Appending, removing the last element, address stability -/

namespace SettledVector
variable {T : Type}

/-- C5: `push_back` / `emplace_back` append without touching existing elements. For a
container that holds `a` with room for one more element, `push_back(x)` leaves the
container holding `a ++ [x]`: the size is `n + 1`, `back()` is `x`, every element at an
index `i < n` is unchanged, the only address written is the slot at the former `end()`,
and `emplace_back` is the same operation. -/
theorem push_back_appends (sz : Nat) (pol : Policy) (mm : Nat) (v : SettledVector)
    (h : Heap T) (a : List T) (x : T)
    (hh : Holds sz pol v h a) (hmm : MmapOk pol mm) (hroom : Room sz pol v 1) :
    Holds sz pol (push_back sz pol mm v h x).1 (push_back sz pol mm v h x).2 (a ++ [x]) ∧
    size sz (push_back sz pol mm v h x).1 = a.length + 1 ∧
    back sz (push_back sz pol mm v h x).1 (push_back sz pol mm v h x).2 = some x ∧
    (∀ i, i < a.length →
      get sz (push_back sz pol mm v h x).1 (push_back sz pol mm v h x).2 i = get sz v h i) ∧
    (∀ q, q ≠ cbegin (push_back sz pol mm v h x).1 + a.length * sz →
      (push_back sz pol mm v h x).2 q = h q) ∧
    emplace_back sz pol mm v h x = push_back sz pol mm v h x := by
  have hH : Holds sz pol (push_back sz pol mm v h x).1 (push_back sz pol mm v h x).2
      (a ++ [x]) := holds_emplace_back hh hmm hroom x
  have g := grow_if_necessary_spec mm hh.valid hmm hroom
  have hw := g.holds hh
  obtain ⟨_, hwe, _⟩ := holds_iff.1 hw
  refine ⟨hH, ?_, ?_, ?_, ?_, rfl⟩
  · rw [hH.size_eq, List.length_append, List.length_singleton]
  · simp only [back, cend, push_back, emplace_back, Nat.add_sub_cancel]
    exact Heap.write_same _ _ _
  · intro i hi
    rw [hH.get_eq (by rw [List.length_append]; omega), hh.get_eq hi,
      List.getElem?_append_left hi]
  · intro q hq
    simp only [push_back, emplace_back, cbegin, MMappedMemory.begin] at hq ⊢
    rw [← hwe] at hq
    exact Heap.write_ne _ hq _

/-- Witness of C5: `push_back(5)` on the test container `{1, 2, 3}`. -/
theorem push_back_appends_witness :
    Holds 4 Policy.DONT_ACTUALLY_GROW test_vector.1 test_vector.2 [1, 2, 3] ∧
    Holds 4 Policy.DONT_ACTUALLY_GROW
      (push_back 4 Policy.DONT_ACTUALLY_GROW 65536 test_vector.1 test_vector.2 5).1
      (push_back 4 Policy.DONT_ACTUALLY_GROW 65536 test_vector.1 test_vector.2 5).2
      [1, 2, 3, 5] :=
  ⟨test_vector_holds,
    (push_back_appends 4 Policy.DONT_ACTUALLY_GROW 65536 test_vector.1 test_vector.2
      [1, 2, 3] 5 test_vector_holds test_mmap_ok test_vector_room).1⟩

/-- C6: `pop_back` removes exactly the last element. For a container that holds a
non-empty `a`, `pop_back()` leaves the container holding `a` without its last element: the
size is `n - 1`, the elements at the indices `0 .. n - 2` are unchanged, and the capacity
and the region start are unchanged. -/
theorem pop_back_removes_last (sz : Nat) (pol : Policy) (v : SettledVector) (h : Heap T)
    (a : List T) (hh : Holds sz pol v h a) (hne : a ≠ []) :
    Holds sz pol (pop_back sz v h).1 (pop_back sz v h).2 a.dropLast ∧
    a.dropLast = a.take (a.length - 1) ∧
    size sz (pop_back sz v h).1 = a.length - 1 ∧
    (∀ i, i < a.length - 1 →
      get sz (pop_back sz v h).1 (pop_back sz v h).2 i = get sz v h i) ∧
    capacity sz (pop_back sz v h).1 = capacity sz v ∧
    cbegin (pop_back sz v h).1 = cbegin v := by
  have hH := holds_pop_back hh hne
  refine ⟨hH, List.dropLast_eq_take a, ?_, ?_, rfl, rfl⟩
  · rw [hH.size_eq, List.length_dropLast]
  · intro i hi
    rw [hH.get_eq (by rw [List.length_dropLast]; exact hi), hh.get_eq (by omega),
      List.dropLast_eq_take, List.getElem?_take]
    simp [hi]

/-- Witness of C6: `pop_back()` on the test container `{1, 2, 3}`. -/
theorem pop_back_removes_last_witness :
    Holds 4 Policy.DONT_ACTUALLY_GROW test_vector.1 test_vector.2 [1, 2, 3] ∧
    Holds 4 Policy.DONT_ACTUALLY_GROW (pop_back 4 test_vector.1 test_vector.2).1
      (pop_back 4 test_vector.1 test_vector.2).2 [1, 2] :=
  ⟨test_vector_holds,
    (pop_back_removes_last 4 Policy.DONT_ACTUALLY_GROW test_vector.1 test_vector.2
      [1, 2, 3] test_vector_holds (by decide)).1⟩

end SettledVector

namespace detail.MMappedMemory

/-- The function `grow` never changes the region start of an arena that holds a
reservation. -/
theorem grow_keeps_ptr (pol : Policy) (mm : Nat) (m : MMappedMemory) (c k : Nat)
    (hm : m.ptr ≠ 0) : (m.grow pol mm c k).ptr = m.ptr := by
  unfold grow
  simp only
  split
  · rfl
  · cases pol with
    | DONT_ACTUALLY_GROW => simp [hm]
    | actually_grow P => simp [hm]

end detail.MMappedMemory

namespace SettledVector
variable {T : Type}

theorem grow_if_necessary_stable (sz : Nat) (pol : Policy) (mm : Nat) (v : SettledVector)
    (n : Nat) (hp : v.memory.ptr ≠ 0) (he : v.end_ptr ≠ 0) :
    (grow_if_necessary sz pol mm v n).memory.ptr = v.memory.ptr ∧
    (grow_if_necessary sz pol mm v n).end_ptr = v.end_ptr := by
  unfold grow_if_necessary
  split
  · exact ⟨rfl, rfl⟩
  · simp only [if_neg he, and_true]
    exact MMappedMemory.grow_keeps_ptr pol mm v.memory _ _ hp

theorem Valid.ptr_ne_zero_of_not_empty {sz : Nat} {pol : Policy} {v : SettledVector}
    (hv : Valid sz pol v) (hne : empty v = false) : v.memory.ptr ≠ 0 ∧ v.end_ptr ≠ 0 := by
  have h1 : v.end_ptr ≠ v.memory.ptr := by
    simpa [empty, MMappedMemory.begin] using hne
  have h2 := hv.begin_le
  have h3 : v.memory.ptr ≠ 0 := by
    intro hp
    have := hv.null hp
    omega
  exact ⟨h3, by omega⟩

/-- C3: address stability. For a non-empty container, `push_back`, `emplace_back` and
`reserve` leave the region start `begin()` where it was, so the address
`begin() + i * sizeof(T)` of the element at index `i` is the same before and after, and
the object at that address keeps its value; the element count does not drop. The arena's
`grow` never changes the region start once a reservation exists. -/
theorem address_stability (sz : Nat) (pol : Policy) (mm : Nat) (v : SettledVector)
    (h : Heap T) (hv : Valid sz pol v) (hne : empty v = false) :
    (∀ x : T,
      cbegin (push_back sz pol mm v h x).1 = cbegin v ∧
      size sz (push_back sz pol mm v h x).1 = size sz v + 1 ∧
      (∀ i, i < size sz v →
        cbegin (push_back sz pol mm v h x).1 + i * sz = cbegin v + i * sz ∧
        (push_back sz pol mm v h x).2 (cbegin v + i * sz) = h (cbegin v + i * sz) ∧
        get sz (push_back sz pol mm v h x).1 (push_back sz pol mm v h x).2 i = get sz v h i)) ∧
    (∀ x : T,
      cbegin (emplace_back sz pol mm v h x).1 = cbegin v ∧
      size sz (emplace_back sz pol mm v h x).1 = size sz v + 1 ∧
      (∀ i, i < size sz v →
        cbegin (emplace_back sz pol mm v h x).1 + i * sz = cbegin v + i * sz ∧
        (emplace_back sz pol mm v h x).2 (cbegin v + i * sz) = h (cbegin v + i * sz) ∧
        get sz (emplace_back sz pol mm v h x).1 (emplace_back sz pol mm v h x).2 i
          = get sz v h i)) ∧
    (∀ n : Nat,
      cbegin (reserve sz pol mm v n) = cbegin v ∧
      size sz (reserve sz pol mm v n) = size sz v ∧
      (∀ i, cbegin (reserve sz pol mm v n) + i * sz = cbegin v + i * sz ∧
        get sz (reserve sz pol mm v n) h i = get sz v h i)) ∧
    (∀ (m : MMappedMemory) (r c k : Nat), m.ptr ≠ 0 → (m.grow pol r c k).begin = m.begin) := by
  obtain ⟨hp, he⟩ := hv.ptr_ne_zero_of_not_empty hne
  have hend := hv.end_eq
  have hsz := hv.sz_pos
  have key : ∀ x : T,
      cbegin (emplace_back sz pol mm v h x).1 = cbegin v ∧
      size sz (emplace_back sz pol mm v h x).1 = size sz v + 1 ∧
      (∀ i, i < size sz v →
        cbegin (emplace_back sz pol mm v h x).1 + i * sz = cbegin v + i * sz ∧
        (emplace_back sz pol mm v h x).2 (cbegin v + i * sz) = h (cbegin v + i * sz) ∧
        get sz (emplace_back sz pol mm v h x).1 (emplace_back sz pol mm v h x).2 i
          = get sz v h i) := by
    intro x
    obtain ⟨g1, g2⟩ := grow_if_necessary_stable sz pol mm v 1 hp he
    have hb : cbegin (emplace_back sz pol mm v h x).1 = cbegin v := g1
    have hcell : ∀ i, i < size sz v →
        (emplace_back sz pol mm v h x).2 (cbegin v + i * sz) = h (cbegin v + i * sz) := by
      intro i hi
      simp only [emplace_back, cbegin, MMappedMemory.begin]
      rw [g2, hend]
      exact Heap.write_ne _ (addr_ne hsz _ (Nat.ne_of_lt hi)) _
    refine ⟨hb, ?_, ?_⟩
    · apply size_eq_of_end hsz
      simp only [emplace_back]
      rw [g1, g2, hend, addr_succ]
    · intro i hi
      refine ⟨by rw [hb], hcell i hi, ?_⟩
      simp only [get]
      rw [hb]
      exact hcell i hi
  refine ⟨key, key, ?_, ?_⟩
  · intro n
    have hr : (reserve sz pol mm v n).memory.ptr = v.memory.ptr ∧
        (reserve sz pol mm v n).end_ptr = v.end_ptr := by
      unfold reserve
      split
      · exact grow_if_necessary_stable sz pol mm v _ hp he
      · exact ⟨rfl, rfl⟩
    have hb : cbegin (reserve sz pol mm v n) = cbegin v := hr.1
    refine ⟨hb, ?_, ?_⟩
    · simp only [size, MMappedMemory.begin]
      rw [hr.1, hr.2]
    · intro i
      simp only [get]
      rw [hb]
      exact ⟨rfl, rfl⟩
  · intro m r c k hm
    exact MMappedMemory.grow_keeps_ptr pol r m c k hm

/-- Witness of C3: the test container `{1, 2, 3}` is valid and not empty, and
`push_back(5)` leaves `begin()` where it was. -/
theorem address_stability_witness :
    Valid 4 Policy.DONT_ACTUALLY_GROW test_vector.1 ∧ empty test_vector.1 = false ∧
    cbegin (push_back 4 Policy.DONT_ACTUALLY_GROW 65536 test_vector.1 test_vector.2 5).1
      = cbegin test_vector.1 :=
  ⟨test_vector_holds.1, by decide,
    ((address_stability 4 Policy.DONT_ACTUALLY_GROW 65536 test_vector.1 test_vector.2
      test_vector_holds.1 (by decide)).1 5).1⟩

end SettledVector

/-! ## Equality and move construction -/

namespace SettledVector
variable {T : Type}

theorem std_equal_done [BEq T] (sz e : Nat) (h : Heap T) (fuel first2 : Nat) :
    std_equal sz e h fuel e first2 = true := by
  cases fuel with
  | zero => rfl
  | succ f => simp [std_equal]

/-- The loop of `std::equal` over the slots `j .. n - 1` of two ranges. -/
theorem std_equal_spec [BEq T] {sz : Nat} (hsz : 0 < sz) (b1 b2 n : Nat) (h : Heap T) :
    ∀ (d j fuel : Nat), j + d = n → d ≤ fuel →
      (std_equal sz (b1 + n * sz) h fuel (b1 + j * sz) (b2 + j * sz) = true ↔
        ∀ i, j ≤ i → i < n → (h (b1 + i * sz) == h (b2 + i * sz)) = true) := by
  intro d
  induction d with
  | zero =>
    intro j fuel hjn _
    have hj : j = n := by omega
    subst hj
    rw [std_equal_done]
    simp only [true_iff]
    intro i h1 h2
    omega
  | succ d ih =>
    intro j fuel hjn hfuel
    obtain ⟨f, rfl⟩ : ∃ f, fuel = f + 1 := ⟨fuel - 1, by omega⟩
    have hne : b1 + j * sz ≠ b1 + n * sz := addr_ne hsz b1 (by omega)
    rw [std_equal, if_neg hne, addr_succ, addr_succ]
    by_cases hc : (h (b1 + j * sz) == h (b2 + j * sz)) = true
    · simp only [hc, Bool.not_true, Bool.false_eq_true, if_false]
      rw [ih (j + 1) f (by omega) (by omega)]
      constructor
      · intro hall i h1 h2
        rcases Nat.eq_or_lt_of_le h1 with e | hlt
        · subst e
          exact hc
        · exact hall i hlt h2
      · intro hall i h1 h2
        exact hall i (by omega) h2
    · have hc' : (h (b1 + j * sz) == h (b2 + j * sz)) = false := by
        simpa using hc
      simp only [hc', Bool.not_false, if_true]
      constructor
      · intro hf
        exact absurd hf (by simp)
      · intro hall
        exact absurd (hall j (le_refl _) (by omega)) hc

/-- C7: equality. For containers `x` holding `a` and `y` holding `b`, `x == y` returns
true if and only if `x.size() == y.size()` and `x[i] == y[i]` for every index
`i < x.size()`; on the sequences held this is: same length and `a[i] == b[i]` at every
index. -/
theorem eq_iff_same_size_and_elements [BEq T] (sz : Nat) (pol : Policy)
    (x y : SettledVector) (h : Heap T) (a b : List T)
    (hx : Holds sz pol x h a) (hy : Holds sz pol y h b) :
    (eq sz x y h = true ↔
      size sz x = size sz y ∧ ∀ i, i < size sz x → (get sz x h i == get sz y h i) = true) ∧
    (eq sz x y h = true ↔
      a.length = b.length ∧
        ∀ i (h1 : i < a.length) (h2 : i < b.length), (a.get ⟨i, h1⟩ == b.get ⟨i, h2⟩) = true) := by
  obtain ⟨hv, he, _⟩ := holds_iff.1 hx
  have hsz := hv.sz_pos
  have hfuel : a.length ≤ cend x - cbegin x := by
    simp only [cend, cbegin, MMappedMemory.begin]
    rw [he, Nat.add_sub_cancel_left]
    exact Nat.le_mul_of_pos_right _ hsz
  have hloop := std_equal_spec hsz x.memory.ptr y.memory.ptr a.length h a.length 0
    (cend x - cbegin x) (by omega) hfuel
  rw [Nat.zero_mul, Nat.add_zero, Nat.add_zero, ← he] at hloop
  have first : eq sz x y h = true ↔
      size sz x = size sz y ∧ ∀ i, i < size sz x → (get sz x h i == get sz y h i) = true := by
    unfold eq
    by_cases hs : size sz x = size sz y
    · simp only [hs, ne_eq, not_true_eq_false, if_false, true_and]
      rw [← hs, hx.size_eq]
      simp only [cend, cbegin, MMappedMemory.begin] at hloop ⊢
      rw [hloop]
      constructor
      · intro hall i hi
        exact hall i (Nat.zero_le _) hi
      · intro hall i _ hi
        exact hall i hi
    · simp [hs]
  refine ⟨first, ?_⟩
  rw [first, hx.size_eq, hy.size_eq]
  constructor
  · rintro ⟨hl, hall⟩
    refine ⟨hl, ?_⟩
    intro i h1 h2
    have := hall i h1
    rw [hx.get_eq h1, hy.get_eq h2, List.getElem?_eq_getElem h1, List.getElem?_eq_getElem h2,
      Option.some_beq_some] at this
    exact this
  · rintro ⟨hl, hall⟩
    refine ⟨hl, ?_⟩
    intro i h1
    have h2 : i < b.length := by omega
    rw [hx.get_eq h1, hy.get_eq h2, List.getElem?_eq_getElem h1, List.getElem?_eq_getElem h2,
      Option.some_beq_some]
    exact hall i h1 h2

/-- Witness of C7: the test container `{1, 2, 3}` equals itself. -/
theorem eq_iff_same_size_and_elements_witness :
    Holds 4 Policy.DONT_ACTUALLY_GROW test_vector.1 test_vector.2 [1, 2, 3] ∧
    (eq 4 test_vector.1 test_vector.1 test_vector.2 = true ↔
      size 4 test_vector.1 = size 4 test_vector.1 ∧
      ∀ i, i < size 4 test_vector.1 →
        (get 4 test_vector.1 test_vector.2 i == get 4 test_vector.1 test_vector.2 i) = true) :=
  ⟨test_vector_holds,
    (eq_iff_same_size_and_elements 4 Policy.DONT_ACTUALLY_GROW test_vector.1 test_vector.1
      test_vector.2 [1, 2, 3] [1, 2, 3] test_vector_holds test_vector_holds).1⟩

/-- C9: move semantics. Move-constructing `B` from `A` gives `B` the size, capacity,
region start and cells that `A` had, at the same addresses, and leaves `A` with
`size() == 0`, `empty()` true, `capacity() == 0` and no reservation. -/
theorem move_ctor_transfers (sz : Nat) (A : SettledVector) (h : Heap T) :
    (move_ctor A).1 = A ∧
    size sz (move_ctor A).1 = size sz A ∧
    capacity sz (move_ctor A).1 = capacity sz A ∧
    cbegin (move_ctor A).1 = cbegin A ∧
    elems sz (move_ctor A).1 h = elems sz A h ∧
    (∀ i, get sz (move_ctor A).1 h i = get sz A h i ∧
      cbegin (move_ctor A).1 + i * sz = cbegin A + i * sz) ∧
    size sz (move_ctor A).2 = 0 ∧
    empty (move_ctor A).2 = true ∧
    capacity sz (move_ctor A).2 = 0 ∧
    (move_ctor A).2.memory = MMappedMemory.init ∧
    (move_ctor A).2 = init := by
  have h1 : (move_ctor A).1 = A := rfl
  have h2 : (move_ctor A).2 = init := rfl
  rw [h1, h2]
  refine ⟨rfl, rfl, rfl, rfl, rfl, fun _ => ⟨rfl, rfl⟩, ?_, rfl, ?_, rfl, rfl⟩
  · simp [size, ptr_diff, init, MMappedMemory.init, MMappedMemory.begin]
  · simp [capacity, init, MMappedMemory.init, MMappedMemory.capacity]

end SettledVector

/-! ## What an operation writes, `clear`, `reserve` and `resize` -/

namespace SettledVector
variable {T : Type}

theorem Holds.of_cells {sz : Nat} {pol : Policy} {v : SettledVector} {h : Heap T} {a : List T}
    (hh : Holds sz pol v h a) (h' : Heap T)
    (hq : ∀ i, i < a.length → h' (v.memory.ptr + i * sz) = h (v.memory.ptr + i * sz)) :
    Holds sz pol v h' a := by
  obtain ⟨hv, he, hc⟩ := holds_iff.1 hh
  refine holds_iff.2 ⟨hv, he, ?_⟩
  intro i hi
  rw [hq i hi]
  exact hc i hi

theorem Valid.inReservation {sz : Nat} {pol : Policy} {v : SettledVector} (hv : Valid sz pol v)
    {q : Nat} (h1 : v.memory.ptr ≤ q) (h2 : q < v.end_ptr) : InReservation v q := by
  have h3 := hv.end_le
  have h4 := hv.in_reservation
  refine ⟨?_, h1, by omega⟩
  intro hp
  have := hv.null hp
  omega

/-- The live cells of a container lie in its reservation. -/
theorem Holds.cell_inReservation {sz : Nat} {pol : Policy} {v : SettledVector} {h : Heap T}
    {a : List T} (hh : Holds sz pol v h a) {i : Nat} (hi : i < a.length) :
    InReservation v (v.memory.ptr + i * sz) := by
  obtain ⟨hv, he, _⟩ := holds_iff.1 hh
  apply hv.inReservation (Nat.le_add_right _ _)
  rw [he]
  have := addr_lt sz v.memory.ptr hi
  have := hv.sz_pos
  omega

theorem Valid.reset {sz : Nat} {pol : Policy} {v : SettledVector} (hv : Valid sz pol v) :
    Valid sz pol ⟨v.memory, v.memory.ptr⟩ := by
  have h1 := hv.begin_le
  have h2 := hv.end_le
  refine ⟨hv.sz_pos, ?_, le_refl _, ?_, ?_, hv.cap_aligned, hv.in_reservation,
    hv.lazy_cap, hv.page_aligned⟩
  · intro hp
    exact ⟨(hv.null hp).1, hp⟩
  · simp only
    omega
  · simp

theorem holds_nil_of_end {sz : Nat} {pol : Policy} {v : SettledVector} (hv : Valid sz pol v)
    (he : v.end_ptr = v.memory.ptr) (h : Heap T) : Holds sz pol v h ([] : List T) := by
  refine holds_iff.2 ⟨hv, ?_, ?_⟩
  · simp [he]
  · intro i hi
    simp at hi

theorem emplace_back_frame {sz : Nat} {pol : Policy} {v : SettledVector} {h : Heap T}
    {a : List T} {mm : Nat} (hh : Holds sz pol v h a) (hmm : MmapOk pol mm)
    (hroom : Room sz pol v 1) (x : T) (q : Nat)
    (hq : ¬ InReservation (emplace_back sz pol mm v h x).1 q) :
    (emplace_back sz pol mm v h x).2 q = h q := by
  have hH := holds_emplace_back hh hmm hroom x
  have hv' := hH.valid
  simp only [emplace_back] at hq hv' ⊢
  apply Heap.write_ne
  intro e
  apply hq
  have g := grow_if_necessary_spec mm hh.valid hmm hroom
  have := g.valid.begin_le
  have := hv'.sz_pos
  apply hv'.inReservation
  · simp only
    omega
  · simp only
    omega

theorem pop_back_frame {sz : Nat} {pol : Policy} {v : SettledVector} {h : Heap T}
    {a : List T} (hh : Holds sz pol v h a) (hne : a ≠ []) (q : Nat)
    (hq : ¬ InReservation (pop_back sz v h).1 q) : (pop_back sz v h).2 q = h q := by
  obtain ⟨hv, he, _⟩ := holds_iff.1 hh
  have hpos : 0 < a.length := List.length_pos.2 hne
  have := addr_succ sz v.memory.ptr (a.length - 1)
  have h2 : a.length - 1 + 1 = a.length := by omega
  rw [h2] at this
  have hsz := hv.sz_pos
  simp only [pop_back] at hq ⊢
  apply Heap.write_ne
  intro e
  apply hq
  have hi : InReservation v q := hv.inReservation (by omega) (by omega)
  exact hi

theorem emplace_frame {sz : Nat} {pol : Policy} {v : SettledVector} {h : Heap T}
    {a : List T} {mm : Nat} (hh : Holds sz pol v h a) (hmm : MmapOk pol mm)
    (hroom : Room sz pol v 1) {p : Nat} (hp : p ≤ a.length) (x : T) (q : Nat)
    (hq : ¬ InReservation (emplace sz pol mm v h (cbegin v + p * sz) x).1 q) :
    (emplace sz pol mm v h (cbegin v + p * sz) x).2 q = h q := by
  obtain ⟨hv, he, hc⟩ := holds_iff.1 hh
  have hsz := hv.sz_pos
  rcases Nat.eq_or_lt_of_le hp with hpn | hpn
  · have hpos : cbegin v + p * sz = cend v := by
      simp only [cbegin, cend, MMappedMemory.begin]
      rw [he, hpn]
    unfold emplace at hq ⊢
    rw [if_pos hpos] at hq ⊢
    exact emplace_back_frame hh hmm hroom x q hq
  · have hpos : cbegin v + p * sz ≠ cend v := by
      simp only [cbegin, cend, MMappedMemory.begin]
      rw [he]
      exact addr_ne hsz _ (Nat.ne_of_lt hpn)
    have g := grow_if_necessary_spec mm hv hmm hroom
    have hr := g.room
    rw [Nat.one_mul] at hr
    have hw := g.holds hh
    have hptr := g.ptr_eq (hh.ptr_ne_zero (by omega))
    obtain ⟨hwv, hwe, hwc⟩ := holds_iff.1 hw
    have hext := hwv.extend hr
    unfold emplace at hq ⊢
    rw [if_neg hpos] at hq ⊢
    simp only [cbegin, cend, MMappedMemory.begin] at hq ⊢
    rw [hptr, Nat.add_sub_cancel_left, Nat.mul_div_cancel _ hsz]
    rw [hptr] at hwe hwc
    rw [hwe] at hr hext ⊢
    obtain ⟨_, h2⟩ := emplace_heap hsz v.memory.ptr a.length p hpn h a rfl hwc x
    apply h2
    by_contra hcon
    apply hq
    have hi : InReservation
        (⟨(grow_if_necessary sz pol mm v 1).memory, v.memory.ptr + a.length * sz + sz⟩ :
          SettledVector) q := by
      apply hext.inReservation
      · simp only
        rw [hptr]
        omega
      · simp only
        omega
    exact hi

theorem erase_frame {sz : Nat} {pol : Policy} {v : SettledVector} {h : Heap T}
    {a : List T} (hh : Holds sz pol v h a) {p : Nat} (hp : p < a.length) (q : Nat)
    (hq : ¬ InReservation (erase sz v h (cbegin v + p * sz)).1 q) :
    (erase sz v h (cbegin v + p * sz)).2.1 q = h q := by
  obtain ⟨hv, he, hc⟩ := holds_iff.1 hh
  have hsz := hv.sz_pos
  have hoff : ptr_diff sz (cbegin v + p * sz) (cbegin v) = p := ptr_diff_slot hsz _ _
  unfold erase at hq ⊢
  simp only [hoff, pop_back] at hq ⊢
  simp only [cbegin, cend, MMappedMemory.begin]
  rw [he]
  obtain ⟨_, h2⟩ := erase_heap hsz v.memory.ptr a.length p hp h a rfl hc
  apply h2
  by_contra hcon
  apply hq
  have hi : InReservation v q := hv.inReservation (by omega) (by omega)
  exact hi

/-- The loop `while (!empty()) pop_back()` on a container that holds `a`. -/
theorem clear_loop_spec {sz : Nat} {pol : Policy} :
    ∀ (fuel : Nat) (v : SettledVector) (h : Heap T) (a : List T),
      Holds sz pol v h a → a.length ≤ fuel →
      (clear_loop sz fuel v h).1 = ⟨v.memory, v.memory.ptr⟩ ∧
      ∀ q, ¬ InReservation v q → (clear_loop sz fuel v h).2 q = h q := by
  intro fuel
  induction fuel with
  | zero =>
    intro v h a hh hl
    obtain ⟨hv, he, _⟩ := holds_iff.1 hh
    have h0 : a.length = 0 := by omega
    rw [h0, Nat.zero_mul, Nat.add_zero] at he
    refine ⟨?_, fun _ _ => rfl⟩
    simp only [clear_loop]
    rw [← he]
  | succ f ih =>
    intro v h a hh hl
    obtain ⟨hv, he, _⟩ := holds_iff.1 hh
    by_cases hemp : a = []
    · subst hemp
      rw [List.length_nil, Nat.zero_mul, Nat.add_zero] at he
      have hE : empty v = true := by
        simp [empty, MMappedMemory.begin, he]
      simp only [clear_loop, hE, Bool.not_true, Bool.false_eq_true, if_false]
      refine ⟨?_, fun _ _ => trivial⟩
      rw [← he]
    · have hpos : 0 < a.length := List.length_pos.2 hemp
      have hE : empty v = false := by
        have : v.end_ptr ≠ v.memory.ptr := by
          have := Nat.mul_pos hpos hv.sz_pos
          omega
        simp [empty, MMappedMemory.begin, this]
      simp only [clear_loop, hE, Bool.not_false, if_true]
      have hH := holds_pop_back hh hemp
      obtain ⟨h1, h2⟩ := ih _ _ _ hH (by rw [List.length_dropLast]; omega)
      refine ⟨h1, ?_⟩
      intro q hq
      rw [h2 q hq]
      exact pop_back_frame hh hemp q hq

/-- The member `clear()` on a container that holds `a`. -/
theorem holds_clear {sz : Nat} {pol : Policy} {v : SettledVector} {h : Heap T} {a : List T}
    (hh : Holds sz pol v h a) :
    Holds sz pol (clear sz v h).1 (clear sz v h).2 ([] : List T) ∧
    (clear sz v h).1 = ⟨v.memory, v.memory.ptr⟩ ∧
    ∀ q, ¬ InReservation (clear sz v h).1 q → (clear sz v h).2 q = h q := by
  obtain ⟨hv, he, _⟩ := holds_iff.1 hh
  have hfuel : a.length ≤ v.end_ptr - v.memory.begin := by
    simp only [MMappedMemory.begin]
    rw [he, Nat.add_sub_cancel_left]
    exact Nat.le_mul_of_pos_right _ hv.sz_pos
  obtain ⟨h1, h2⟩ := clear_loop_spec (v.end_ptr - v.memory.begin) v h a hh hfuel
  unfold clear
  refine ⟨?_, h1, ?_⟩
  · have := holds_nil_of_end hv.reset rfl (clear_loop sz (v.end_ptr - v.memory.begin) v h).2
    rw [h1]
    exact this
  · intro q hq
    rw [h1] at hq
    exact h2 q hq

end SettledVector

namespace SettledVector
variable {T : Type}

/-- The member `reserve(n)`, for `n` a `size_type` value and a reservation with room for
the `n - size()` further elements. -/
theorem reserve_spec {sz : Nat} {pol : Policy} {v : SettledVector} {n : Nat} (mm : Nat)
    (hv : Valid sz pol v) (hmm : MmapOk pol mm) (hn : n < SIZE_MOD)
    (hroom : Room sz pol v (n - size sz v)) :
    GrowSpec sz pol v (n - size sz v) (reserve sz pol mm v n) := by
  have hsc := hv.size_le_capacity
  have he := hv.end_eq
  have hc := hv.cap_eq
  unfold reserve
  by_cases hnc : n > capacity sz v
  · rw [if_pos hnc]
    have harg : (n + SIZE_MOD - size sz v) % SIZE_MOD = n - size sz v := by
      have h1 : n + SIZE_MOD - size sz v = (n - size sz v) + SIZE_MOD := by omega
      rw [h1, Nat.add_mod_right]
      apply Nat.mod_eq_of_lt
      omega
    rw [harg]
    exact grow_if_necessary_spec mm hv hmm hroom
  · rw [if_neg hnc]
    apply GrowSpec.refl hv
    rw [he, hc]
    rcases Nat.le_total n (size sz v) with h1 | h1
    · have : n - size sz v = 0 := by omega
      rw [this, Nat.zero_mul]
      have := Nat.mul_le_mul_right sz hsc
      omega
    · have h2 : size sz v * sz + (n - size sz v) * sz = n * sz := by
        rw [← Nat.add_mul]
        congr 1
        omega
      have h3 : n * sz ≤ capacity sz v * sz := Nat.mul_le_mul_right sz (by omega)
      omega

/-- The loop `while (n < size()) pop_back()` of `resize` on a container that holds `a`. -/
theorem resize_shrink_spec {sz : Nat} {pol : Policy} (n : Nat) :
    ∀ (fuel : Nat) (v : SettledVector) (h : Heap T) (a : List T),
      Holds sz pol v h a → a.length - n ≤ fuel →
      Holds sz pol (resize_shrink sz n fuel v h).1 (resize_shrink sz n fuel v h).2 (a.take n) ∧
      (resize_shrink sz n fuel v h).1.memory = v.memory ∧
      (a.length ≤ n → resize_shrink sz n fuel v h = (v, h)) ∧
      ∀ q, ¬ InReservation v q → (resize_shrink sz n fuel v h).2 q = h q := by
  intro fuel
  induction fuel with
  | zero =>
    intro v h a hh hl
    have h0 : a.length ≤ n := by omega
    rw [show resize_shrink sz n 0 v h = (v, h) from rfl, List.take_of_length_le h0]
    exact ⟨hh, rfl, fun _ => rfl, fun _ _ => rfl⟩
  | succ f ih =>
    intro v h a hh hl
    by_cases hlt : n < size sz v
    · have hlen : n < a.length := by rwa [hh.size_eq] at hlt
      have hne : a ≠ [] := by
        intro e
        rw [e] at hlen
        simp at hlen
      simp only [resize_shrink, if_pos hlt]
      have hH := holds_pop_back hh hne
      obtain ⟨h1, h2, _, h4⟩ := ih _ _ _ hH (by rw [List.length_dropLast]; omega)
      refine ⟨?_, ?_, ?_, ?_⟩
      · have e : a.dropLast.take n = a.take n := by
          rw [List.dropLast_eq_take, List.take_take]
          congr 1
          omega
        rw [← e]
        exact h1
      · rw [h2]
        rfl
      · intro hle
        omega
      · intro q hq
        rw [h4 q hq]
        exact pop_back_frame hh hne q hq
    · have hlen : a.length ≤ n := by
        rw [hh.size_eq] at hlt
        omega
      rw [show resize_shrink sz n (f + 1) v h = (v, h) by simp only [resize_shrink, if_neg hlt],
        List.take_of_length_le hlen]
      exact ⟨hh, rfl, fun _ => rfl, fun _ _ => rfl⟩

/-- The loop `while (n > size()) new (end_ptr++) value_type` of `resize` on a container
that holds `a` and has room for the missing elements, for a `value_type` whose default
constructor leaves the value `dflt`. -/
theorem resize_extend_spec {sz : Nat} {pol : Policy} (n : Nat) (dflt : T) :
    ∀ (fuel : Nat) (v : SettledVector) (h : Heap T) (a : List T),
      Holds sz pol v h a → n - a.length ≤ fuel →
      v.end_ptr + (n - a.length) * sz ≤ v.memory.capacity_ptr →
      Holds sz pol (resize_extend sz n (some dflt) fuel v h).1
        (resize_extend sz n (some dflt) fuel v h).2
        (a ++ List.replicate (n - a.length) dflt) ∧
      (resize_extend sz n (some dflt) fuel v h).1.memory = v.memory ∧
      ∀ q, ¬ InReservation v q → (resize_extend sz n (some dflt) fuel v h).2 q = h q := by
  intro fuel
  induction fuel with
  | zero =>
    intro v h a hh hl _
    have h0 : n - a.length = 0 := by omega
    rw [show resize_extend sz n (some dflt) 0 v h = (v, h) from rfl, h0, List.replicate_zero,
      List.append_nil]
    exact ⟨hh, rfl, fun _ _ => rfl⟩
  | succ f ih =>
    intro v h a hh hl hroom
    by_cases hlt : n > size sz v
    · have hlen : a.length < n := by rwa [hh.size_eq] at hlt
      obtain ⟨k, hk⟩ : ∃ k, n - a.length = k + 1 := ⟨n - a.length - 1, by omega⟩
      have hr1 : v.end_ptr + sz ≤ v.memory.capacity_ptr := by
        rw [hk, Nat.add_mul, Nat.one_mul] at hroom
        omega
      simp only [resize_extend, if_pos hlt, default_init]
      have hH := holds_construct_at_end hh hr1 dflt
      have hk' : n - (a ++ [dflt]).length = k := by
        rw [List.length_append, List.length_singleton]
        omega
      obtain ⟨h1, h2, h3⟩ := ih _ _ _ hH (by omega) (by
        rw [hk']
        rw [hk, Nat.add_mul, Nat.one_mul] at hroom
        simp only
        omega)
      refine ⟨?_, h2, ?_⟩
      · rw [hk'] at h1
        rw [hk, List.replicate_succ]
        simpa using h1
      · intro q hq
        have hq' : ¬ InReservation (⟨v.memory, v.end_ptr + sz⟩ : SettledVector) q := hq
        rw [h3 q hq']
        apply Heap.write_ne
        intro e
        apply hq
        have hv := hh.valid
        have := hv.sz_pos
        have hi : InReservation (⟨v.memory, v.end_ptr + sz⟩ : SettledVector) q :=
          hH.valid.inReservation (by simp only; rw [e]; exact hv.begin_le) (by simp only; omega)
        exact hi
    · have hlen : n - a.length = 0 := by
        rw [hh.size_eq] at hlt
        omega
      rw [show resize_extend sz n (some dflt) (f + 1) v h = (v, h) by
        simp only [resize_extend, if_neg hlt], hlen, List.replicate_zero, List.append_nil]
      exact ⟨hh, rfl, fun _ _ => rfl⟩

/-- The member `resize(n)` on a container that holds `a`, for a `value_type` whose default
constructor leaves the value `dflt`. -/
theorem holds_resize {sz : Nat} {pol : Policy} {v : SettledVector} {h : Heap T}
    {a : List T} (mm : Nat) (dflt : T) {n : Nat} (hh : Holds sz pol v h a)
    (hmm : MmapOk pol mm) (hn : n < SIZE_MOD) (hroom : Room sz pol v (n - a.length)) :
    Holds sz pol (resize sz pol mm (some dflt) v h n).1 (resize sz pol mm (some dflt) v h n).2
      (a.take n ++ List.replicate (n - a.length) dflt) ∧
    (v.memory.ptr ≠ 0 → (resize sz pol mm (some dflt) v h n).1.memory.ptr = v.memory.ptr) ∧
    ∀ q, ¬ InReservation (resize sz pol mm (some dflt) v h n).1 q →
      (resize sz pol mm (some dflt) v h n).2 q = h q := by
  have hs := hh.size_eq
  rw [← hs] at hroom
  have g := reserve_spec mm hh.valid hmm hn hroom
  have hw := g.holds hh
  have hroomw := g.room
  rw [hs] at hroomw
  obtain ⟨s1, s2, s3, s4⟩ := resize_shrink_spec n (size sz (reserve sz pol mm v n))
    (reserve sz pol mm v n) h a hw (by rw [hw.size_eq]; omega)
  unfold resize
  simp only
  have hres : ∀ q, InReservation (resize_shrink sz n (size sz (reserve sz pol mm v n))
      (reserve sz pol mm v n) h).1 q ↔ InReservation (reserve sz pol mm v n) q := by
    intro q
    unfold InReservation
    rw [s2]
  rcases Nat.lt_or_ge a.length n with hlt | hge
  · have e := s3 (by omega)
    rw [e]
    obtain ⟨x1, x2, x3⟩ := resize_extend_spec n dflt n (reserve sz pol mm v n) h a hw
      (by omega) hroomw
    refine ⟨?_, ?_, ?_⟩
    · rw [List.take_of_length_le (by omega)]
      exact x1
    · intro hp
      rw [x2]
      exact g.ptr_eq hp
    · intro q hq
      apply x3
      intro hi
      apply hq
      unfold InReservation at hi ⊢
      rw [x2]
      exact hi
  · have hlen : (a.take n).length = n := by
      rw [List.length_take]
      omega
    have hvs := s1.valid
    obtain ⟨x1, x2, x3⟩ := resize_extend_spec n dflt n _ _ (a.take n) s1
      (by omega) (by rw [hlen, Nat.sub_self, Nat.zero_mul]; exact hvs.end_le)
    rw [hlen, Nat.sub_self] at x1
    have h0 : n - a.length = 0 := by omega
    rw [h0]
    refine ⟨x1, ?_, ?_⟩
    · intro hp
      rw [x2, s2]
      exact g.ptr_eq hp
    · intro q hq
      have hq1 : ¬ InReservation (resize_shrink sz n (size sz (reserve sz pol mm v n))
          (reserve sz pol mm v n) h).1 q := by
        intro hi
        apply hq
        unfold InReservation at hi ⊢
        rw [x2]
        exact hi
      rw [x3 q hq1]
      exact s4 q (fun hi => hq1 ((hres q).2 hi))

end SettledVector

/-! ## The pointers after each operation, and the size/capacity invariant -/

namespace SettledVector
variable {T : Type}

theorem valid_init {sz : Nat} (pol : Policy) (hsz : 0 < sz) : Valid sz pol init := by
  refine ⟨hsz, fun _ => ⟨rfl, rfl⟩, le_refl _, le_refl _, ?_, ?_, ?_, ?_, ?_⟩
  · simp [init, MMappedMemory.init]
  · simp [init, MMappedMemory.init]
  · simp [init, MMappedMemory.init]
  · intro _ hp
    exact absurd rfl hp
  · intro P _
    exact Nat.dvd_zero P

theorem size_init (sz : Nat) : size sz init = 0 := by
  simp [size, ptr_diff, init, MMappedMemory.init, MMappedMemory.begin]

/-- Moving the cursor of a valid container to slot `k` inside the usable range. -/
theorem Valid.set_end {sz : Nat} {pol : Policy} {v : SettledVector} (hv : Valid sz pol v)
    (k : Nat) (hk : v.memory.ptr + k * sz ≤ v.memory.capacity_ptr) :
    Valid sz pol ⟨v.memory, v.memory.ptr + k * sz⟩ ∧
    size sz ⟨v.memory, v.memory.ptr + k * sz⟩ = k := by
  refine ⟨⟨hv.sz_pos, ?_, Nat.le_add_right _ _, hk, ?_, hv.cap_aligned, hv.in_reservation,
    hv.lazy_cap, hv.page_aligned⟩, size_eq_of_end hv.sz_pos rfl⟩
  · intro hp
    have h1 := hv.null hp
    simp only at hp hk ⊢
    omega
  · simp

theorem emplace_fst (sz : Nat) (pol : Policy) (mm : Nat) (v : SettledVector) (h : Heap T)
    (position : Nat) (x : T) :
    (emplace sz pol mm v h position x).1 = (emplace_back sz pol mm v h x).1 := by
  unfold emplace
  split
  · rfl
  · rfl

theorem valid_emplace_back {sz : Nat} {pol : Policy} {v : SettledVector} (mm : Nat)
    (h : Heap T) (x : T) (hv : Valid sz pol v) (hmm : MmapOk pol mm)
    (hroom : Room sz pol v 1) : Valid sz pol (emplace_back sz pol mm v h x).1 := by
  have g := grow_if_necessary_spec mm hv hmm hroom
  have hr := g.room
  rw [Nat.one_mul] at hr
  exact g.valid.extend hr

theorem size_pos_of_not_empty {sz : Nat} {pol : Policy} {v : SettledVector}
    (hv : Valid sz pol v) (hne : empty v = false) : 0 < size sz v := by
  have h1 : v.end_ptr ≠ v.memory.ptr := by
    simpa [empty, MMappedMemory.begin] using hne
  have h2 := hv.end_eq
  rcases Nat.eq_zero_or_pos (size sz v) with h0 | h0
  · rw [h0] at h2
    omega
  · exact h0

theorem clear_loop_fst {sz : Nat} (hsz : 0 < sz) :
    ∀ (fuel : Nat) (v : SettledVector) (h : Heap T) (s : Nat),
      v.end_ptr = v.memory.ptr + s * sz → s ≤ fuel →
      (clear_loop sz fuel v h).1 = ⟨v.memory, v.memory.ptr⟩ := by
  intro fuel
  induction fuel with
  | zero =>
    intro v h s he hs
    have h0 : s = 0 := by omega
    rw [h0, Nat.zero_mul, Nat.add_zero] at he
    simp only [clear_loop]
    rw [← he]
  | succ f ih =>
    intro v h s he hs
    rcases Nat.eq_zero_or_pos s with h0 | h0
    · rw [h0, Nat.zero_mul, Nat.add_zero] at he
      have hE : empty v = true := by
        simp [empty, MMappedMemory.begin, he]
      simp only [clear_loop, hE, Bool.not_true, Bool.false_eq_true, if_false]
      rw [← he]
    · have hE : empty v = false := by
        have : v.end_ptr ≠ v.memory.ptr := by
          have := Nat.mul_pos h0 hsz
          omega
        simp [empty, MMappedMemory.begin, this]
      simp only [clear_loop, hE, Bool.not_false, if_true]
      have he' : (pop_back sz v h).1.end_ptr = (pop_back sz v h).1.memory.ptr + (s - 1) * sz := by
        simp only [pop_back]
        have := addr_succ sz v.memory.ptr (s - 1)
        have h2 : s - 1 + 1 = s := by omega
        rw [h2] at this
        omega
      rw [ih _ _ (s - 1) he' (by omega)]
      rfl

theorem clear_fst {sz : Nat} {pol : Policy} {v : SettledVector} (h : Heap T)
    (hv : Valid sz pol v) : (clear sz v h).1 = ⟨v.memory, v.memory.ptr⟩ := by
  have he := hv.end_eq
  unfold clear
  apply clear_loop_fst hv.sz_pos _ v h (size sz v) he
  simp only [MMappedMemory.begin]
  rw [he, Nat.add_sub_cancel_left]
  exact Nat.le_mul_of_pos_right _ hv.sz_pos

theorem resize_shrink_fst {sz : Nat} (hsz : 0 < sz) (n : Nat) :
    ∀ (fuel : Nat) (v : SettledVector) (h : Heap T) (s : Nat),
      v.end_ptr = v.memory.ptr + s * sz → s - n ≤ fuel →
      (resize_shrink sz n fuel v h).1 = ⟨v.memory, v.memory.ptr + min n s * sz⟩ := by
  intro fuel
  induction fuel with
  | zero =>
    intro v h s he hs
    have h0 : min n s = s := by omega
    simp only [resize_shrink]
    rw [h0, ← he]
  | succ f ih =>
    intro v h s he hs
    have hsize : size sz v = s := size_eq_of_end hsz he
    by_cases hlt : n < size sz v
    · simp only [resize_shrink, if_pos hlt]
      rw [hsize] at hlt
      have he' : (pop_back sz v h).1.end_ptr = (pop_back sz v h).1.memory.ptr + (s - 1) * sz := by
        simp only [pop_back]
        have := addr_succ sz v.memory.ptr (s - 1)
        have h2 : s - 1 + 1 = s := by omega
        rw [h2] at this
        omega
      rw [ih _ _ (s - 1) he' (by omega)]
      have h3 : min n (s - 1) = min n s := by omega
      rw [h3]
      rfl
    · simp only [resize_shrink, if_neg hlt]
      rw [hsize] at hlt
      have h0 : min n s = s := by omega
      rw [h0, ← he]

theorem resize_extend_fst {sz : Nat} (hsz : 0 < sz) (n : Nat) (dflt : Option T) :
    ∀ (fuel : Nat) (v : SettledVector) (h : Heap T) (s : Nat),
      v.end_ptr = v.memory.ptr + s * sz → n - s ≤ fuel →
      (resize_extend sz n dflt fuel v h).1 = ⟨v.memory, v.memory.ptr + max n s * sz⟩ := by
  intro fuel
  induction fuel with
  | zero =>
    intro v h s he hs
    have h0 : max n s = s := by omega
    simp only [resize_extend]
    rw [h0, ← he]
  | succ f ih =>
    intro v h s he hs
    have hsize : size sz v = s := size_eq_of_end hsz he
    by_cases hlt : n > size sz v
    · simp only [resize_extend, if_pos hlt]
      rw [hsize] at hlt
      have he' : (⟨v.memory, v.end_ptr + sz⟩ : SettledVector).end_ptr
          = (⟨v.memory, v.end_ptr + sz⟩ : SettledVector).memory.ptr + (s + 1) * sz := by
        simp only
        rw [he, addr_succ]
      rw [ih _ _ (s + 1) he' (by omega)]
      have h3 : max n (s + 1) = max n s := by omega
      rw [h3]
    · simp only [resize_extend, if_neg hlt]
      rw [hsize] at hlt
      have h0 : max n s = s := by omega
      rw [h0, ← he]

/-- The pointers after `resize(n)`, whatever the reservation holds: the arena is the one
`reserve(n)` leaves and the cursor is at slot `n`. -/
theorem resize_fst {sz : Nat} (hsz : 0 < sz) (pol : Policy) (mm : Nat) (dflt : Option T)
    (v : SettledVector) (h : Heap T) (n s : Nat)
    (he : (reserve sz pol mm v n).end_ptr = (reserve sz pol mm v n).memory.ptr + s * sz) :
    (resize sz pol mm dflt v h n).1 =
      ⟨(reserve sz pol mm v n).memory, (reserve sz pol mm v n).memory.ptr + n * sz⟩ := by
  unfold resize
  simp only
  have hsize : size sz (reserve sz pol mm v n) = s := size_eq_of_end hsz he
  have h1 := resize_shrink_fst hsz n (size sz (reserve sz pol mm v n))
    (reserve sz pol mm v n) h s he (by omega)
  have he2 : (resize_shrink sz n (size sz (reserve sz pol mm v n))
      (reserve sz pol mm v n) h).1.end_ptr =
      (resize_shrink sz n (size sz (reserve sz pol mm v n))
        (reserve sz pol mm v n) h).1.memory.ptr + min n s * sz := by
    rw [h1]
  rw [resize_extend_fst hsz n dflt n _ _ (min n s) he2 (by omega), h1]
  have h3 : max n (min n s) = n := by omega
  rw [h3]

theorem valid_resize {sz : Nat} {pol : Policy} {v : SettledVector} (mm : Nat)
    (dflt : Option T) (h : Heap T) {n : Nat} (hv : Valid sz pol v) (hmm : MmapOk pol mm)
    (hn : n < SIZE_MOD)
    (hroom : Room sz pol v (n - size sz v)) :
    Valid sz pol (resize sz pol mm dflt v h n).1 ∧
    size sz (resize sz pol mm dflt v h n).1 = n := by
  have g := reserve_spec mm hv hmm hn hroom
  have hw := g.valid
  have he := hw.end_eq
  rw [resize_fst hw.sz_pos pol mm dflt v h n _ he]
  apply hw.set_end
  have hr := g.room
  rw [he, g.size_eq] at hr
  rcases Nat.le_total n (size sz v) with h1 | h1
  · have h2 : n * sz ≤ size sz v * sz := Nat.mul_le_mul_right sz h1
    omega
  · have h2 : size sz v * sz + (n - size sz v) * sz = n * sz := by
      rw [← Nat.add_mul]
      congr 1
      omega
    omega

end SettledVector

namespace SettledVector
variable {T : Type}

theorem copy_loop_fst {sz : Nat} (hsz : 0 < sz) (last : Nat) :
    ∀ (fuel it : Nat) (v : SettledVector) (h : Heap T) (d : Nat),
      it + d * sz = last → d ≤ fuel →
      (copy_loop sz last fuel it v h).1 = ⟨v.memory, v.end_ptr + d * sz⟩ := by
  intro fuel
  induction fuel with
  | zero =>
    intro it v h d _ hd
    have h0 : d = 0 := by omega
    simp only [copy_loop]
    rw [h0, Nat.zero_mul, Nat.add_zero]
  | succ f ih =>
    intro it v h d hl hd
    rcases Nat.eq_zero_or_pos d with h0 | h0
    · rw [h0, Nat.zero_mul, Nat.add_zero] at hl
      simp only [copy_loop, if_pos hl]
      rw [h0, Nat.zero_mul, Nat.add_zero]
    · have hne : it ≠ last := by
        have := Nat.mul_pos h0 hsz
        omega
      have hstep : d * sz = sz + (d - 1) * sz := by
        have h2 : d = (d - 1) + 1 := by omega
        conv_lhs => rw [h2, Nat.add_mul, Nat.one_mul]
        omega
      simp only [copy_loop, if_neg hne]
      rw [ih (it + sz) _ _ (d - 1) (by omega) (by omega)]
      simp only
      rw [hstep, Nat.add_assoc]

theorem valid_copy_ctor {sz : Nat} {pol : Policy} {other : SettledVector} (mm : Nat)
    (h : Heap T) (ho : Valid sz pol other) (hmm : MmapOk pol mm)
    (hroom : Room sz pol init (size sz other)) :
    Valid sz pol (copy_ctor sz pol mm other h).1 ∧
    size sz (copy_ctor sz pol mm other h).1 = size sz other := by
  have hsz := ho.sz_pos
  have hoe := ho.end_eq
  have hlt : size sz other < SIZE_MOD := by
    have h1 := ho.size_le_capacity
    have h2 := ho.cap_eq
    have h3 := ho.in_reservation
    have h4 : capacity sz other * 1 ≤ capacity sz other * sz := Nat.mul_le_mul_left _ hsz
    rw [default_num_bytes_eq] at h3
    rw [size_mod_eq]
    omega
  have hroom' : Room sz pol init (size sz other - size sz init) := by
    rw [size_init, Nat.sub_zero]
    exact hroom
  have g := reserve_spec mm (valid_init pol hsz) hmm hlt hroom'
  rw [size_init, Nat.sub_zero] at g
  have hw := g.valid
  have hwe := hw.end_eq
  rw [g.size_eq, size_init, Nat.zero_mul, Nat.add_zero] at hwe
  have hfuel : size sz other ≤ cend other - cbegin other := by
    simp only [cend, cbegin, MMappedMemory.begin]
    rw [hoe, Nat.add_sub_cancel_left]
    exact Nat.le_mul_of_pos_right _ hsz
  unfold copy_ctor
  simp only
  rw [copy_loop_fst hsz (cend other) _ (cbegin other) _ h (size sz other)
    (by simp only [cend, cbegin, MMappedMemory.begin]; exact hoe.symm) hfuel, hwe]
  apply hw.set_end
  have hr := g.room
  rw [hwe] at hr
  exact hr

theorem list_fold_fst (sz : Nat) :
    ∀ (list : List T) (v : SettledVector) (h : Heap T),
      (list.foldl (fun s value => ((⟨s.1.memory, s.1.end_ptr + sz⟩ : SettledVector),
        s.2.write s.1.end_ptr (some value))) (v, h)).1
        = ⟨v.memory, v.end_ptr + list.length * sz⟩ := by
  intro list
  induction list with
  | nil =>
    intro v h
    simp
  | cons x xs ih =>
    intro v h
    rw [List.foldl_cons, ih]
    simp only [List.length_cons]
    rw [Nat.add_mul, Nat.one_mul]
    congr 1
    omega

theorem valid_list_ctor {sz : Nat} {pol : Policy} (mm : Nat) (h : Heap T) (list : List T)
    (hsz : 0 < sz) (hmm : MmapOk pol mm) (hroom : Room sz pol init list.length) :
    Valid sz pol (list_ctor sz pol mm h list).1 ∧
    size sz (list_ctor sz pol mm h list).1 = list.length := by
  have g := grow_if_necessary_spec mm (valid_init pol hsz) hmm hroom
  have hw := g.valid
  have hwe := hw.end_eq
  rw [g.size_eq, size_init, Nat.zero_mul, Nat.add_zero] at hwe
  unfold list_ctor
  simp only
  rw [list_fold_fst, hwe]
  apply hw.set_end
  have hr := g.room
  rw [hwe] at hr
  exact hr

theorem range_ctor_snoc (sz : Nat) (pol : Policy) (mm : Nat) (h : Heap T) (xs : List T)
    (x : T) :
    range_ctor sz pol mm h (xs ++ [x]) =
      push_back sz pol mm (range_ctor sz pol mm h xs).1 (range_ctor sz pol mm h xs).2 x := by
  unfold range_ctor
  rw [List.foldl_append]
  rfl

theorem valid_range_ctor {sz : Nat} {pol : Policy} (mm : Nat) (h : Heap T) (xs : List T)
    (hsz : 0 < sz) (hmm : MmapOk pol mm)
    (hroom : ∀ k, k < xs.length → Room sz pol (range_ctor sz pol mm h (xs.take k)).1 1) :
    ∀ k, k ≤ xs.length → Valid sz pol (range_ctor sz pol mm h (xs.take k)).1 := by
  intro k
  induction k with
  | zero =>
    intro _
    exact valid_init pol hsz
  | succ k ih =>
    intro hk
    have hk' : k < xs.length := hk
    rw [List.take_succ, List.getElem?_eq_getElem hk', Option.toList_some, range_ctor_snoc]
    exact valid_emplace_back mm _ _ (ih (by omega)) hmm (hroom k hk')

/-- Every state reached with room in the reservation satisfies the representation
invariant. -/
theorem valid_of_reachable {sz : Nat} {pol : Policy} {v : SettledVector} (hsz : 0 < sz)
    (hr : Reachable T sz pol (Room sz pol) v) : Valid sz pol v := by
  induction hr with
  | default_ctor => exact valid_init pol hsz
  | sized_ctor mm dflt h n hmm hn hfit =>
    have hroom : Room sz pol init (n - size sz init) := by
      rw [size_init, Nat.sub_zero]
      exact hfit
    exact (valid_resize mm dflt h (valid_init pol hsz) hmm hn hroom).1
  | range_ctor mm h xs hmm hfit =>
    have := valid_range_ctor mm h xs hsz hmm hfit xs.length (le_refl _)
    rwa [List.take_length] at this
  | copy_ctor mm h other _ hmm hfit ih => exact (valid_copy_ctor mm h ih hmm hfit).1
  | move_ctor other _ ih => exact ih
  | moved_from other _ _ => exact valid_init pol hsz
  | list_ctor mm h list hmm hfit => exact (valid_list_ctor mm h list hsz hmm hfit).1
  | push_back mm h v x _ hmm hfit ih => exact valid_emplace_back mm h x ih hmm hfit
  | emplace_back mm h v x _ hmm hfit ih => exact valid_emplace_back mm h x ih hmm hfit
  | insert mm h v p x _ hmm hfit _ ih =>
    unfold insert
    rw [emplace_fst]
    exact valid_emplace_back mm h x ih hmm hfit
  | emplace mm h v p x _ hmm hfit _ ih =>
    rw [emplace_fst]
    exact valid_emplace_back mm h x ih hmm hfit
  | pop_back h v _ hne ih => exact (ih.shrink (size_pos_of_not_empty ih hne)).1
  | erase h v p _ hp ih => exact (ih.shrink (by omega)).1
  | clear h v _ ih =>
    rw [clear_fst h ih]
    exact ih.reset
  | resize mm dflt h v n _ hmm hn hfit ih => exact (valid_resize mm dflt h ih hmm hn hfit).1
  | reserve mm v n _ hmm hn hfit ih => exact (reserve_spec mm ih hmm hn hfit).valid
  | swap_self a b _ _ _ ihb => exact ihb
  | swap_other a b _ _ iha _ => exact iha
  | assign h self other _ _ _ iho => exact iho

/-- C4, as amended: size/capacity invariant. Every container state reached from a
constructor by `push_back`, `emplace_back`, `insert`, `emplace`, `pop_back` on a non-empty
container, `erase` at a valid position, `clear`, `resize`, `reserve`, `swap` and
assignment, each growing step finding room in the reservation, satisfies
`0 <= size() <= capacity()`. -/
theorem size_le_capacity_of_reachable (T : Type) (sz : Nat) (pol : Policy)
    (v : SettledVector) (hsz : 0 < sz) (hr : Reachable T sz pol (Room sz pol) v) :
    0 ≤ size sz v ∧ size sz v ≤ capacity sz v :=
  ⟨Nat.zero_le _, (valid_of_reachable hsz hr).size_le_capacity⟩

/-- Witness of C4: the test container `{1, 2, 3}` is reached by the initializer-list
constructor with room in the reservation. -/
theorem size_le_capacity_of_reachable_witness :
    Reachable Int 4 Policy.DONT_ACTUALLY_GROW (Room 4 Policy.DONT_ACTUALLY_GROW) test_vector.1 ∧
    size 4 test_vector.1 ≤ capacity 4 test_vector.1 :=
  ⟨Reachable.list_ctor 65536 Heap.empty [1, 2, 3] test_mmap_ok (by
      show (size 4 init + 3) * 4 ≤ default_num_bytes
      decide),
    (size_le_capacity_of_reachable Int 4 Policy.DONT_ACTUALLY_GROW test_vector.1 (by decide)
      (Reachable.list_ctor 65536 Heap.empty [1, 2, 3] test_mmap_ok (by
        show (size 4 init + 3) * 4 ≤ default_num_bytes
        decide))).2⟩

theorem oversized_vector_eq :
    (sized_ctor 4 Policy.DONT_ACTUALLY_GROW 65536 (none : Option Int) Heap.empty
        1073741825).1
      = ⟨⟨65536, 65536 + 4294967296⟩, 65536 + 1073741825 * 4⟩ := by
  have he : (reserve 4 Policy.DONT_ACTUALLY_GROW 65536 init 1073741825).end_ptr
      = (reserve 4 Policy.DONT_ACTUALLY_GROW 65536 init 1073741825).memory.ptr + 0 * 4 := by
    decide
  have hr : reserve 4 Policy.DONT_ACTUALLY_GROW 65536 init 1073741825
      = ⟨⟨65536, 65536 + 4294967296⟩, 65536⟩ := by
    decide
  have e := resize_fst (by decide : 0 < 4) Policy.DONT_ACTUALLY_GROW 65536 (none : Option Int)
    init Heap.empty 1073741825 0 he
  rw [hr] at e
  rw [sized_ctor]
  exact e

/-- Counterexample to C4 as stated: `SettledVector<int> a(1073741825)`, one element more
than the reservation of `default_num_bytes` bytes holds (`int` is default-initialised
without a store), is reached by the sized constructor alone and has `size() == 1073741825`
but `capacity() == 1073741824`. -/
theorem size_le_capacity_counterexample :
    Reachable Int 4 Policy.DONT_ACTUALLY_GROW (fun _ _ => True)
      (sized_ctor 4 Policy.DONT_ACTUALLY_GROW 65536 (none : Option Int) Heap.empty
        1073741825).1 ∧
    size 4 (sized_ctor 4 Policy.DONT_ACTUALLY_GROW 65536 (none : Option Int) Heap.empty
        1073741825).1
      = 1073741825 ∧
    capacity 4 (sized_ctor 4 Policy.DONT_ACTUALLY_GROW 65536 (none : Option Int) Heap.empty
        1073741825).1
      = 1073741824 ∧
    ¬ (size 4 (sized_ctor 4 Policy.DONT_ACTUALLY_GROW 65536 (none : Option Int) Heap.empty
        1073741825).1
      ≤ capacity 4
        (sized_ctor 4 Policy.DONT_ACTUALLY_GROW 65536 (none : Option Int) Heap.empty
        1073741825).1) := by
  refine ⟨Reachable.sized_ctor 65536 (none : Option Int) Heap.empty 1073741825 test_mmap_ok
    (by decide) trivial, ?_, ?_, ?_⟩
  · rw [oversized_vector_eq]
    decide
  · rw [oversized_vector_eq]
    decide
  · rw [oversized_vector_eq]
    decide

end SettledVector

/-! ## Copy construction and independence of the copy -/

namespace detail.MMappedMemory

theorem grow_ptr_cases (pol : Policy) (mm : Nat) (m : MMappedMemory) (c k : Nat) :
    (m.grow pol mm c k).ptr = m.ptr ∨ (m.grow pol mm c k).ptr = mm := by
  unfold grow
  simp only
  split
  · exact Or.inl rfl
  · cases pol with
    | DONT_ACTUALLY_GROW =>
      simp only
      split
      · exact Or.inr rfl
      · exact Or.inl rfl
    | actually_grow P =>
      simp only
      split
      · exact Or.inr rfl
      · exact Or.inl rfl

end detail.MMappedMemory

namespace SettledVector
variable {T : Type}

theorem reserve_ptr_cases (sz : Nat) (pol : Policy) (mm : Nat) (v : SettledVector) (n : Nat) :
    (reserve sz pol mm v n).memory.ptr = v.memory.ptr ∨
    (reserve sz pol mm v n).memory.ptr = mm := by
  unfold reserve grow_if_necessary
  split
  · split
    · exact Or.inl rfl
    · exact MMappedMemory.grow_ptr_cases pol mm v.memory _ _
  · exact Or.inl rfl

/-- Cells of two containers with separate reservations are different addresses. -/
theorem not_inReservation_of_separate {a b : SettledVector}
    (hsep : Separate b.memory.ptr a.memory.ptr) {q : Nat} (hq : InReservation a q) :
    ¬ InReservation b q := by
  intro hb
  obtain ⟨_, h1, h2⟩ := hq
  obtain ⟨_, h3, h4⟩ := hb
  rcases hsep with h | h <;> omega

theorem Holds.of_frame {sz : Nat} {pol : Policy} {a b : SettledVector} {h h' : Heap T}
    {la : List T} (ha : Holds sz pol a h la)
    (hsep : la ≠ [] → Separate b.memory.ptr a.memory.ptr)
    (hframe : ∀ q, ¬ InReservation b q → h' q = h q) : Holds sz pol a h' la := by
  apply ha.of_cells
  intro i hi
  apply hframe
  have hne : la ≠ [] := by
    intro e
    rw [e] at hi
    simp at hi
  exact not_inReservation_of_separate (hsep hne) (ha.cell_inReservation hi)

theorem eq_of_same_sequence [BEq T] {sz : Nat} {pol : Policy} {x y : SettledVector}
    {h : Heap T} {a : List T} (hrefl : ∀ t : T, (t == t) = true)
    (hx : Holds sz pol x h a) (hy : Holds sz pol y h a) : eq sz x y h = true := by
  obtain ⟨hv, he, hcx⟩ := holds_iff.1 hx
  obtain ⟨_, _, hcy⟩ := holds_iff.1 hy
  have hsz := hv.sz_pos
  have hfuel : a.length ≤ cend x - cbegin x := by
    simp only [cend, cbegin, MMappedMemory.begin]
    rw [he, Nat.add_sub_cancel_left]
    exact Nat.le_mul_of_pos_right _ hsz
  have hloop := std_equal_spec hsz x.memory.ptr y.memory.ptr a.length h a.length 0
    (cend x - cbegin x) (by omega) hfuel
  rw [Nat.zero_mul, Nat.add_zero, Nat.add_zero, ← he] at hloop
  unfold eq
  rw [hx.size_eq, hy.size_eq]
  simp only [ne_eq, not_true_eq_false, if_false]
  simp only [cend, cbegin, MMappedMemory.begin] at hloop ⊢
  rw [hloop]
  intro i _ hi
  rw [hcx i hi, hcy i hi, List.getElem?_eq_getElem hi, Option.some_beq_some]
  exact hrefl _

end SettledVector

namespace SettledVector
variable {T : Type}

theorem emplace_back_ptr {sz : Nat} {pol : Policy} {v : SettledVector} (mm : Nat)
    (h : Heap T) (x : T) (hv : Valid sz pol v) (hmm : MmapOk pol mm)
    (hroom : Room sz pol v 1) (hp : v.memory.ptr ≠ 0) :
    (emplace_back sz pol mm v h x).1.memory.ptr = v.memory.ptr :=
  (grow_if_necessary_spec mm hv hmm hroom).ptr_eq hp

/-- The loop `while (n < size()) pop_back()` of `resize` does nothing when `n` is not below
the size. -/
theorem resize_shrink_done (sz n : Nat) (fuel : Nat) (v : SettledVector) (h : Heap T)
    (hle : ¬ n < size sz v) : resize_shrink sz n fuel v h = (v, h) := by
  cases fuel with
  | zero => rfl
  | succ f => simp only [resize_shrink, if_neg hle]

/-- The loop `while (n > size()) new (end_ptr++) value_type` of `resize` does nothing when
`n` is not above the size. -/
theorem resize_extend_done (sz n : Nat) (dflt : Option T) (fuel : Nat) (v : SettledVector)
    (h : Heap T) (hle : ¬ n > size sz v) : resize_extend sz n dflt fuel v h = (v, h) := by
  cases fuel with
  | zero => rfl
  | succ f => simp only [resize_extend, if_neg hle]

/-- Default-initialisation that performs no initialisation: the loop
`while (n > size()) new (end_ptr++) value_type` stores nothing. -/
theorem resize_extend_none (sz n : Nat) :
    ∀ (fuel : Nat) (v : SettledVector) (h : Heap T),
      (resize_extend sz n (none : Option T) fuel v h).2 = h := by
  intro fuel
  induction fuel with
  | zero =>
    intro v h
    rfl
  | succ f ih =>
    intro v h
    by_cases hlt : n > size sz v
    · simp only [resize_extend, if_pos hlt, default_init]
      exact ih _ _
    · simp only [resize_extend, if_neg hlt]

theorem resize_extend_end_le (sz n : Nat) (dflt : Option T) :
    ∀ (fuel : Nat) (v : SettledVector) (h : Heap T),
      v.end_ptr ≤ (resize_extend sz n dflt fuel v h).1.end_ptr := by
  intro fuel
  induction fuel with
  | zero =>
    intro v h
    exact le_refl _
  | succ f ih =>
    intro v h
    by_cases hlt : n > size sz v
    · simp only [resize_extend, if_pos hlt]
      have := ih ⟨v.memory, v.end_ptr + sz⟩ (default_init dflt h v.end_ptr)
      simp only at this
      omega
    · simp only [resize_extend, if_neg hlt]
      exact le_refl _

theorem default_init_ne (dflt : Option T) (h : Heap T) {p q : Nat} (hne : q ≠ p) :
    default_init dflt h p q = h q := by
  cases dflt with
  | none => rfl
  | some d => exact Heap.write_ne _ hne _

/-- The loop `while (n > size()) new (end_ptr++) value_type` of `resize` stores only into
the slots between the old cursor and the new one. -/
theorem resize_extend_writes {sz : Nat} (hsz : 0 < sz) (n : Nat) (dflt : Option T) :
    ∀ (fuel : Nat) (v : SettledVector) (h : Heap T) (q : Nat),
      q < v.end_ptr ∨ (resize_extend sz n dflt fuel v h).1.end_ptr ≤ q →
      (resize_extend sz n dflt fuel v h).2 q = h q := by
  intro fuel
  induction fuel with
  | zero =>
    intro v h q _
    rfl
  | succ f ih =>
    intro v h q hq
    by_cases hlt : n > size sz v
    · have hmono := resize_extend_end_le sz n dflt f ⟨v.memory, v.end_ptr + sz⟩
        (default_init dflt h v.end_ptr)
      simp only [resize_extend, if_pos hlt] at hq ⊢
      simp only at hmono
      rw [ih _ _ q (by
        rcases hq with h1 | h1
        · left
          simp only
          omega
        · right
          exact h1)]
      apply default_init_ne
      omega
    · simp only [resize_extend, if_neg hlt]

end SettledVector

namespace SettledVector

end SettledVector

/-! ## `resize` -/

namespace SettledVector
variable {T : Type}

/-- The member `resize(n)` on a container that holds `a`, with `n` not above the length of
`a`: only the loop of `pop_back` runs, whatever default-initialisation does. -/
theorem holds_resize_shrink {sz : Nat} {pol : Policy} {v : SettledVector} {h : Heap T}
    {a : List T} (mm : Nat) (dflt : Option T) {n : Nat} (hh : Holds sz pol v h a)
    (hmm : MmapOk pol mm) (hn : n < SIZE_MOD) (hroom : Room sz pol v (n - size sz v))
    (hle : n ≤ a.length) :
    Holds sz pol (resize sz pol mm dflt v h n).1 (resize sz pol mm dflt v h n).2
      (a.take n) := by
  have g := reserve_spec mm hh.valid hmm hn hroom
  have hw := g.holds hh
  obtain ⟨s1, _, _, _⟩ := resize_shrink_spec n (size sz (reserve sz pol mm v n))
    (reserve sz pol mm v n) h a hw (by rw [hw.size_eq]; omega)
  have hsize : ¬ n > size sz (resize_shrink sz n (size sz (reserve sz pol mm v n))
      (reserve sz pol mm v n) h).1 := by
    rw [s1.size_eq, List.length_take]
    omega
  have e : resize sz pol mm dflt v h n = resize_shrink sz n (size sz (reserve sz pol mm v n))
      (reserve sz pol mm v n) h := by
    unfold resize
    simp only
    exact resize_extend_done sz n dflt n _ _ hsize
  rw [e]
  exact s1

/-- The member `resize(n)` on a container that holds `a`, with `n` not below the length of
`a`: only the loop of default-initialisations runs, on the container `reserve(n)` leaves. -/
theorem resize_eq_extend {sz : Nat} {pol : Policy} {v : SettledVector} {h : Heap T}
    {a : List T} (mm : Nat) (dflt : Option T) {n : Nat} (hh : Holds sz pol v h a)
    (hmm : MmapOk pol mm) (hn : n < SIZE_MOD) (hroom : Room sz pol v (n - size sz v))
    (hle : a.length ≤ n) :
    resize sz pol mm dflt v h n = resize_extend sz n dflt n (reserve sz pol mm v n) h := by
  have hsize : ¬ n < size sz (reserve sz pol mm v n) := by
    rw [(reserve_spec mm hh.valid hmm hn hroom).size_eq, hh.size_eq]
    omega
  unfold resize
  simp only
  rw [resize_shrink_done sz n _ _ h hsize]

/-- C10: `resize`. For a container that holds `a` of length `m`, a `size_type` value `n`
and a reservation with room for the `n - m` further elements, after `resize(n)` the size is
`n` and the elements at the indices below `n` and `m` are the ones of `a`, unchanged; if
`n <= m` the container holds the first `n` elements of `a`; if `n > m` the `n - m` further
elements are default-initialised: for a `value_type` whose default constructor leaves the
value `d` (`dflt = some d`) the container holds `a` followed by `n - m` copies of `d`, and
for a `value_type` whose default-initialisation performs no initialisation (`dflt = none`,
as for `int`) nothing is stored, so that each further element is what the memory of its
slot held before the call. -/
theorem resize_spec (sz : Nat) (pol : Policy) (mm : Nat) (dflt : Option T)
    (v : SettledVector) (h : Heap T) (a : List T) (n : Nat) (hh : Holds sz pol v h a)
    (hmm : MmapOk pol mm) (hn : n < SIZE_MOD) (hroom : Room sz pol v (n - a.length)) :
    size sz (resize sz pol mm dflt v h n).1 = n ∧
    Valid sz pol (resize sz pol mm dflt v h n).1 ∧
    (n ≤ a.length →
      Holds sz pol (resize sz pol mm dflt v h n).1 (resize sz pol mm dflt v h n).2
        (a.take n)) ∧
    (∀ i, i < n → i < a.length →
      get sz (resize sz pol mm dflt v h n).1 (resize sz pol mm dflt v h n).2 i
        = get sz v h i) ∧
    (∀ d, dflt = some d → a.length < n →
      Holds sz pol (resize sz pol mm dflt v h n).1 (resize sz pol mm dflt v h n).2
        (a ++ List.replicate (n - a.length) d)) ∧
    (∀ d, dflt = some d → ∀ i, a.length ≤ i → i < n →
      get sz (resize sz pol mm dflt v h n).1 (resize sz pol mm dflt v h n).2 i = some d) ∧
    (dflt = none → a.length ≤ n → (resize sz pol mm dflt v h n).2 = h) ∧
    (dflt = none → ∀ i, a.length ≤ i → i < n →
      get sz (resize sz pol mm dflt v h n).1 (resize sz pol mm dflt v h n).2 i
        = h (cbegin (resize sz pol mm dflt v h n).1 + i * sz)) := by
  have hs := hh.size_eq
  have hroom' : Room sz pol v (n - size sz v) := by
    rw [hs]
    exact hroom
  obtain ⟨hval, hsize⟩ := valid_resize mm dflt h hh.valid hmm hn hroom'
  have hsz := hh.valid.sz_pos
  have hnone : dflt = none → a.length ≤ n → (resize sz pol mm dflt v h n).2 = h := by
    intro hd hle
    rw [resize_eq_extend mm dflt hh hmm hn hroom' hle, hd]
    exact resize_extend_none sz n n _ h
  have hsome : ∀ d, dflt = some d →
      Holds sz pol (resize sz pol mm dflt v h n).1 (resize sz pol mm dflt v h n).2
        (a.take n ++ List.replicate (n - a.length) d) := by
    intro d hd
    rw [hd]
    exact (holds_resize mm d hh hmm hn hroom).1
  refine ⟨hsize, hval, ?_, ?_, ?_, ?_, hnone, ?_⟩
  · intro hle
    exact holds_resize_shrink mm dflt hh hmm hn hroom' hle
  · intro i hi1 hi2
    rcases Nat.lt_or_ge n a.length with hlt | hge
    · have hH := holds_resize_shrink mm dflt hh hmm hn hroom' (Nat.le_of_lt hlt)
      rw [hH.get_eq (by rw [List.length_take]; omega), hh.get_eq hi2, List.getElem?_take]
      simp [hi1]
    · have g := reserve_spec mm hh.valid hmm hn hroom'
      have hp : v.memory.ptr ≠ 0 := hh.ptr_ne_zero (by omega)
      have hptr := g.ptr_eq hp
      have hwe := g.valid.end_eq
      rw [g.size_eq, hptr, hs] at hwe
      have hfst := resize_fst hsz pol mm dflt v h n _ g.valid.end_eq
      have hcb : cbegin (resize sz pol mm dflt v h n).1 = cbegin v := by
        rw [hfst]
        simp only [cbegin, MMappedMemory.begin]
        exact hptr
      unfold get
      rw [hcb, resize_eq_extend mm dflt hh hmm hn hroom' hge]
      apply resize_extend_writes hsz
      left
      rw [hwe]
      simp only [cbegin, MMappedMemory.begin]
      have := addr_lt sz v.memory.ptr hi2
      omega
  · intro d hd hlt
    have hH := hsome d hd
    rw [List.take_of_length_le (by omega)] at hH
    exact hH
  · intro d hd i hi1 hi2
    have hH := hsome d hd
    have hlen : (a.take n ++ List.replicate (n - a.length) d).length = n := by
      rw [List.length_append, List.length_take, List.length_replicate]
      omega
    have hl : (a.take n).length = a.length := by
      rw [List.length_take]
      omega
    rw [hH.get_eq (by rw [hlen]; exact hi2),
      List.getElem?_append_right (by rw [hl]; exact hi1), hl,
      List.getElem?_replicate]
    rw [if_pos (by omega)]
  · intro hd i hi1 hi2
    unfold get
    rw [hnone hd (by omega)]

/-- Witness of C10: `resize(5)` on the test container `{1, 2, 3}` of `int`, which is
default-initialised without a store. -/
theorem resize_spec_witness :
    Holds 4 Policy.DONT_ACTUALLY_GROW test_vector.1 test_vector.2 [1, 2, 3] ∧
    size 4 (resize 4 Policy.DONT_ACTUALLY_GROW 65536 (none : Option Int) test_vector.1
      test_vector.2 5).1 = 5 :=
  ⟨test_vector_holds,
    (resize_spec 4 Policy.DONT_ACTUALLY_GROW 65536 (none : Option Int) test_vector.1
      test_vector.2 [1, 2, 3] 5 test_vector_holds test_mmap_ok (by decide) (by
        show (size 4 test_vector.1 + (5 - 3)) * 4 ≤ default_num_bytes
        decide)).1⟩

end SettledVector

/-! ## `reserve`, monotone capacity, `clear` -/

namespace detail.MMappedMemory

/-- The function `grow` does not shrink the usable range of an arena whose usable range is a
whole number of chunks. -/
theorem grow_capacity_mono (pol : Policy) (mm : Nat) (m : MMappedMemory) (c k : Nat)
    (hle : m.ptr ≤ m.capacity_ptr) (hdiv : c ∣ m.capacity_ptr - m.ptr)
    (hnull : m.ptr = 0 → m.capacity_ptr = 0) :
    m.capacity ≤ (m.grow pol mm c k).capacity := by
  unfold grow
  simp only
  split
  · exact le_refl _
  · cases pol with
    | DONT_ACTUALLY_GROW =>
      simp only
      split
      · rename_i hp
        have := hnull hp
        simp only [capacity]
        omega
      · exact le_refl _
    | actually_grow P =>
      simp only
      by_cases hp : m.ptr = 0
      · have := hnull hp
        simp only [capacity, hp, if_true]
        omega
      · simp only [if_neg hp, capacity]
        obtain ⟨j, hj⟩ := hdiv
        rw [Nat.add_sub_cancel_left, hj]
        rcases Nat.eq_zero_or_pos c with hc | hc
        · subst hc
          simp
        · rw [Nat.mul_comm c j]
          apply Nat.mul_le_mul_right
          rw [Nat.le_div_iff_mul_le hc, Nat.mul_comm j c, ← hj]
          omega

theorem grow_inv (pol : Policy) (mm : Nat) (m : MMappedMemory) (c k : Nat) (hmm : mm ≠ 0)
    (hle : m.ptr ≤ m.capacity_ptr) (hdiv : c ∣ m.capacity_ptr - m.ptr)
    (hnull : m.ptr = 0 → m.capacity_ptr = 0) :
    (m.grow pol mm c k).ptr ≤ (m.grow pol mm c k).capacity_ptr ∧
    c ∣ (m.grow pol mm c k).capacity_ptr - (m.grow pol mm c k).ptr ∧
    ((m.grow pol mm c k).ptr = 0 → (m.grow pol mm c k).capacity_ptr = 0) := by
  unfold grow
  simp only
  split
  · exact ⟨hle, hdiv, hnull⟩
  · cases pol with
    | DONT_ACTUALLY_GROW =>
      simp only
      split
      · refine ⟨Nat.le_add_right _ _, ?_, fun h => absurd h hmm⟩
        simp
      · exact ⟨hle, hdiv, hnull⟩
    | actually_grow P =>
      simp only
      refine ⟨Nat.le_add_right _ _, ?_, ?_⟩
      · simp
      · intro h0
        exfalso
        by_cases hp : m.ptr = 0
        · rw [if_pos hp] at h0
          exact hmm h0
        · rw [if_neg hp] at h0
          exact hp h0

end detail.MMappedMemory

namespace SettledVector
variable {T : Type}

theorem GrownWith.inv {pol : Policy} {c : Nat} {m : MMappedMemory} (hg : GrownWith pol c m) :
    m.ptr ≤ m.capacity_ptr ∧ c ∣ m.capacity_ptr - m.ptr ∧ (m.ptr = 0 → m.capacity_ptr = 0) := by
  induction hg with
  | init => exact ⟨le_refl _, by simp [MMappedMemory.init], fun _ => rfl⟩
  | grow m mm k _ hmm ih => exact MMappedMemory.grow_inv pol mm m c k hmm ih.1 ih.2.1 ih.2.2

theorem clear_loop_memory (sz : Nat) :
    ∀ (fuel : Nat) (v : SettledVector) (h : Heap T),
      (clear_loop sz fuel v h).1.memory = v.memory := by
  intro fuel
  induction fuel with
  | zero => intro v h; rfl
  | succ f ih =>
    intro v h
    simp only [clear_loop]
    split
    · rw [ih]
      rfl
    · rfl

theorem resize_shrink_memory (sz n : Nat) :
    ∀ (fuel : Nat) (v : SettledVector) (h : Heap T),
      (resize_shrink sz n fuel v h).1.memory = v.memory := by
  intro fuel
  induction fuel with
  | zero => intro v h; rfl
  | succ f ih =>
    intro v h
    simp only [resize_shrink]
    split
    · rw [ih]
      rfl
    · rfl

theorem resize_extend_memory (sz n : Nat) (dflt : Option T) :
    ∀ (fuel : Nat) (v : SettledVector) (h : Heap T),
      (resize_extend sz n dflt fuel v h).1.memory = v.memory := by
  intro fuel
  induction fuel with
  | zero => intro v h; rfl
  | succ f ih =>
    intro v h
    simp only [resize_extend]
    split
    · rw [ih]
    · rfl

theorem resize_memory (sz : Nat) (pol : Policy) (mm : Nat) (dflt : Option T)
    (v : SettledVector)
    (h : Heap T) (n : Nat) :
    (resize sz pol mm dflt v h n).1.memory = (reserve sz pol mm v n).memory := by
  unfold resize
  simp only
  rw [resize_extend_memory, resize_shrink_memory]

/-- Under `DONT_ACTUALLY_GROW`, `n` elements that fit `default_num_bytes` leave room for the
`n - size()` missing ones. -/
theorem room_of_fits {sz : Nat} {pol : Policy} {v : SettledVector} {n : Nat}
    (hv : Valid sz pol v) (hfit : n * sz ≤ default_num_bytes)
    (hroom : pol ≠ Policy.DONT_ACTUALLY_GROW → Room sz pol v (n - size sz v)) :
    Room sz pol v (n - size sz v) := by
  cases pol with
  | DONT_ACTUALLY_GROW =>
    show (size sz v + (n - size sz v)) * sz ≤ default_num_bytes
    rcases Nat.le_total n (size sz v) with h1 | h1
    · have h2 : size sz v + (n - size sz v) = size sz v := by omega
      rw [h2]
      have := hv.end_eq
      have := hv.end_le
      have := hv.in_reservation
      omega
    · have h2 : size sz v + (n - size sz v) = n := by omega
      rw [h2]
      exact hfit
  | actually_grow P => exact hroom (by intro h; cases h)

theorem lt_size_mod_of_fits {sz n : Nat} (hsz : 0 < sz) (hfit : n * sz ≤ default_num_bytes) :
    n < SIZE_MOD := by
  have h1 : n * 1 ≤ n * sz := Nat.mul_le_mul_left _ hsz
  rw [default_num_bytes_eq] at hfit
  rw [size_mod_eq]
  omega

/-- C11: `reserve`. For a container that holds `a` and an `n` with
`n * sizeof(T) <= default_num_bytes` (under the policy that commits pages, with room for the
pages `grow` commits), after `reserve(n)` the capacity is at least `n` while the size and
all elements are unchanged; and if `n <= capacity()` before the call, `reserve(n)` changes
nothing. -/
theorem reserve_ensures_capacity (sz : Nat) (pol : Policy) (mm : Nat) (v : SettledVector)
    (h : Heap T) (a : List T) (n : Nat) (hh : Holds sz pol v h a) (hmm : MmapOk pol mm)
    (hfit : n * sz ≤ default_num_bytes)
    (hroom : pol ≠ Policy.DONT_ACTUALLY_GROW → Room sz pol v (n - size sz v)) :
    n ≤ capacity sz (reserve sz pol mm v n) ∧
    size sz (reserve sz pol mm v n) = size sz v ∧
    Holds sz pol (reserve sz pol mm v n) h a ∧
    (∀ i, i < size sz v → get sz (reserve sz pol mm v n) h i = get sz v h i) ∧
    (n ≤ capacity sz v → reserve sz pol mm v n = v) := by
  have hv := hh.valid
  have hsz := hv.sz_pos
  have g := reserve_spec mm hv hmm (lt_size_mod_of_fits hsz hfit) (room_of_fits hv hfit hroom)
  have hH := g.holds hh
  refine ⟨?_, g.size_eq, hH, ?_, ?_⟩
  · have h1 := g.room
    have h2 := g.valid.end_eq
    have h3 := g.valid.cap_eq
    rw [g.size_eq] at h2
    rw [h2, h3, Nat.add_assoc, ← Nat.add_mul] at h1
    have h4 : (size sz v + (n - size sz v)) * sz
        ≤ capacity sz (reserve sz pol mm v n) * sz := by omega
    have h5 := Nat.le_of_mul_le_mul_right h4 hsz
    omega
  · intro i hi
    rw [hh.size_eq] at hi
    rw [hH.get_eq hi, hh.get_eq hi]
  · intro hle
    unfold reserve
    rw [if_neg (by omega)]

/-- Witness of C11: `reserve(10)` on the test container `{1, 2, 3}`. -/
theorem reserve_ensures_capacity_witness :
    Holds 4 Policy.DONT_ACTUALLY_GROW test_vector.1 test_vector.2 [1, 2, 3] ∧
    10 ≤ capacity 4 (reserve 4 Policy.DONT_ACTUALLY_GROW 65536 test_vector.1 10) :=
  ⟨test_vector_holds,
    (reserve_ensures_capacity 4 Policy.DONT_ACTUALLY_GROW 65536 test_vector.1 test_vector.2
      [1, 2, 3] 10 test_vector_holds test_mmap_ok (by decide)
      (fun hne => absurd rfl hne)).1⟩

/-- C13: `clear`. For every valid container, after `clear()` the size is `0` and `empty()`
is true, while the capacity, the arena and its region start are what they were. -/
theorem clear_resets_size (sz : Nat) (pol : Policy) (v : SettledVector) (h : Heap T)
    (hv : Valid sz pol v) :
    size sz (clear sz v h).1 = 0 ∧
    empty (clear sz v h).1 = true ∧
    capacity sz (clear sz v h).1 = capacity sz v ∧
    cbegin (clear sz v h).1 = cbegin v ∧
    (clear sz v h).1.memory = v.memory := by
  rw [clear_fst h hv]
  refine ⟨?_, ?_, rfl, rfl, rfl⟩
  · simp [size, ptr_diff, MMappedMemory.begin]
  · simp [empty, MMappedMemory.begin]

/-- Witness of C13: `clear()` on the test container `{1, 2, 3}`. -/
theorem clear_resets_size_witness :
    Valid 4 Policy.DONT_ACTUALLY_GROW test_vector.1 ∧
    size 4 (clear 4 test_vector.1 test_vector.2).1 = 0 :=
  ⟨test_vector_holds.1,
    (clear_resets_size 4 Policy.DONT_ACTUALLY_GROW test_vector.1 test_vector.2
      test_vector_holds.1).1⟩

end SettledVector

/-! ## The arena: state function of `grow` under both policies -/

namespace SettledVector

/-- The capacity `grow` leaves under the policy that commits pages, for a request whose
rounding to pages does not wrap around in `size_t`. -/
theorem grow_commit_capacity (P mm : Nat) (m : MMappedMemory) (c k : Nat)
    (halign : P ∣ (if m.ptr = 0 then mm else m.ptr)) (hle : m.ptr ≤ m.capacity_ptr)
    (hnull : m.ptr = 0 → m.capacity_ptr = 0) (hb : c * k ≠ 0)
    (hwrap : round_up P (c * k) < SIZE_MOD) :
    (m.grow (Policy.actually_grow P) mm c k).ptr = (if m.ptr = 0 then mm else m.ptr) ∧
    (m.grow (Policy.actually_grow P) mm c k).capacity
      = ((round_up P m.capacity + round_up P (c * k)) / c) * c := by
  have hlt : c * k < SIZE_MOD := lt_of_le_of_lt (round_up_ge P _) hwrap
  have hbytes : (c * k) % SIZE_MOD = c * k := Nat.mod_eq_of_lt hlt
  have e2 : c * k + (P - c * k % P) % P = round_up P (c * k) := rfl
  unfold MMappedMemory.grow
  simp only
  rw [hbytes, if_neg hb]
  simp only [MMappedMemory.capacity]
  rw [e2, Nat.mod_eq_of_lt hwrap]
  by_cases hp : m.ptr = 0
  · have hc := hnull hp
    rw [if_pos hp] at halign
    simp only [hp, hc, if_true, Nat.sub_zero, true_and]
    have e1 : mm + (P - mm % P) % P = round_up P (mm + 0) := rfl
    rw [e1, round_up_add_of_dvd halign, round_up_zero, Nat.add_zero,
      Nat.add_sub_cancel_left, Nat.add_sub_cancel_left, Nat.zero_add]
  · rw [if_neg hp] at halign
    simp only [if_neg hp, true_and]
    have e0 : m.capacity_ptr = m.ptr + (m.capacity_ptr - m.ptr) := by omega
    have e1 : m.capacity_ptr + (P - m.capacity_ptr % P) % P
        = m.ptr + round_up P (m.capacity_ptr - m.ptr) := by
      have : m.capacity_ptr + (P - m.capacity_ptr % P) % P = round_up P m.capacity_ptr := rfl
      rw [this]
      conv_lhs => rw [e0]
      exact round_up_add_of_dvd halign _
    rw [e1, Nat.add_sub_cancel_left, Nat.add_assoc, Nat.add_sub_cancel_left]

end SettledVector

namespace SettledVector
variable {T : Type}

theorem grow_lazy_first (m : MMappedMemory) (mm c k : Nat) (hp : m.ptr = 0)
    (hb : (c * k) % SIZE_MOD ≠ 0) :
    m.grow Policy.DONT_ACTUALLY_GROW mm c k
      = ⟨mm, mm + (default_num_bytes / c) * c⟩ := by
  unfold MMappedMemory.grow
  simp only [hb, if_false, hp, if_true]

theorem grow_lazy_later (m : MMappedMemory) (mm c k : Nat) (hp : m.ptr ≠ 0) :
    m.grow Policy.DONT_ACTUALLY_GROW mm c k = m := by
  unfold MMappedMemory.grow
  simp only [hp, if_false]
  split <;> rfl

theorem grow_zero_bytes (pol : Policy) (m : MMappedMemory) (mm c k : Nat)
    (hb : (c * k) % SIZE_MOD = 0) : m.grow pol mm c k = m := by
  unfold MMappedMemory.grow
  simp only [hb, if_true]

theorem chunk_pos_of_bytes {c k : Nat} (hb : (c * k) % SIZE_MOD ≠ 0) : 0 < c := by
  rcases Nat.eq_zero_or_pos c with h0 | h0
  · rw [h0, Nat.zero_mul] at hb
    exact absurd (Nat.zero_mod _) hb
  · exact h0

theorem mul_le_div_mul {c : Nat} (hc : 0 < c) (R j : Nat) (h : j * c ≤ R) :
    j * c ≤ (R / c) * c :=
  Nat.mul_le_mul_right c ((Nat.le_div_iff_mul_le hc).2 h)

/-- C18: state function of `grow` under `DONT_ACTUALLY_GROW`, the policy compiled in. A
default-constructed arena holds no reservation and has capacity `0`; `grow(c, k)` with
`c * k == 0` in `size_t` arithmetic changes nothing; the first `grow` with a non-zero
product sets the region start to what `mmap` returns and the capacity to
`(R / c) * c` with `R = default_num_bytes = 2^32`, the largest multiple of `c` not
exceeding `R`, whatever `k` is; every later `grow` leaves the arena unchanged. -/
theorem lazy_grow_state_function :
    (MMappedMemory.init.ptr = 0 ∧ MMappedMemory.init.capacity = 0) ∧
    (∀ (m : MMappedMemory) (mm c k : Nat), (c * k) % SIZE_MOD = 0 →
      m.grow Policy.DONT_ACTUALLY_GROW mm c k = m) ∧
    (∀ (m : MMappedMemory) (mm c k : Nat), m.ptr = 0 → (c * k) % SIZE_MOD ≠ 0 →
      (m.grow Policy.DONT_ACTUALLY_GROW mm c k).ptr = mm ∧
      (m.grow Policy.DONT_ACTUALLY_GROW mm c k).capacity = (default_num_bytes / c) * c ∧
      (default_num_bytes / c) * c ≤ default_num_bytes ∧
      (∀ j, j * c ≤ default_num_bytes → j * c ≤ (default_num_bytes / c) * c) ∧
      (∀ k2, (c * k2) % SIZE_MOD ≠ 0 →
        m.grow Policy.DONT_ACTUALLY_GROW mm c k2 = m.grow Policy.DONT_ACTUALLY_GROW mm c k) ∧
      (∀ mm2 c2 k2, mm ≠ 0 →
        (m.grow Policy.DONT_ACTUALLY_GROW mm c k).grow Policy.DONT_ACTUALLY_GROW mm2 c2 k2
          = m.grow Policy.DONT_ACTUALLY_GROW mm c k)) ∧
    default_num_bytes = 2 ^ 32 ∧
    (∀ (m : MMappedMemory) (mm c k : Nat), m.ptr ≠ 0 →
      m.grow Policy.DONT_ACTUALLY_GROW mm c k = m) := by
  refine ⟨⟨rfl, rfl⟩, ?_, ?_, by norm_num [default_num_bytes], ?_⟩
  · intro m mm c k hb
    exact grow_zero_bytes _ m mm c k hb
  · intro m mm c k hp hb
    rw [grow_lazy_first m mm c k hp hb]
    refine ⟨rfl, ?_, Nat.div_mul_le_self _ _, ?_, ?_, ?_⟩
    · simp [MMappedMemory.capacity]
    · intro j hj
      exact mul_le_div_mul (chunk_pos_of_bytes hb) _ j hj
    · intro k2 hb2
      exact grow_lazy_first m mm c k2 hp hb2
    · intro mm2 c2 k2 hmm
      exact grow_lazy_later _ mm2 c2 k2 hmm
  · intro m mm c k hp
    exact grow_lazy_later m mm c k hp

/-- C16: rounding rule. Under both policies, after `grow(c, k)` with a non-zero byte
product on an arena whose earlier `grow` calls used the chunk size `c`,
`(capacity_ptr - ptr) % c == 0`; so a container on such an arena, and every valid
container, has `capacity() * sizeof(T)` equal to the capacity of the arena in bytes. -/
theorem grow_rounding_rule (pol : Policy) (c k mm : Nat) (m : MMappedMemory)
    (hg : GrownWith pol c m) (hb : (c * k) % SIZE_MOD ≠ 0) :
    ((m.grow pol mm c k).capacity_ptr - (m.grow pol mm c k).ptr) % c = 0 ∧
    (∀ v : SettledVector, v.memory = m.grow pol mm c k →
      capacity c v * c = v.memory.capacity) ∧
    (∀ v : SettledVector, GrownWith pol c v.memory → capacity c v * c = v.memory.capacity) ∧
    (∀ v : SettledVector, Valid c pol v → capacity c v * c = v.memory.capacity) := by
  have key : c ∣ (m.grow pol mm c k).capacity_ptr - (m.grow pol mm c k).ptr := by
    obtain ⟨_, h2, _⟩ := hg.inv
    unfold MMappedMemory.grow
    simp only [hb, if_false]
    cases pol with
    | DONT_ACTUALLY_GROW =>
      simp only
      split
      · simp
      · exact h2
    | actually_grow P =>
      simp
  refine ⟨Nat.mod_eq_zero_of_dvd key, ?_, ?_, ?_⟩
  · intro v hv
    simp only [capacity, MMappedMemory.capacity]
    rw [hv]
    exact Nat.div_mul_cancel key
  · intro v hv
    simp only [capacity, MMappedMemory.capacity]
    exact Nat.div_mul_cancel hv.inv.2.1
  · intro v hv
    simp only [capacity, MMappedMemory.capacity]
    exact Nat.div_mul_cancel hv.cap_aligned

/-- Witness of C16: the first `grow(4, 1)` of a default-constructed arena. -/
theorem grow_rounding_rule_witness :
    GrownWith Policy.DONT_ACTUALLY_GROW 4 MMappedMemory.init ∧ (4 * 1) % SIZE_MOD ≠ 0 ∧
    ((MMappedMemory.init.grow Policy.DONT_ACTUALLY_GROW 65536 4 1).capacity_ptr
      - (MMappedMemory.init.grow Policy.DONT_ACTUALLY_GROW 65536 4 1).ptr) % 4 = 0 :=
  ⟨GrownWith.init, by decide,
    (grow_rounding_rule Policy.DONT_ACTUALLY_GROW 4 1 65536 MMappedMemory.init
      GrownWith.init (by decide)).1⟩

end SettledVector

namespace SettledVector
variable {T : Type}

theorem floor_chunk_ge {c : Nat} (hc : 0 < c) {x U : Nat} (hx : c ∣ x) (hU : x ≤ U) :
    x ≤ (U / c) * c := by
  obtain ⟨j, rfl⟩ := hx
  rw [Nat.mul_comm c j]
  apply Nat.mul_le_mul_right
  rw [Nat.le_div_iff_mul_le hc, Nat.mul_comm j c]
  exact hU

/-- C15, as amended: arena `grow` contract. For an arena and a call `grow(c, k)` whose byte
product is non-zero and stays within the fixed reservation, the capacity after the call is
at least the capacity before plus `c * k` when the arena holds no reservation yet, and,
under the policy that commits pages, whenever the capacity before is a multiple of `c`;
under `DONT_ACTUALLY_GROW` a call on an arena that holds its reservation changes
nothing. -/
theorem grow_contract (pol : Policy) (mm : Nat) (m : MMappedMemory) (c k : Nat)
    (hle : m.ptr ≤ m.capacity_ptr) (hnull : m.ptr = 0 → m.capacity_ptr = 0)
    (hmm : MmapOk pol mm) (hprod : c * k ≠ 0)
    (hfit : m.capacity + c * k ≤ default_num_bytes)
    (hcommit : ∀ P, pol = Policy.actually_grow P →
      P ∣ m.ptr ∧ round_up P m.capacity + round_up P (c * k) ≤ default_num_bytes) :
    (m.ptr = 0 → m.capacity + c * k ≤ (m.grow pol mm c k).capacity) ∧
    (pol = Policy.DONT_ACTUALLY_GROW → m.ptr ≠ 0 → m.grow pol mm c k = m) ∧
    (pol ≠ Policy.DONT_ACTUALLY_GROW → c ∣ m.capacity →
      m.capacity + c * k ≤ (m.grow pol mm c k).capacity) := by
  have hc : 0 < c := Nat.pos_of_ne_zero (fun h => hprod (by rw [h, Nat.zero_mul]))
  have hlt : c * k < SIZE_MOD := by
    rw [default_num_bytes_eq] at hfit
    rw [size_mod_eq]
    omega
  have hb : (c * k) % SIZE_MOD ≠ 0 := by
    rw [Nat.mod_eq_of_lt hlt]
    exact hprod
  cases pol with
  | DONT_ACTUALLY_GROW =>
    refine ⟨?_, fun _ hp => grow_lazy_later m mm c k hp, fun h => absurd rfl h⟩
    intro hp
    rw [grow_lazy_first m mm c k hp hb]
    have h0 : m.capacity = 0 := by
      simp [MMappedMemory.capacity, hp, hnull hp]
    rw [h0, Nat.zero_add] at hfit ⊢
    simp only [MMappedMemory.capacity, Nat.add_sub_cancel_left]
    rw [Nat.mul_comm c k] at hfit ⊢
    exact mul_le_div_mul hc _ k hfit
  | actually_grow P =>
    obtain ⟨hal, hspan⟩ := hcommit P rfl
    have halign : P ∣ (if m.ptr = 0 then mm else m.ptr) := by
      split
      · exact hmm.2 P rfl
      · exact hal
    have hwrap : round_up P (c * k) < SIZE_MOD := by
      rw [default_num_bytes_eq] at hspan
      rw [size_mod_eq]
      omega
    obtain ⟨_, hcap⟩ := grow_commit_capacity P mm m c k halign hle hnull hprod hwrap
    have key : c ∣ m.capacity → m.capacity + c * k ≤
        (m.grow (Policy.actually_grow P) mm c k).capacity := by
      intro hdiv
      rw [hcap]
      apply floor_chunk_ge hc (Dvd.dvd.add hdiv (Dvd.intro k rfl))
      have := round_up_ge P m.capacity
      have := round_up_ge P (c * k)
      omega
    refine ⟨?_, fun h => Policy.noConfusion h, fun _ => key⟩
    intro hp
    apply key
    have h0 : m.capacity = 0 := by
      simp [MMappedMemory.capacity, hp, hnull hp]
    rw [h0]
    exact Nat.dvd_zero c

/-- Witness of C15: the first `grow(4, 3)` of a default-constructed arena. -/
theorem grow_contract_witness :
    MMappedMemory.init.capacity + 4 * 3 ≤ default_num_bytes ∧
    MMappedMemory.init.capacity + 4 * 3
      ≤ (MMappedMemory.init.grow Policy.DONT_ACTUALLY_GROW 65536 4 3).capacity :=
  ⟨by decide,
    (grow_contract Policy.DONT_ACTUALLY_GROW 65536 MMappedMemory.init 4 3 (by decide)
      (by decide) test_mmap_ok (by decide) (by decide)
      (fun P hP => by cases hP)).1 rfl⟩

/-- Counterexample to C15 as stated. Under `DONT_ACTUALLY_GROW` an arena first grown with
chunk size `3` has capacity `4294967295`; a further `grow(1, 1)`, one byte that still lies
inside the reservation, leaves the capacity where it was. Likewise an arena first grown
with chunk size `4` keeps its capacity at a further `grow(4, 1)`. Under the policy that
commits pages of `4096` bytes, an arena of capacity `4096` grown by `grow(12288, 1)` gets
capacity `12288`, less than `4096 + 12288`: the old capacity is no multiple of the new
chunk size. -/
theorem grow_contract_counterexample :
    (MMappedMemory.init.grow Policy.DONT_ACTUALLY_GROW 65536 3 1).capacity = 4294967295 ∧
    (1 * 1) % SIZE_MOD ≠ 0 ∧
    (MMappedMemory.init.grow Policy.DONT_ACTUALLY_GROW 65536 3 1).capacity + 1 * 1
      ≤ default_num_bytes ∧
    ¬ ((MMappedMemory.init.grow Policy.DONT_ACTUALLY_GROW 65536 3 1).capacity + 1 * 1
      ≤ ((MMappedMemory.init.grow Policy.DONT_ACTUALLY_GROW 65536 3 1).grow
          Policy.DONT_ACTUALLY_GROW 131072 1 1).capacity) ∧
    (4 * 1) % SIZE_MOD ≠ 0 ∧ 4 * 1 ≤ default_num_bytes ∧
    ¬ ((MMappedMemory.init.grow Policy.DONT_ACTUALLY_GROW 65536 4 1).capacity + 4 * 1
      ≤ ((MMappedMemory.init.grow Policy.DONT_ACTUALLY_GROW 65536 4 1).grow
          Policy.DONT_ACTUALLY_GROW 131072 4 1).capacity) ∧
    (MMappedMemory.init.grow (Policy.actually_grow 4096) 65536 4096 1).capacity = 4096 ∧
    (12288 * 1) % SIZE_MOD ≠ 0 ∧
    (MMappedMemory.init.grow (Policy.actually_grow 4096) 65536 4096 1).capacity + 12288 * 1
      ≤ default_num_bytes ∧
    ((MMappedMemory.init.grow (Policy.actually_grow 4096) 65536 4096 1).grow
      (Policy.actually_grow 4096) 131072 12288 1).capacity = 12288 ∧
    ¬ ((MMappedMemory.init.grow (Policy.actually_grow 4096) 65536 4096 1).capacity + 12288 * 1
      ≤ ((MMappedMemory.init.grow (Policy.actually_grow 4096) 65536 4096 1).grow
          (Policy.actually_grow 4096) 131072 12288 1).capacity) := by
  decide

end SettledVector

/-! ## Round trip of `insert` and `erase`; the constructors -/

namespace SettledVector
variable {T : Type}

theorem take_cons_drop_erase (a : List T) (p : Nat) (x : T) (hp : p ≤ a.length) :
    (a.take p ++ x :: a.drop p).take p ++ (a.take p ++ x :: a.drop p).drop (p + 1) = a := by
  apply List.ext_getElem?
  intro i
  have hlen : p < (a.take p ++ x :: a.drop p).length := by
    simp only [List.length_append, List.length_cons, List.length_take, List.length_drop]
    omega
  rw [getElem?_take_drop_succ _ p hlen, getElem?_take_cons_drop a p x hp,
    getElem?_take_cons_drop a p x hp]
  by_cases h1 : i < p
  · rw [if_pos h1, if_pos h1]
  · rw [if_neg h1, if_neg (by omega), if_neg (by omega)]
    rfl

/-- C20: round trip of `insert` and `erase`. For a container that holds `a` with room for
one more element and an index `p <= a.length`, `insert(begin() + p, x)` followed by
`erase(begin() + p)` leaves the container holding `a` again: the same size, every element
at its original index, and for a non-empty `a` the same region start. -/
theorem insert_erase_round_trip (sz : Nat) (pol : Policy) (mm : Nat) (v : SettledVector)
    (h : Heap T) (a : List T) (p : Nat) (x : T)
    (hh : Holds sz pol v h a) (hmm : MmapOk pol mm) (hroom : Room sz pol v 1)
    (hp : p ≤ a.length) :
    Holds sz pol
      (erase sz (insert sz pol mm v h (cbegin v + p * sz) x).1
        (insert sz pol mm v h (cbegin v + p * sz) x).2
        (cbegin (insert sz pol mm v h (cbegin v + p * sz) x).1 + p * sz)).1
      (erase sz (insert sz pol mm v h (cbegin v + p * sz) x).1
        (insert sz pol mm v h (cbegin v + p * sz) x).2
        (cbegin (insert sz pol mm v h (cbegin v + p * sz) x).1 + p * sz)).2.1 a ∧
    size sz
      (erase sz (insert sz pol mm v h (cbegin v + p * sz) x).1
        (insert sz pol mm v h (cbegin v + p * sz) x).2
        (cbegin (insert sz pol mm v h (cbegin v + p * sz) x).1 + p * sz)).1 = size sz v ∧
    (∀ i, i < size sz v →
      get sz
        (erase sz (insert sz pol mm v h (cbegin v + p * sz) x).1
          (insert sz pol mm v h (cbegin v + p * sz) x).2
          (cbegin (insert sz pol mm v h (cbegin v + p * sz) x).1 + p * sz)).1
        (erase sz (insert sz pol mm v h (cbegin v + p * sz) x).1
          (insert sz pol mm v h (cbegin v + p * sz) x).2
          (cbegin (insert sz pol mm v h (cbegin v + p * sz) x).1 + p * sz)).2.1 i
        = get sz v h i) ∧
    (a ≠ [] →
      cbegin (erase sz (insert sz pol mm v h (cbegin v + p * sz) x).1
        (insert sz pol mm v h (cbegin v + p * sz) x).2
        (cbegin (insert sz pol mm v h (cbegin v + p * sz) x).1 + p * sz)).1 = cbegin v) := by
  have hI : Holds sz pol (insert sz pol mm v h (cbegin v + p * sz) x).1
      (insert sz pol mm v h (cbegin v + p * sz) x).2 (a.take p ++ x :: a.drop p) :=
    holds_emplace hh hmm hroom hp x
  have hlen : p < (a.take p ++ x :: a.drop p).length := by
    simp only [List.length_append, List.length_cons, List.length_take, List.length_drop]
    omega
  obtain ⟨hE, _, hfst⟩ := holds_erase hI hlen
  rw [take_cons_drop_erase a p x hp] at hE
  refine ⟨hE, ?_, ?_, ?_⟩
  · rw [hE.size_eq, hh.size_eq]
  · intro i hi
    rw [hh.size_eq] at hi
    rw [hE.get_eq hi, hh.get_eq hi]
  · intro hne
    rw [hfst]
    have hptr : (insert sz pol mm v h (cbegin v + p * sz) x).1.memory.ptr = v.memory.ptr := by
      unfold insert
      rw [emplace_fst]
      exact emplace_back_ptr mm h x hh.valid hmm hroom
        (hh.ptr_ne_zero (List.length_pos.2 hne))
    exact hptr

/-- Witness of C20: `insert(begin() + 1, 7)` then `erase(begin() + 1)` on `{1, 2, 3}`. -/
theorem insert_erase_round_trip_witness :
    Holds 4 Policy.DONT_ACTUALLY_GROW test_vector.1 test_vector.2 [1, 2, 3] ∧
    Holds 4 Policy.DONT_ACTUALLY_GROW
      (erase 4 (insert 4 Policy.DONT_ACTUALLY_GROW 65536 test_vector.1 test_vector.2
          (cbegin test_vector.1 + 1 * 4) 7).1
        (insert 4 Policy.DONT_ACTUALLY_GROW 65536 test_vector.1 test_vector.2
          (cbegin test_vector.1 + 1 * 4) 7).2
        (cbegin (insert 4 Policy.DONT_ACTUALLY_GROW 65536 test_vector.1 test_vector.2
          (cbegin test_vector.1 + 1 * 4) 7).1 + 1 * 4)).1
      (erase 4 (insert 4 Policy.DONT_ACTUALLY_GROW 65536 test_vector.1 test_vector.2
          (cbegin test_vector.1 + 1 * 4) 7).1
        (insert 4 Policy.DONT_ACTUALLY_GROW 65536 test_vector.1 test_vector.2
          (cbegin test_vector.1 + 1 * 4) 7).2
        (cbegin (insert 4 Policy.DONT_ACTUALLY_GROW 65536 test_vector.1 test_vector.2
          (cbegin test_vector.1 + 1 * 4) 7).1 + 1 * 4)).2.1 [1, 2, 3] :=
  ⟨test_vector_holds,
    (insert_erase_round_trip 4 Policy.DONT_ACTUALLY_GROW 65536 test_vector.1 test_vector.2
      [1, 2, 3] 1 7 test_vector_holds test_mmap_ok test_vector_room (by decide)).1⟩

end SettledVector

namespace SettledVector
variable {T : Type}

theorem grow_if_necessary_ptr_cases (sz : Nat) (pol : Policy) (mm : Nat) (v : SettledVector)
    (n : Nat) :
    (grow_if_necessary sz pol mm v n).memory.ptr = v.memory.ptr ∨
    (grow_if_necessary sz pol mm v n).memory.ptr = mm := by
  unfold grow_if_necessary
  split
  · exact Or.inl rfl
  · exact MMappedMemory.grow_ptr_cases pol mm v.memory _ _

/-- A valid container with a live element holds a reservation. -/
theorem Valid.ptr_ne_zero_of_size {sz : Nat} {pol : Policy} {v : SettledVector}
    (hv : Valid sz pol v) (hpos : 0 < size sz v) : v.memory.ptr ≠ 0 := by
  intro hp
  have h1 := hv.null hp
  have h2 := hv.end_eq
  have h3 := Nat.mul_pos hpos hv.sz_pos
  omega

/-- The placement-construction loop of the initializer-list constructor. -/
theorem list_fold_spec {sz : Nat} {pol : Policy} :
    ∀ (list : List T) (v : SettledVector) (h : Heap T) (a : List T),
      Holds sz pol v h a → v.end_ptr + list.length * sz ≤ v.memory.capacity_ptr →
      Holds sz pol
        (list.foldl (fun s value => ((⟨s.1.memory, s.1.end_ptr + sz⟩ : SettledVector),
          s.2.write s.1.end_ptr (some value))) (v, h)).1
        (list.foldl (fun s value => ((⟨s.1.memory, s.1.end_ptr + sz⟩ : SettledVector),
          s.2.write s.1.end_ptr (some value))) (v, h)).2 (a ++ list) ∧
      ∀ q, (q < v.end_ptr ∨ v.end_ptr + list.length * sz ≤ q) →
        (list.foldl (fun s value => ((⟨s.1.memory, s.1.end_ptr + sz⟩ : SettledVector),
          s.2.write s.1.end_ptr (some value))) (v, h)).2 q = h q := by
  intro list
  induction list with
  | nil =>
    intro v h a hh _
    rw [List.append_nil]
    exact ⟨hh, fun _ _ => rfl⟩
  | cons x xs ih =>
    intro v h a hh hroom
    have hsz := hh.valid.sz_pos
    rw [List.length_cons, Nat.add_mul, Nat.one_mul] at hroom
    rw [List.foldl_cons]
    have hH := holds_construct_at_end hh (by omega) x
    obtain ⟨r1, r2⟩ := ih ⟨v.memory, v.end_ptr + sz⟩ (h.write v.end_ptr (some x)) (a ++ [x]) hH
      (by simp only; omega)
    refine ⟨?_, ?_⟩
    · rw [List.append_assoc] at r1
      exact r1
    · intro q hq
      rw [List.length_cons, Nat.add_mul, Nat.one_mul] at hq
      rw [r2 q (by simp only; omega)]
      exact Heap.write_ne _ (by omega) _

/-- The initializer-list constructor. -/
theorem holds_list_ctor {sz : Nat} {pol : Policy} (mm : Nat) (h : Heap T) (list : List T)
    (hsz : 0 < sz) (hmm : MmapOk pol mm) (hroom : Room sz pol init list.length) :
    Holds sz pol (list_ctor sz pol mm h list).1 (list_ctor sz pol mm h list).2 list ∧
    (∀ q, ¬ InReservation (list_ctor sz pol mm h list).1 q →
      (list_ctor sz pol mm h list).2 q = h q) ∧
    (list ≠ [] → (list_ctor sz pol mm h list).1.memory.ptr = mm) := by
  have g := grow_if_necessary_spec mm (valid_init pol hsz) hmm hroom
  have hw := g.valid
  have hwe := hw.end_eq
  rw [g.size_eq, size_init, Nat.zero_mul, Nat.add_zero] at hwe
  have hw0 : Holds sz pol (grow_if_necessary sz pol mm init list.length) h ([] : List T) :=
    holds_nil_of_end hw hwe h
  obtain ⟨r1, r2⟩ := list_fold_spec list _ h [] hw0 g.room
  rw [List.nil_append] at r1
  have hmem : (list_ctor sz pol mm h list).1.memory
      = (grow_if_necessary sz pol mm init list.length).memory := by
    unfold list_ctor
    simp only
    rw [list_fold_fst]
  have hin := hw.in_reservation
  have hroomw := g.room
  refine ⟨r1, ?_, ?_⟩
  · intro q hq
    apply r2
    by_contra hcon
    apply hq
    refine ⟨?_, ?_, ?_⟩
    · rw [hmem]
      intro hp
      have := hw.null hp
      omega
    · rw [hmem]
      omega
    · rw [hmem]
      omega
  · intro hne
    rw [hmem]
    have hpos : 0 < list.length := List.length_pos.2 hne
    have hnz : (grow_if_necessary sz pol mm init list.length).memory.ptr ≠ 0 := by
      intro hp
      have := hw.null hp
      have := Nat.mul_pos hpos hsz
      omega
    rcases grow_if_necessary_ptr_cases sz pol mm init list.length with e | e
    · exact absurd e hnz
    · exact e

/-- The range constructor, one `push_back` per element, each finding room. -/
theorem holds_range_ctor {sz : Nat} {pol : Policy} (mm : Nat) (h : Heap T) (xs : List T)
    (hsz : 0 < sz) (hmm : MmapOk pol mm)
    (hroom : ∀ k, k < xs.length →
      Holds sz pol (range_ctor sz pol mm h (xs.take k)).1
        (range_ctor sz pol mm h (xs.take k)).2 (xs.take k) →
      Room sz pol (range_ctor sz pol mm h (xs.take k)).1 1) :
    ∀ k, k ≤ xs.length →
      Holds sz pol (range_ctor sz pol mm h (xs.take k)).1
        (range_ctor sz pol mm h (xs.take k)).2 (xs.take k) ∧
      (∀ q, ¬ InReservation (range_ctor sz pol mm h (xs.take k)).1 q →
        (range_ctor sz pol mm h (xs.take k)).2 q = h q) ∧
      ((range_ctor sz pol mm h (xs.take k)).1.memory.ptr = 0 →
        (range_ctor sz pol mm h (xs.take k)).2 = h) ∧
      (0 < k → (range_ctor sz pol mm h (xs.take k)).1.memory.ptr = mm) := by
  intro k
  induction k with
  | zero =>
    intro _
    rw [List.take_zero]
    exact ⟨holds_nil_of_end (valid_init pol hsz) rfl h, fun _ _ => rfl, fun _ => rfl,
      fun hk => absurd hk (Nat.lt_irrefl 0)⟩
  | succ k ih =>
    intro hk
    have hk' : k < xs.length := hk
    obtain ⟨i1, i2, i3, i4⟩ := ih (by omega)
    have hr := hroom k hk' i1
    have htake : xs.take (k + 1) = xs.take k ++ [xs.get ⟨k, hk'⟩] := by
      rw [List.take_succ, List.getElem?_eq_getElem hk']
      rfl
    rw [htake, range_ctor_snoc]
    have hH := holds_emplace_back i1 hmm hr (xs.get ⟨k, hk'⟩)
    have hfr := emplace_back_frame i1 hmm hr (xs.get ⟨k, hk'⟩)
    have hnz : (emplace_back sz pol mm (range_ctor sz pol mm h (xs.take k)).1
        (range_ctor sz pol mm h (xs.take k)).2 (xs.get ⟨k, hk'⟩)).1.memory.ptr ≠ 0 := by
      apply hH.valid.ptr_ne_zero_of_size
      rw [hH.size_eq, List.length_append, List.length_singleton]
      omega
    have hcases := grow_if_necessary_ptr_cases sz pol mm
      (range_ctor sz pol mm h (xs.take k)).1 1
    have hptr : (emplace_back sz pol mm (range_ctor sz pol mm h (xs.take k)).1
        (range_ctor sz pol mm h (xs.take k)).2 (xs.get ⟨k, hk'⟩)).1.memory.ptr = mm := by
      rcases hcases with e | e
      · rcases Nat.eq_zero_or_pos k with h0 | h0
        · exfalso
          apply hnz
          have : (range_ctor sz pol mm h (xs.take k)).1.memory.ptr = 0 := by
            rw [h0, List.take_zero]
            rfl
          exact e.trans this
        · exact e.trans (i4 h0)
      · exact e
    refine ⟨hH, ?_, fun hp => absurd hp hnz, fun _ => hptr⟩
    intro q hq
    have e1 : (push_back sz pol mm (range_ctor sz pol mm h (xs.take k)).1
        (range_ctor sz pol mm h (xs.take k)).2 (xs.get ⟨k, hk'⟩)).2 q
        = (range_ctor sz pol mm h (xs.take k)).2 q := hfr q hq
    rw [e1]
    by_cases hp : (range_ctor sz pol mm h (xs.take k)).1.memory.ptr = 0
    · rw [i3 hp]
    · apply i2
      intro hin
      apply hq
      have e2 := (grow_if_necessary_spec mm i1.valid hmm hr).ptr_eq hp
      obtain ⟨_, b1, b2⟩ := hin
      exact ⟨hnz, by rw [show (push_back sz pol mm (range_ctor sz pol mm h (xs.take k)).1
          (range_ctor sz pol mm h (xs.take k)).2 (xs.get ⟨k, hk'⟩)).1.memory.ptr
            = (range_ctor sz pol mm h (xs.take k)).1.memory.ptr from e2]; exact b1,
        by rw [show (push_back sz pol mm (range_ctor sz pol mm h (xs.take k)).1
          (range_ctor sz pol mm h (xs.take k)).2 (xs.get ⟨k, hk'⟩)).1.memory.ptr
            = (range_ctor sz pol mm h (xs.take k)).1.memory.ptr from e2]; exact b2⟩

end SettledVector

namespace SettledVector
variable {T : Type}

theorem room_init_of_fits {sz : Nat} {pol : Policy} {n : Nat}
    (hfit : n * sz ≤ default_num_bytes)
    (hcommit : pol ≠ Policy.DONT_ACTUALLY_GROW → Room sz pol init n) :
    Room sz pol init n := by
  cases pol with
  | DONT_ACTUALLY_GROW =>
    show (size sz init + n) * sz ≤ default_num_bytes
    rw [size_init, Nat.zero_add]
    exact hfit
  | actually_grow P => exact hcommit (fun e => Policy.noConfusion e)

theorem room_step_of_fits {sz : Nat} {pol : Policy} {v : SettledVector} {h : Heap T}
    {a : List T} {n : Nat} (hh : Holds sz pol v h a) (hlt : a.length < n)
    (hfit : n * sz ≤ default_num_bytes)
    (hcommit : pol ≠ Policy.DONT_ACTUALLY_GROW → Room sz pol v 1) :
    Room sz pol v 1 := by
  cases pol with
  | DONT_ACTUALLY_GROW =>
    show (size sz v + 1) * sz ≤ default_num_bytes
    rw [hh.size_eq]
    have : (a.length + 1) * sz ≤ n * sz := Nat.mul_le_mul_right sz hlt
    omega
  | actually_grow P => exact hcommit (fun e => Policy.noConfusion e)

/-- C14: construction family. For a sequence `xs` that fits the reservation, the
initializer-list constructor and the range constructor each yield a container of size
`xs.length` whose element at index `i` is `xs[i]`, so the two constructions, living in
separate reservations, compare equal for a reflexive element equality; the sized
constructor yields a container of size `n` whose `n` elements are default-initialised: for
a `value_type` whose default constructor leaves the value `d` it holds `n` copies of `d`,
and for a `value_type` whose default-initialisation performs no initialisation (as for
`int`) it stores nothing, each element being what the memory of its slot held; the default
constructor yields an empty container with size `0` and capacity `0`. -/
theorem construction_family [BEq T] (sz : Nat) (pol : Policy) (mm1 mm2 : Nat)
    (h h2 : Heap T) (xs : List T) (n : Nat) (hsz : 0 < sz)
    (hmm1 : MmapOk pol mm1) (hmm2 : MmapOk pol mm2) (hsep : Separate mm2 mm1)
    (hfit : xs.length * sz ≤ default_num_bytes) (hn : n * sz ≤ default_num_bytes)
    (hcommit : pol ≠ Policy.DONT_ACTUALLY_GROW →
      Room sz pol init xs.length ∧ Room sz pol init n ∧
      ∀ (h' : Heap T) k, k < xs.length →
        Room sz pol (range_ctor sz pol mm2 h' (xs.take k)).1 1) :
    (Holds sz pol (list_ctor sz pol mm1 h xs).1 (list_ctor sz pol mm1 h xs).2 xs ∧
      size sz (list_ctor sz pol mm1 h xs).1 = xs.length ∧
      ∀ i, i < xs.length →
        get sz (list_ctor sz pol mm1 h xs).1 (list_ctor sz pol mm1 h xs).2 i = xs[i]?) ∧
    (Holds sz pol (range_ctor sz pol mm2 h2 xs).1 (range_ctor sz pol mm2 h2 xs).2 xs ∧
      size sz (range_ctor sz pol mm2 h2 xs).1 = xs.length ∧
      ∀ i, i < xs.length →
        get sz (range_ctor sz pol mm2 h2 xs).1 (range_ctor sz pol mm2 h2 xs).2 i = xs[i]?) ∧
    ((∀ t : T, (t == t) = true) →
      eq sz (list_ctor sz pol mm1 h xs).1
        (range_ctor sz pol mm2 (list_ctor sz pol mm1 h xs).2 xs).1
        (range_ctor sz pol mm2 (list_ctor sz pol mm1 h xs).2 xs).2 = true) ∧
    ((∀ dflt : Option T,
        size sz (sized_ctor sz pol mm1 dflt h n).1 = n ∧
        Valid sz pol (sized_ctor sz pol mm1 dflt h n).1 ∧
        (0 < n → cbegin (sized_ctor sz pol mm1 dflt h n).1 = mm1)) ∧
      (∀ d : T,
        Holds sz pol (sized_ctor sz pol mm1 (some d) h n).1
          (sized_ctor sz pol mm1 (some d) h n).2 (List.replicate n d)) ∧
      (sized_ctor sz pol mm1 (none : Option T) h n).2 = h ∧
      (∀ i, i < n →
        get sz (sized_ctor sz pol mm1 (none : Option T) h n).1
          (sized_ctor sz pol mm1 (none : Option T) h n).2 i = h (mm1 + i * sz))) ∧
    (size sz init = 0 ∧ capacity sz init = 0 ∧ empty init = true) := by
  have hrange : ∀ h' : Heap T,
      Holds sz pol (range_ctor sz pol mm2 h' xs).1 (range_ctor sz pol mm2 h' xs).2 xs ∧
      (∀ q, ¬ InReservation (range_ctor sz pol mm2 h' xs).1 q →
        (range_ctor sz pol mm2 h' xs).2 q = h' q) ∧
      (xs ≠ [] → (range_ctor sz pol mm2 h' xs).1.memory.ptr = mm2) := by
    intro h'
    have hr : ∀ k, k < xs.length →
        Holds sz pol (range_ctor sz pol mm2 h' (xs.take k)).1
          (range_ctor sz pol mm2 h' (xs.take k)).2 (xs.take k) →
        Room sz pol (range_ctor sz pol mm2 h' (xs.take k)).1 1 := by
      intro k hk hH
      apply room_step_of_fits hH _ hfit (fun hp => (hcommit hp).2.2 h' k hk)
      rw [List.length_take]
      omega
    obtain ⟨r1, r2, _, r4⟩ := holds_range_ctor mm2 h' xs hsz hmm2 hr xs.length (le_refl _)
    rw [List.take_length] at r1 r2 r4
    exact ⟨r1, r2, fun hne => r4 (List.length_pos.2 hne)⟩
  obtain ⟨l1, l2, l3⟩ := holds_list_ctor mm1 h xs hsz hmm1
    (room_init_of_fits hfit (fun hp => (hcommit hp).1))
  have h0 : Holds sz pol init h ([] : List T) := holds_nil_of_end (valid_init pol hsz) rfl h
  have hnlt : n < SIZE_MOD := lt_size_mod_of_fits hsz hn
  have hroom0 : Room sz pol init n := room_init_of_fits hn (fun hp => (hcommit hp).2.1)
  have hroom1 : Room sz pol init (n - size sz init) := by
    rw [size_init, Nat.sub_zero]
    exact hroom0
  have hSv : ∀ dflt : Option T,
      size sz (sized_ctor sz pol mm1 dflt h n).1 = n ∧
      Valid sz pol (sized_ctor sz pol mm1 dflt h n).1 ∧
      (0 < n → cbegin (sized_ctor sz pol mm1 dflt h n).1 = mm1) := by
    intro dflt
    obtain ⟨v1, v2⟩ : Valid sz pol (sized_ctor sz pol mm1 dflt h n).1 ∧
        size sz (sized_ctor sz pol mm1 dflt h n).1 = n :=
      valid_resize mm1 dflt h (valid_init pol hsz) hmm1 hnlt hroom1
    refine ⟨v2, v1, ?_⟩
    intro hpos
    have hne : (sized_ctor sz pol mm1 dflt h n).1.memory.ptr ≠ 0 :=
      Valid.ptr_ne_zero_of_size v1 (by rw [v2]; exact hpos)
    have hfst := resize_fst hsz pol mm1 dflt init h n _
      (reserve_spec mm1 (valid_init pol hsz) hmm1 hnlt hroom1).valid.end_eq
    have hptr : (sized_ctor sz pol mm1 dflt h n).1.memory.ptr
        = (reserve sz pol mm1 init n).memory.ptr := by
      rw [sized_ctor, hfst]
    rcases reserve_ptr_cases sz pol mm1 init n with e | e
    · exfalso
      apply hne
      rw [hptr, e]
      rfl
    · show (sized_ctor sz pol mm1 dflt h n).1.memory.ptr = mm1
      rw [hptr, e]
  have hS : ∀ d : T,
      Holds sz pol (sized_ctor sz pol mm1 (some d) h n).1
        (sized_ctor sz pol mm1 (some d) h n).2 (List.replicate n d) := by
    intro d
    have := (holds_resize mm1 d h0 hmm1 hnlt
      (by
        rw [List.length_nil, Nat.sub_zero]
        exact hroom0)).1
    rw [List.take_nil, List.nil_append, List.length_nil, Nat.sub_zero] at this
    exact this
  have hN : (sized_ctor sz pol mm1 (none : Option T) h n).2 = h := by
    rw [sized_ctor, resize_eq_extend mm1 none h0 hmm1 hnlt hroom1 (Nat.zero_le _)]
    exact resize_extend_none sz n n _ h
  refine ⟨⟨l1, l1.size_eq, fun i hi => l1.get_eq hi⟩,
    ⟨(hrange h2).1, (hrange h2).1.size_eq, fun i hi => (hrange h2).1.get_eq hi⟩, ?_,
    ⟨hSv, hS, hN, ?_⟩, ?_⟩
  · intro hrefl
    obtain ⟨r1, r2, r3⟩ := hrange (list_ctor sz pol mm1 h xs).2
    have hl : Holds sz pol (list_ctor sz pol mm1 h xs).1
        (range_ctor sz pol mm2 (list_ctor sz pol mm1 h xs).2 xs).2 xs := by
      apply l1.of_frame _ r2
      intro hne
      rw [r3 hne, l3 hne]
      exact hsep
    exact eq_of_same_sequence hrefl hl r1
  · intro i hi
    unfold get
    rw [hN, (hSv none).2.2 (by omega)]
  · refine ⟨size_init sz, ?_, rfl⟩
    simp [capacity, init, MMappedMemory.init, MMappedMemory.capacity]

/-- Witness of C14: the constructions of `{1, 2, 3}`. -/
theorem construction_family_witness :
    Holds 4 Policy.DONT_ACTUALLY_GROW
      (list_ctor 4 Policy.DONT_ACTUALLY_GROW 65536 Heap.empty [(1 : Int), 2, 3]).1
      (list_ctor 4 Policy.DONT_ACTUALLY_GROW 65536 Heap.empty [(1 : Int), 2, 3]).2 [1, 2, 3] ∧
    Holds 4 Policy.DONT_ACTUALLY_GROW
      (range_ctor 4 Policy.DONT_ACTUALLY_GROW 8589934592 Heap.empty [(1 : Int), 2, 3]).1
      (range_ctor 4 Policy.DONT_ACTUALLY_GROW 8589934592 Heap.empty [(1 : Int), 2, 3]).2
      [1, 2, 3] :=
  ⟨(construction_family 4 Policy.DONT_ACTUALLY_GROW 65536 8589934592 Heap.empty Heap.empty
      [(1 : Int), 2, 3] 2 (by decide) test_mmap_ok ⟨by decide, fun P hP => by cases hP⟩
      (Or.inr (by decide)) (by decide) (by decide) (fun hp => absurd rfl hp)).1.1,
    (construction_family 4 Policy.DONT_ACTUALLY_GROW 65536 8589934592 Heap.empty Heap.empty
      [(1 : Int), 2, 3] 2 (by decide) test_mmap_ok ⟨by decide, fun P hP => by cases hP⟩
      (Or.inr (by decide)) (by decide) (by decide) (fun hp => absurd rfl hp)).2.1.1⟩

end SettledVector

/-! ## Growth across a page boundary under the policy that commits pages -/

namespace SettledVector
variable {T : Type}

theorem round_up_of_pos_le {P y : Nat} (hy : 0 < y) (hle : y ≤ P) : round_up P y = P := by
  unfold round_up
  rcases Nat.eq_or_lt_of_le hle with e | hlt
  · subst e
    simp
  · rw [Nat.mod_eq_of_lt hlt, Nat.mod_eq_of_lt (by omega)]
    omega

theorem reserve_init_memory (sz : Nat) (pol : Policy) (mm : Nat) {n : Nat} (hn : 0 < n)
    (hlt : n < SIZE_MOD) :
    (reserve sz pol mm init n).memory = MMappedMemory.init.grow pol mm sz n := by
  have hc : capacity sz init = 0 := by
    simp [capacity, init, MMappedMemory.init, MMappedMemory.capacity]
  have hd : ptr_diff sz init.memory.end_ init.end_ptr = 0 := by
    simp [ptr_diff, init, MMappedMemory.init, MMappedMemory.end_]
  unfold reserve
  rw [hc, if_pos hn, size_init, Nat.sub_zero, Nat.add_mod_right, Nat.mod_eq_of_lt hlt]
  unfold grow_if_necessary
  rw [hd, if_neg (by omega), hc, Nat.max_eq_left (Nat.zero_le _)]
  rfl

theorem grow_if_necessary_full_memory (sz : Nat) (pol : Policy) {v : SettledVector}
    (mm : Nat) {n : Nat} (hn : 0 < n) (hfull : v.end_ptr = v.memory.capacity_ptr) :
    (grow_if_necessary sz pol mm v n).memory
      = v.memory.grow pol mm sz (max n (capacity sz v)) := by
  have hd : ptr_diff sz v.memory.end_ v.end_ptr = 0 := by
    simp [ptr_diff, MMappedMemory.end_, hfull]
  unfold grow_if_necessary
  rw [hd, if_neg (by omega)]

/-- C17: growth boundary under the policy that commits pages. For a page size `P > 0` (an
`int` value, as `getpagesize()` returns it), an element size `s` with `1 <= s <= P` and a
page-aligned `mmap` result, the container constructed with `n = P / s` elements has
capacity `P / s`; after one further `push_back` its capacity is `(2 * P) / s`, which is at
least the next page boundary divided by the element size and more than before, and the
first `n` elements are at the same indices and addresses with the same values, whatever
default-initialisation left in them. -/
theorem growth_boundary (P s mm : Nat) (dflt : Option T) (x : T) (h : Heap T) (hP : 0 < P)
    (hPint : P < 2 ^ 31) (hs : 1 ≤ s) (hsP : s ≤ P)
    (hmm : MmapOk (Policy.actually_grow P) mm) :
    capacity s (sized_ctor s (Policy.actually_grow P) mm dflt h (P / s)).1 = P / s ∧
    size s (sized_ctor s (Policy.actually_grow P) mm dflt h (P / s)).1 = P / s ∧
    capacity s (push_back s (Policy.actually_grow P) mm
      (sized_ctor s (Policy.actually_grow P) mm dflt h (P / s)).1
      (sized_ctor s (Policy.actually_grow P) mm dflt h (P / s)).2 x).1 = (2 * P) / s ∧
    (P + P) / s ≤ capacity s (push_back s (Policy.actually_grow P) mm
      (sized_ctor s (Policy.actually_grow P) mm dflt h (P / s)).1
      (sized_ctor s (Policy.actually_grow P) mm dflt h (P / s)).2 x).1 ∧
    P / s < (2 * P) / s ∧
    cbegin (push_back s (Policy.actually_grow P) mm
      (sized_ctor s (Policy.actually_grow P) mm dflt h (P / s)).1
      (sized_ctor s (Policy.actually_grow P) mm dflt h (P / s)).2 x).1
      = cbegin (sized_ctor s (Policy.actually_grow P) mm dflt h (P / s)).1 ∧
    (∀ i, i < P / s →
      get s (push_back s (Policy.actually_grow P) mm
        (sized_ctor s (Policy.actually_grow P) mm dflt h (P / s)).1
        (sized_ctor s (Policy.actually_grow P) mm dflt h (P / s)).2 x).1
        (push_back s (Policy.actually_grow P) mm
        (sized_ctor s (Policy.actually_grow P) mm dflt h (P / s)).1
        (sized_ctor s (Policy.actually_grow P) mm dflt h (P / s)).2 x).2 i
      = get s (sized_ctor s (Policy.actually_grow P) mm dflt h (P / s)).1
          (sized_ctor s (Policy.actually_grow P) mm dflt h (P / s)).2 i) := by
  have hspos : 0 < s := hs
  have hn1 : 0 < P / s := Nat.div_pos hsP hspos
  have hnle : s * (P / s) ≤ P := Nat.mul_div_le P s
  have hnpos : 0 < s * (P / s) := Nat.mul_pos hspos hn1
  have hR : P + P ≤ default_num_bytes := by
    rw [default_num_bytes_eq]
    omega
  have hnlt : P / s < SIZE_MOD := by
    have := Nat.div_le_self P s
    rw [size_mod_eq]
    omega
  have hup : round_up P (s * (P / s)) = P := round_up_of_pos_le hnpos hnle
  have hwrap : round_up P (s * (P / s)) < SIZE_MOD := by
    rw [hup, size_mod_eq]
    omega
  have hcap0 : capacity s init = 0 := by
    simp [capacity, init, MMappedMemory.init, MMappedMemory.capacity]
  -- the sized constructor
  have hroom0 : Room s (Policy.actually_grow P) init (P / s - size s init) := by
    rw [size_init, Nat.sub_zero]
    refine Or.inr ?_
    rw [hcap0, Nat.max_eq_left (Nat.zero_le _), hup]
    have : init.memory.capacity = 0 := rfl
    rw [this, round_up_zero]
    omega
  obtain ⟨hv0, hsize0⟩ : Valid s (Policy.actually_grow P)
        (sized_ctor s (Policy.actually_grow P) mm dflt h (P / s)).1 ∧
      size s (sized_ctor s (Policy.actually_grow P) mm dflt h (P / s)).1 = P / s :=
    valid_resize mm dflt h (valid_init _ hspos) hmm hnlt hroom0
  have hmem0 : (sized_ctor s (Policy.actually_grow P) mm dflt h (P / s)).1.memory
      = MMappedMemory.init.grow (Policy.actually_grow P) mm s (P / s) := by
    rw [sized_ctor, resize_memory, reserve_init_memory s _ mm hn1 hnlt]
  have hgrow0 := grow_commit_capacity P mm MMappedMemory.init s (P / s)
    (by simpa [MMappedMemory.init] using hmm.2 P rfl) (le_refl _) (fun _ => rfl)
    (Nat.pos_iff_ne_zero.1 hnpos) hwrap
  have hbytes0 : (sized_ctor s (Policy.actually_grow P) mm dflt h (P / s)).1.memory.capacity
      = (P / s) * s := by
    rw [hmem0, hgrow0.2, hup]
    have : MMappedMemory.init.capacity = 0 := rfl
    rw [this, round_up_zero, Nat.zero_add]
  have hc0 : capacity s (sized_ctor s (Policy.actually_grow P) mm dflt h (P / s)).1 = P / s := by
    unfold capacity
    rw [hbytes0, Nat.mul_div_cancel _ hspos]
  -- the container is full
  have hfull : (sized_ctor s (Policy.actually_grow P) mm dflt h (P / s)).1.end_ptr
      = (sized_ctor s (Policy.actually_grow P) mm dflt h (P / s)).1.memory.capacity_ptr := by
    have e1 := hv0.end_eq
    have e2 := hv0.cap_eq
    rw [hsize0] at e1
    rw [hc0] at e2
    omega
  have hp0 : (sized_ctor s (Policy.actually_grow P) mm dflt h (P / s)).1.memory.ptr ≠ 0 :=
    hv0.ptr_ne_zero_of_size (by rw [hsize0]; exact hn1)
  have hupc : round_up P
      (sized_ctor s (Policy.actually_grow P) mm dflt h (P / s)).1.memory.capacity = P := by
    rw [hbytes0, Nat.mul_comm]
    exact hup
  have hmax : max 1 (capacity s (sized_ctor s (Policy.actually_grow P) mm dflt h (P / s)).1)
      = P / s := by
    rw [hc0]
    omega
  have hroom1 : Room s (Policy.actually_grow P)
      (sized_ctor s (Policy.actually_grow P) mm dflt h (P / s)).1 1 := by
    refine Or.inr ?_
    rw [hmax, hupc, hup]
    exact hR
  -- the push_back
  have hmem1 : (emplace_back s (Policy.actually_grow P) mm
      (sized_ctor s (Policy.actually_grow P) mm dflt h (P / s)).1
      (sized_ctor s (Policy.actually_grow P) mm dflt h (P / s)).2 x).1.memory
      = (sized_ctor s (Policy.actually_grow P) mm dflt h (P / s)).1.memory.grow
          (Policy.actually_grow P) mm s (P / s) := by
    have := grow_if_necessary_full_memory s (Policy.actually_grow P) mm
      (Nat.one_pos) hfull
    rw [hmax] at this
    exact this
  have hgrow1 := grow_commit_capacity P mm
    (sized_ctor s (Policy.actually_grow P) mm dflt h (P / s)).1.memory s (P / s)
    (by rw [if_neg hp0]; exact hv0.page_aligned P rfl)
    (le_trans hv0.begin_le hv0.end_le) (fun hp => absurd hp hp0)
    (Nat.pos_iff_ne_zero.1 hnpos) hwrap
  have hc1 : capacity s (emplace_back s (Policy.actually_grow P) mm
      (sized_ctor s (Policy.actually_grow P) mm dflt h (P / s)).1
      (sized_ctor s (Policy.actually_grow P) mm dflt h (P / s)).2 x).1 = (2 * P) / s := by
    unfold capacity
    rw [hmem1, hgrow1.2, hupc, hup, Nat.mul_div_cancel _ hspos, Nat.two_mul]
  have hlt : P / s < (2 * P) / s := by
    have h1 : P / s + 1 ≤ (P + s) / s := by
      rw [Nat.add_div_right _ hspos]
    have h2 : (P + s) / s ≤ (2 * P) / s := Nat.div_le_div_right (by omega)
    omega
  refine ⟨hc0, hsize0, hc1, ?_, hlt, ?_, ?_⟩
  · show (P + P) / s ≤ capacity s (emplace_back s (Policy.actually_grow P) mm
      (sized_ctor s (Policy.actually_grow P) mm dflt h (P / s)).1
      (sized_ctor s (Policy.actually_grow P) mm dflt h (P / s)).2 x).1
    rw [hc1, Nat.two_mul]
  · exact emplace_back_ptr mm _ x hv0 hmm hroom1 hp0
  · intro i hi
    have hend := hv0.end_eq
    rw [hsize0] at hend
    have he0 : (sized_ctor s (Policy.actually_grow P) mm dflt h (P / s)).1.end_ptr ≠ 0 := by
      have := hv0.begin_le
      omega
    obtain ⟨g1, g2⟩ := grow_if_necessary_stable s (Policy.actually_grow P) mm
      (sized_ctor s (Policy.actually_grow P) mm dflt h (P / s)).1 1 hp0 he0
    show (emplace_back s (Policy.actually_grow P) mm
        (sized_ctor s (Policy.actually_grow P) mm dflt h (P / s)).1
        (sized_ctor s (Policy.actually_grow P) mm dflt h (P / s)).2 x).2
        (cbegin (emplace_back s (Policy.actually_grow P) mm
          (sized_ctor s (Policy.actually_grow P) mm dflt h (P / s)).1
          (sized_ctor s (Policy.actually_grow P) mm dflt h (P / s)).2 x).1 + i * s)
      = (sized_ctor s (Policy.actually_grow P) mm dflt h (P / s)).2
        (cbegin (sized_ctor s (Policy.actually_grow P) mm dflt h (P / s)).1 + i * s)
    simp only [emplace_back, cbegin, MMappedMemory.begin]
    rw [g1, g2, hend]
    exact Heap.write_ne _ (addr_ne hspos _ (Nat.ne_of_lt hi)) _

/-- Witness of C17: pages of `4096` bytes and elements of `36` bytes, as in the test
`odd_size`; the default constructor of its `thirty_six_bytes` stores a value, here `0`. -/
theorem growth_boundary_witness :
    MmapOk (Policy.actually_grow 4096) 65536 ∧
    capacity 36 (sized_ctor 36 (Policy.actually_grow 4096) 65536 (some (0 : Int)) Heap.empty
      (4096 / 36)).1 = 4096 / 36 ∧
    capacity 36 (push_back 36 (Policy.actually_grow 4096) 65536
      (sized_ctor 36 (Policy.actually_grow 4096) 65536 (some (0 : Int)) Heap.empty (4096 / 36)).1
      (sized_ctor 36 (Policy.actually_grow 4096) 65536 (some (0 : Int)) Heap.empty (4096 / 36)).2
      0).1 = (2 * 4096) / 36 :=
  ⟨⟨by decide, fun P hP => by cases hP; decide⟩,
    (growth_boundary 4096 36 65536 (some (0 : Int)) 0 Heap.empty (by decide) (by decide)
      (by decide) (by decide) ⟨by decide, fun P hP => by cases hP; decide⟩).1,
    (growth_boundary 4096 36 65536 (some (0 : Int)) 0 Heap.empty (by decide) (by decide)
      (by decide) (by decide) ⟨by decide, fun P hP => by cases hP; decide⟩).2.2.1⟩

end SettledVector

/-! ## Monotone capacity in every reachable state -/

namespace SettledVector
variable {T : Type}

theorem Valid.chunkAligned {sz : Nat} {pol : Policy} {v : SettledVector}
    (hv : Valid sz pol v) : ChunkAligned sz v.memory :=
  ⟨le_trans hv.begin_le hv.end_le, hv.cap_aligned, fun hp => (hv.null hp).1⟩

theorem chunkAligned_init (sz : Nat) : ChunkAligned sz init.memory :=
  ⟨le_refl _, by simp [init, MMappedMemory.init], fun _ => rfl⟩

theorem chunkAligned_grow {sz : Nat} (pol : Policy) {mm : Nat} {m : MMappedMemory} (k : Nat)
    (hmm : mm ≠ 0) (hm : ChunkAligned sz m) : ChunkAligned sz (m.grow pol mm sz k) :=
  MMappedMemory.grow_inv pol mm m sz k hmm hm.1 hm.2.1 hm.2.2

theorem chunkAligned_grow_if_necessary {sz : Nat} (pol : Policy) {mm : Nat}
    {v : SettledVector} (n : Nat) (hmm : mm ≠ 0) (hm : ChunkAligned sz v.memory) :
    ChunkAligned sz (grow_if_necessary sz pol mm v n).memory := by
  unfold grow_if_necessary
  split
  · exact hm
  · exact chunkAligned_grow pol _ hmm hm

theorem chunkAligned_reserve {sz : Nat} (pol : Policy) {mm : Nat}
    {v : SettledVector} (n : Nat) (hmm : mm ≠ 0) (hm : ChunkAligned sz v.memory) :
    ChunkAligned sz (reserve sz pol mm v n).memory := by
  unfold reserve
  split
  · exact chunkAligned_grow_if_necessary pol _ hmm hm
  · exact hm

theorem copy_loop_memory (sz last : Nat) :
    ∀ (fuel it : Nat) (v : SettledVector) (h : Heap T),
      (copy_loop sz last fuel it v h).1.memory = v.memory := by
  intro fuel
  induction fuel with
  | zero => intro it v h; rfl
  | succ f ih =>
    intro it v h
    simp only [copy_loop]
    split
    · rfl
    · rw [ih]

theorem range_ctor_chunkAligned {sz : Nat} (pol : Policy) {mm : Nat} (h : Heap T)
    (hmm : mm ≠ 0) :
    ∀ (k : Nat) (xs : List T), xs.length = k →
      ChunkAligned sz (range_ctor sz pol mm h xs).1.memory := by
  intro k
  induction k with
  | zero =>
    intro xs hk
    rw [List.length_eq_zero.1 hk]
    exact chunkAligned_init sz
  | succ k ih =>
    intro xs hk
    have hne : xs ≠ [] := by
      intro e
      rw [e] at hk
      simp at hk
    rw [← List.dropLast_append_getLast hne, range_ctor_snoc]
    exact chunkAligned_grow_if_necessary pol 1 hmm
      (ih xs.dropLast (by rw [List.length_dropLast, hk]; rfl))

/-- The arena of every reachable container, whatever the room left, has a usable range of
whole elements. -/
theorem chunkAligned_of_reachable {sz : Nat} {pol : Policy}
    {fits : SettledVector → Nat → Prop} {v : SettledVector}
    (hr : Reachable T sz pol fits v) : ChunkAligned sz v.memory := by
  induction hr with
  | default_ctor => exact chunkAligned_init sz
  | sized_ctor mm dflt h n hmm _ _ =>
    rw [sized_ctor, resize_memory]
    exact chunkAligned_reserve pol n hmm.1 (chunkAligned_init sz)
  | range_ctor mm h xs hmm _ => exact range_ctor_chunkAligned pol h hmm.1 xs.length xs rfl
  | copy_ctor mm h other _ hmm _ _ =>
    unfold copy_ctor
    simp only
    rw [copy_loop_memory]
    exact chunkAligned_reserve pol _ hmm.1 (chunkAligned_init sz)
  | move_ctor other _ ih => exact ih
  | moved_from other _ _ => exact chunkAligned_init sz
  | list_ctor mm h list hmm _ =>
    unfold list_ctor
    simp only
    rw [list_fold_fst]
    exact chunkAligned_grow_if_necessary pol _ hmm.1 (chunkAligned_init sz)
  | push_back mm h v x _ hmm _ ih => exact chunkAligned_grow_if_necessary pol 1 hmm.1 ih
  | emplace_back mm h v x _ hmm _ ih => exact chunkAligned_grow_if_necessary pol 1 hmm.1 ih
  | insert mm h v p x _ hmm _ _ ih =>
    unfold insert
    rw [emplace_fst]
    exact chunkAligned_grow_if_necessary pol 1 hmm.1 ih
  | emplace mm h v p x _ hmm _ _ ih =>
    rw [emplace_fst]
    exact chunkAligned_grow_if_necessary pol 1 hmm.1 ih
  | pop_back h v _ _ ih => exact ih
  | erase h v p _ _ ih => exact ih
  | clear h v _ ih =>
    unfold clear
    rw [clear_loop_memory]
    exact ih
  | resize mm dflt h v n _ hmm _ _ ih =>
    rw [resize_memory]
    exact chunkAligned_reserve pol n hmm.1 ih
  | reserve mm v n _ hmm _ _ ih => exact chunkAligned_reserve pol n hmm.1 ih
  | swap_self a b _ _ _ ihb => exact ihb
  | swap_other a b _ _ iha _ => exact iha
  | assign h self other _ _ _ iho => exact iho

theorem capacity_le_grow_if_necessary_of_aligned {sz : Nat} (pol : Policy) (mm : Nat)
    {v : SettledVector} (n : Nat) (hm : ChunkAligned sz v.memory) :
    capacity sz v ≤ capacity sz (grow_if_necessary sz pol mm v n) := by
  unfold grow_if_necessary
  split
  · exact le_refl _
  · simp only [capacity]
    apply Nat.div_le_div_right
    exact MMappedMemory.grow_capacity_mono pol mm v.memory sz _ hm.1 hm.2.1 hm.2.2

theorem capacity_le_reserve_of_aligned {sz : Nat} (pol : Policy) (mm : Nat)
    {v : SettledVector} (n : Nat) (hm : ChunkAligned sz v.memory) :
    capacity sz v ≤ capacity sz (reserve sz pol mm v n) := by
  unfold reserve
  split
  · exact capacity_le_grow_if_necessary_of_aligned pol mm _ hm
  · exact le_refl _

/-- C12: `capacity()` is non-decreasing. For every container state, which is to say every
state whose arena has a usable range of whole elements, as every valid state and every
state reachable from the constructors has, with or without room left in the reservation,
`push_back`, `emplace_back`, `insert`, `emplace`, `pop_back`, `erase`, `clear`, `resize`
and `reserve` leave a capacity at least the one before; and the arena's `grow`, called with
the chunk size of all its earlier calls, never decreases `capacity_ptr - ptr`. -/
theorem capacity_non_decreasing (sz : Nat) (pol : Policy) (mm : Nat) (v : SettledVector)
    (h : Heap T) (hm : ChunkAligned sz v.memory) :
    (∀ x : T, capacity sz v ≤ capacity sz (push_back sz pol mm v h x).1) ∧
    (∀ x : T, capacity sz v ≤ capacity sz (emplace_back sz pol mm v h x).1) ∧
    (∀ (position : Nat) (x : T),
      capacity sz v ≤ capacity sz (insert sz pol mm v h position x).1) ∧
    (∀ (position : Nat) (x : T),
      capacity sz v ≤ capacity sz (emplace sz pol mm v h position x).1) ∧
    capacity sz v ≤ capacity sz (pop_back sz v h).1 ∧
    (∀ position : Nat, capacity sz v ≤ capacity sz (erase sz v h position).1) ∧
    capacity sz v ≤ capacity sz (clear sz v h).1 ∧
    (∀ (dflt : Option T) (n : Nat),
      capacity sz v ≤ capacity sz (resize sz pol mm dflt v h n).1) ∧
    (∀ n : Nat, capacity sz v ≤ capacity sz (reserve sz pol mm v n)) ∧
    (∀ (m : MMappedMemory) (r c k : Nat), GrownWith pol c m →
      m.capacity ≤ (m.grow pol r c k).capacity) ∧
    (∀ w : SettledVector, Valid sz pol w → ChunkAligned sz w.memory) ∧
    (∀ (fits : SettledVector → Nat → Prop) (w : SettledVector),
      Reachable T sz pol fits w → ChunkAligned sz w.memory) := by
  have hg : ∀ x : T, capacity sz v ≤ capacity sz (emplace_back sz pol mm v h x).1 :=
    fun x => capacity_le_grow_if_necessary_of_aligned pol mm 1 hm
  have hi : ∀ (position : Nat) (x : T),
      capacity sz v ≤ capacity sz (emplace sz pol mm v h position x).1 := by
    intro position x
    rw [emplace_fst]
    exact hg x
  refine ⟨hg, hg, hi, hi, le_refl _, fun _ => le_refl _, ?_, ?_, ?_, ?_,
    fun w hw => hw.chunkAligned, fun fits w hw => chunkAligned_of_reachable hw⟩
  · simp only [capacity, clear]
    rw [clear_loop_memory]
  · intro dflt n
    simp only [capacity]
    rw [resize_memory]
    exact capacity_le_reserve_of_aligned pol mm n hm
  · intro n
    exact capacity_le_reserve_of_aligned pol mm n hm
  · intro m r c k hm2
    obtain ⟨h1, h2, h3⟩ := hm2.inv
    exact MMappedMemory.grow_capacity_mono pol r m c k h1 h2 h3

/-- Witness of C12: `push_back(5)` on the test container `{1, 2, 3}`. -/
theorem capacity_non_decreasing_witness :
    ChunkAligned 4 test_vector.1.memory ∧
    capacity 4 test_vector.1 ≤ capacity 4
      (push_back 4 Policy.DONT_ACTUALLY_GROW 65536 test_vector.1 test_vector.2 5).1 :=
  ⟨test_vector_holds.1.chunkAligned,
    (capacity_non_decreasing 4 Policy.DONT_ACTUALLY_GROW 65536 test_vector.1 test_vector.2
      test_vector_holds.1.chunkAligned).1 5⟩

end SettledVector
